import Mathlib

/-!
# Verification of the `inifmt` INI formatter core

Shallow embedding of the formatting core of `src/main.go` (functions
`alignIni`, `alignSection`, `singleSpaceFormat` and the header
normalization pre-pass inside `alignIni`).  Lines are modelled as
`List Char`; whitespace is modelled as the ASCII subset of Go's
`unicode.IsSpace` (the inputs of interest are single text lines, which
contain no newline characters).
-/

namespace Inifmt

/-- One raw text line. -/
abbrev Str := List Char

/-- ASCII whitespace, the relevant fragment of Go's `unicode.IsSpace`. -/
def isWS (c : Char) : Bool :=
  c == ' ' || c == '\t' || c == '\n' || c == '\x0b' || c == '\x0c' || c == '\r'

/-- The cutset of `strings.TrimRight(s, " \t")`. -/
def isSpTab (c : Char) : Bool :=
  c == ' ' || c == '\t'

/-- Drop the longest suffix of characters satisfying `p`. -/
def rtrim (p : Char → Bool) (l : Str) : Str :=
  (l.reverse.dropWhile p).reverse

/-- `strings.TrimRight(s, " \t")`. -/
def trimRight (l : Str) : Str :=
  rtrim isSpTab l

/-- `strings.TrimSpace`. -/
def trimSpace (l : Str) : Str :=
  rtrim isWS (l.dropWhile isWS)

/-- Split a list at the first occurrence of `c`: `strings.Index` plus the
two slices `s[:i]` and `s[i+1:]` the Go code takes around it.  `none`
when `c` does not occur. -/
def splitAtFirst (c : Char) : Str → Option (Str × Str)
  | [] => none
  | x :: xs =>
    if x = c then some ([], xs)
    else (splitAtFirst c xs).map (fun p => (x :: p.1, p.2))

theorem dropWhile_length_le {α : Type} (p : α → Bool) (l : List α) :
    (l.dropWhile p).length ≤ l.length := by
  induction l with
  | nil => simp [List.dropWhile]
  | cons a l ih =>
    by_cases h : p a
    · simp only [List.dropWhile, h]
      exact Nat.le_trans ih (Nat.le_succ _)
    · simp [List.dropWhile, h]

/-- Fuel-bounded worker for `fields`; the fuel is structural so that the
kernel can evaluate it on concrete inputs. -/
def fieldsGo : Str → Nat → List Str
  | _, 0 => []
  | l, fuel + 1 =>
    match l with
    | [] => []
    | c :: l =>
      if isWS c then fieldsGo l fuel
      else (c :: l.takeWhile (fun d => !isWS d)) ::
        fieldsGo (l.dropWhile (fun d => !isWS d)) fuel

/-- `strings.Fields`: maximal runs of non-whitespace characters. -/
def fields (l : Str) : List Str := fieldsGo l l.length

theorem fieldsGo_fuel : ∀ (n m : Nat) (l : Str), l.length ≤ n → l.length ≤ m →
    fieldsGo l n = fieldsGo l m := by
  intro n
  induction n with
  | zero =>
    intro m l hn hm
    have hl : l = [] := List.eq_nil_of_length_eq_zero (Nat.le_zero.mp hn)
    subst hl
    cases m with
    | zero => rfl
    | succ m => rfl
  | succ n ih =>
    intro m l hn hm
    cases l with
    | nil =>
      cases m with
      | zero => rfl
      | succ m => rfl
    | cons c l =>
      cases m with
      | zero =>
        exact absurd hm (by simp)
      | succ m =>
        show (if isWS c then fieldsGo l n
            else (c :: l.takeWhile (fun d => !isWS d)) ::
              fieldsGo (l.dropWhile (fun d => !isWS d)) n) =
          (if isWS c then fieldsGo l m
            else (c :: l.takeWhile (fun d => !isWS d)) ::
              fieldsGo (l.dropWhile (fun d => !isWS d)) m)
        have hn' : l.length ≤ n := by
          simp only [List.length_cons] at hn
          omega
        have hm' : l.length ≤ m := by
          simp only [List.length_cons] at hm
          omega
        by_cases h : isWS c
        · rw [if_pos h, if_pos h, ih m l hn' hm']
        · rw [if_neg h, if_neg h,
            ih m (l.dropWhile (fun d => !isWS d))
              (Nat.le_trans (dropWhile_length_le _ _) hn')
              (Nat.le_trans (dropWhile_length_le _ _) hm')]

theorem fields_ind {motive : Str → Prop} (case1 : motive [])
    (case2 : ∀ (c : Char) (l : Str), isWS c = true → motive l → motive (c :: l))
    (case3 : ∀ (c : Char) (l : Str), ¬(isWS c = true) →
      motive (l.dropWhile (fun d => !isWS d)) → motive (c :: l)) :
    ∀ l, motive l := by
  have key : ∀ (n : Nat) (l : Str), l.length ≤ n → motive l := by
    intro n
    induction n with
    | zero =>
      intro l hl
      have : l = [] := List.eq_nil_of_length_eq_zero (Nat.le_zero.mp hl)
      subst this
      exact case1
    | succ n ih =>
      intro l hl
      cases l with
      | nil => exact case1
      | cons c l =>
        have hl' : l.length ≤ n := by
          simp only [List.length_cons] at hl
          omega
        by_cases h : isWS c = true
        · exact case2 c l h (ih l hl')
        · exact case3 c l h
            (ih _ (Nat.le_trans (dropWhile_length_le _ _) hl'))
  exact fun l => key l.length l (Nat.le_refl _)

/-- `strings.Join(ws, " ")`. -/
def joinWords : List Str → Str
  | [] => []
  | [w] => w
  | w :: w2 :: ws => w ++ ' ' :: joinWords (w2 :: ws)

/-- `strings.Join(strings.Fields(s), " ")` — the value normalization the
Go code applies on the right-hand side of `=`. -/
def joinFields (l : Str) : Str :=
  joinWords (fields l)

/-- `strings.Repeat(" ", n)`. -/
def spaces (n : Nat) : Str :=
  List.replicate n ' '

/-- Comment or blank test on already trimmed text: empty, or starting
with `;` or `#` (the test both passes of `alignSection` perform). -/
def isCommentBlank (trimmed : Str) : Bool :=
  trimmed.isEmpty || trimmed.head? == some ';' || trimmed.head? == some '#'

/-- Contribution of one line to `maxKeyLen` in the first pass of Go's
`alignSection`: skipped comment/blank lines and lines without `=` give
`none`; otherwise the length of the whitespace-trimmed text before the
first `=`. -/
def lineKeyLen (incl : Bool) (line : Str) : Option Nat :=
  if !incl && isCommentBlank (trimSpace line) then none
  else
    match splitAtFirst '=' line with
    | none => none
    | some (before, _) => some (trimSpace before).length

/-- First pass of Go's `alignSection`: the maximum trimmed key length. -/
def maxKeyLen (lines : List Str) (incl : Bool) : Nat :=
  lines.foldl
    (fun acc line =>
      match lineKeyLen incl line with
      | none => acc
      | some k => max acc k) 0

/-- Second pass of Go's `alignSection`, on one line, given the block's
`maxKeyLen` value `m`. -/
def rewriteLine (m : Nat) (incl : Bool) (line : Str) : Str :=
  if isCommentBlank (trimSpace (trimRight line)) then
    if incl then
      if (trimRight line).length < m + 3 then
        trimRight line ++ spaces (m + 3 - (trimRight line).length)
      else trimRight line
    else trimRight line
  else
    match splitAtFirst '=' (trimRight line) with
    | none => trimRight line
    | some (before, after) =>
      trimSpace before ++ spaces (m - (trimSpace before).length) ++
        [' ', '=', ' '] ++ joinFields after

/-- Go's `alignSection`: the two-pass column alignment of one block. -/
def alignSection (lines : List Str) (incl : Bool) : List Str :=
  lines.map (rewriteLine (maxKeyLen lines incl) incl)

/-- The header-normalization pre-pass (the first `for` loop of Go's
`alignIni`): rewrites a section-header line to
`"<header> <marker> <text>"`, every other line to its
trailing-whitespace-trimmed form. -/
def prePass (line : Str) : Str :=
  if (trimSpace (trimRight line)).head? == some '[' then
    match splitAtFirst ']' (trimSpace (trimRight line)) with
    | some (b, a) =>
      match trimSpace a with
      | [] => b ++ [']']
      | m :: rest => b ++ [']'] ++ [' ', m, ' '] ++ trimSpace rest
    | none => trimRight line
  else trimRight line

/-- The section-header test of the partition loop of Go's `alignIni`
(also exactly the test `prePass` uses). -/
def isHdr (line : Str) : Bool :=
  (trimSpace (trimRight line)).head? == some '[' &&
    (splitAtFirst ']' (trimSpace (trimRight line))).isSome

/-- How the partition loop of Go's `alignIni` re-emits a header line:
`header` or `header ++ " " ++ comment`. -/
def hdrOut (line : Str) : Str :=
  match splitAtFirst ']' (trimSpace (trimRight line)) with
  | some (b, a) =>
    match trimSpace a with
    | [] => b ++ [']']
    | comment => b ++ [']'] ++ [' '] ++ comment
  | none => trimRight line

/-- The per-section partition loop of Go's `alignIni`: `acc` is the
`sectionLines` accumulator, flushed through `alignSection` at each
header and at end of input. -/
def alignPS (incl : Bool) : List Str → List Str → List Str
  | acc, [] => alignSection acc incl
  | acc, line :: rest =>
    if isHdr line then
      alignSection acc incl ++ hdrOut line :: alignPS incl [] rest
    else
      alignPS incl (acc ++ [line]) rest

/-- Go's `alignIni` on a materialized line list (the scanner and its
error path are I/O shell concerns): header pre-pass, then either one
global `alignSection` block or the per-section partition. -/
def alignIni (lines : List Str) (perSection incl : Bool) : List Str :=
  let lines' := lines.map prePass
  if perSection then alignPS incl [] lines' else alignSection lines' incl

/-- Go's `singleSpaceFormat` on one line. -/
def ssLine (line : Str) : Str :=
  match splitAtFirst '=' (trimRight line) with
  | none => trimRight line
  | some (before, after) => trimSpace before ++ [' ', '=', ' '] ++ joinFields after

/-- Go's `singleSpaceFormat` on a materialized line list. -/
def singleSpaceFormat (lines : List Str) : List Str :=
  lines.map ssLine

/-- Number of occurrences of `pat` as a contiguous substring. -/
def countSub (pat l : Str) : Nat :=
  (List.range (l.length + 1)).countP (fun i => pat.isPrefixOf (l.drop i))

/-- Offset of the first `=` in a line (`strings.Index(line, "=")` when
non-negative), as the length of the prefix before it. -/
def eqOffset (line : Str) : Option Nat :=
  (splitAtFirst '=' line).map (fun p => p.1.length)

/-- Spec-modelled alignment column (for claim C2): the maximum 0-indexed
character offset of the first `=`, counted from the start of the untrimmed
line, over lines that contain `=` and are not excluded comment/blank lines;
0 when no line contributes.  This follows the spec's words, not the code,
and exists only to be compared with `maxKeyLen`. -/
def specMaxCol (lines : List Str) (incl : Bool) : Nat :=
  lines.foldl
    (fun acc line =>
      if !incl && isCommentBlank (trimSpace line) then acc
      else
        match splitAtFirst '=' line with
        | none => acc
        | some (before, _) => max acc before.length) 0

/-! ## Character-class facts -/

theorem isWS_of_isSpTab {c : Char} (h : isSpTab c = true) : isWS c = true := by
  simp only [isSpTab, Bool.or_eq_true, beq_iff_eq] at h
  rcases h with h | h <;> simp [isWS, h]

theorem not_isWS_eq : isWS '=' = false := rfl

/-! ## `dropWhile` and `rtrim` facts -/

theorem dropWhile_dropWhile {α : Type} (p : α → Bool) (l : List α) :
    (l.dropWhile p).dropWhile p = l.dropWhile p := by
  induction l with
  | nil => simp
  | cons a l ih =>
    by_cases h : p a <;> simp [List.dropWhile_cons, h, ih]

theorem dropWhile_eq_self_of_head? {α : Type} {p : α → Bool} {l : List α}
    (h : ∀ c, l.head? = some c → p c = false) : l.dropWhile p = l := by
  cases l with
  | nil => rfl
  | cons a l => simp [List.dropWhile_cons, h a rfl]

theorem head?_dropWhile {α : Type} {p : α → Bool} {l : List α} {c : α}
    (h : (l.dropWhile p).head? = some c) : p c = false := by
  induction l with
  | nil => simp at h
  | cons a l ih =>
    by_cases hp : p a
    · rw [List.dropWhile_cons, if_pos hp] at h
      exact ih h
    · rw [List.dropWhile_cons, if_neg hp] at h
      simp only [List.head?_cons, Option.some.injEq] at h
      subst h
      simpa using hp

theorem mem_takeWhile {α : Type} {p : α → Bool} : ∀ {l : List α} {x : α},
    x ∈ l.takeWhile p → p x = true := by
  intro l
  induction l with
  | nil => intro x h; simp at h
  | cons a l ih =>
    intro x h
    by_cases hp : p a
    · rw [List.takeWhile_cons, if_pos hp] at h
      rcases List.mem_cons.mp h with rfl | h
      · exact hp
      · exact ih h
    · rw [List.takeWhile_cons, if_neg hp] at h
      simp at h

theorem dropWhile_eq_nil_of_all {α : Type} {p : α → Bool} {l : List α}
    (h : ∀ c ∈ l, p c = true) : l.dropWhile p = [] := by
  induction l with
  | nil => rfl
  | cons a l ih =>
    rw [List.dropWhile_cons, if_pos (h a (List.mem_cons_self a l))]
    exact ih (fun c hc => h c (List.mem_cons_of_mem a hc))

theorem dropWhile_append_of_all {α : Type} {p : α → Bool} {u l : List α}
    (h : ∀ c ∈ u, p c = true) : (u ++ l).dropWhile p = l.dropWhile p := by
  rw [List.dropWhile_append, dropWhile_eq_nil_of_all h]
  simp

theorem rtrim_nil (p : Char → Bool) : rtrim p [] = [] := rfl

theorem rtrim_snoc (p : Char → Bool) (l : Str) (c : Char) :
    rtrim p (l ++ [c]) = if p c then rtrim p l else l ++ [c] := by
  unfold rtrim
  rw [List.reverse_append]
  simp only [List.reverse_cons, List.reverse_nil, List.nil_append, List.singleton_append,
    List.dropWhile_cons]
  by_cases h : p c <;> simp [h]

theorem rtrim_append (p : Char → Bool) (u v : Str) :
    rtrim p (u ++ v) = if rtrim p v = [] then rtrim p u else u ++ rtrim p v := by
  unfold rtrim
  rw [List.reverse_append, List.dropWhile_append]
  by_cases h : (v.reverse.dropWhile p).isEmpty
  · have hv : (v.reverse.dropWhile p).reverse = [] := by
      rcases List.isEmpty_iff.mp h with h2
      simp [h2]
    simp [h, hv]
  · have hv : ¬((v.reverse.dropWhile p).reverse = []) := by
      intro h2
      apply h
      rw [List.isEmpty_iff]
      simpa using h2
    simp [h, hv]

theorem rtrim_idem (p : Char → Bool) (l : Str) :
    rtrim p (rtrim p l) = rtrim p l := by
  unfold rtrim
  rw [List.reverse_reverse, dropWhile_dropWhile]

theorem rtrim_decomp (p : Char → Bool) (l : Str) :
    ∃ s, l = rtrim p l ++ s ∧ ∀ c ∈ s, p c = true := by
  refine ⟨(l.reverse.takeWhile p).reverse, ?_, ?_⟩
  · conv_lhs => rw [← l.reverse_reverse, ← List.takeWhile_append_dropWhile p l.reverse]
    rw [List.reverse_append]
    rfl
  · intro c hc
    exact mem_takeWhile (List.mem_reverse.mp hc)

theorem mem_rtrim {p : Char → Bool} {l : Str} {c : Char} (h : c ∈ rtrim p l) : c ∈ l := by
  obtain ⟨s, hs, _⟩ := rtrim_decomp p l
  rw [hs]
  exact List.mem_append_left s h

theorem rtrim_eq_self_of_getLast? {p : Char → Bool} {l : Str}
    (h : ∀ c, l.getLast? = some c → p c = false) : rtrim p l = l := by
  cases l using List.reverseRecOn with
  | nil => rfl
  | append_singleton l c =>
    rw [rtrim_snoc, if_neg]
    simp only [List.getLast?_append, List.getLast?_singleton] at h
    simp [h c rfl]

theorem getLast?_rtrim {p : Char → Bool} {l : Str} {c : Char}
    (h : (rtrim p l).getLast? = some c) : p c = false := by
  unfold rtrim at h
  rw [List.getLast?_reverse] at h
  exact head?_dropWhile h

theorem rtrim_eq_nil_of_all {p : Char → Bool} {l : Str}
    (h : ∀ c ∈ l, p c = true) : rtrim p l = [] := by
  unfold rtrim
  rw [dropWhile_eq_nil_of_all (fun c hc => h c (List.mem_reverse.mp hc))]
  rfl

theorem rtrim_append_all {p : Char → Bool} {l s : Str}
    (h : ∀ c ∈ s, p c = true) : rtrim p (l ++ s) = rtrim p l := by
  rw [rtrim_append, if_pos (rtrim_eq_nil_of_all h)]

theorem dropWhile_rtrim_sub {p q : Char → Bool} (hpq : ∀ c, p c = true → q c = true)
    (l : Str) : (rtrim p l).dropWhile q = rtrim p (l.dropWhile q) := by
  induction l using List.reverseRecOn with
  | nil => rfl
  | append_singleton l c ih =>
    by_cases hp : p c
    · rw [rtrim_snoc, if_pos hp, ih, List.dropWhile_append]
      by_cases he : (l.dropWhile q).isEmpty
      · rw [if_pos he]
        have : List.dropWhile q [c] = [] := by
          simp [List.dropWhile_cons, hpq c hp]
        rw [this, rtrim_nil]
        rcases List.isEmpty_iff.mp he with h2
        rw [h2, rtrim_nil]
      · rw [if_neg he, rtrim_snoc, if_pos hp]
    · rw [rtrim_snoc, if_neg hp, List.dropWhile_append]
      by_cases he : (l.dropWhile q).isEmpty
      · rw [if_pos he]
        cases hq : q c
        · simp only [List.dropWhile_cons, hq, if_false, List.dropWhile_nil, Bool.false_eq_true]
          rw [show ([c] : Str) = [] ++ [c] from rfl, rtrim_snoc, if_neg hp]
        · simp [List.dropWhile_cons, hq, rtrim_nil]
      · rw [if_neg he, rtrim_snoc, if_neg hp]

theorem rtrim_rtrim_sub {p q : Char → Bool} (hpq : ∀ c, p c = true → q c = true)
    (l : Str) : rtrim q (rtrim p l) = rtrim q l := by
  induction l using List.reverseRecOn with
  | nil => rfl
  | append_singleton l c ih =>
    by_cases hp : p c
    · rw [rtrim_snoc, if_pos hp, ih, rtrim_snoc, if_pos (hpq c hp)]
    · rw [rtrim_snoc, if_neg hp]

theorem rtrim_singleton (p : Char → Bool) (c : Char) :
    rtrim p [c] = if p c then [] else [c] := by
  rw [show ([c] : Str) = [] ++ [c] from rfl, rtrim_snoc]
  by_cases h : p c <;> simp [h, rtrim_nil]

theorem rtrim_cons (p : Char → Bool) (c : Char) (l : Str) :
    rtrim p (c :: l) = if rtrim p l = [] then rtrim p [c] else c :: rtrim p l := by
  rw [show (c :: l : Str) = [c] ++ l from rfl, rtrim_append]
  by_cases h : rtrim p l = [] <;> simp [h]

theorem head?_rtrim {p : Char → Bool} {l : Str} {c : Char}
    (h : (rtrim p l).head? = some c) : l.head? = some c := by
  obtain ⟨s, hs, _⟩ := rtrim_decomp p l
  rw [hs, List.head?_append]
  rw [h]
  rfl

theorem mem_dropWhile {α : Type} {p : α → Bool} {l : List α} {c : α}
    (h : c ∈ l.dropWhile p) : c ∈ l := by
  rw [← List.takeWhile_append_dropWhile p l]
  exact List.mem_append_right _ h

/-! ## `trimRight` and `trimSpace` facts -/

theorem trimRight_nil : trimRight [] = [] := rfl

theorem trimRight_idem (l : Str) : trimRight (trimRight l) = trimRight l :=
  rtrim_idem _ l

theorem mem_trimRight {l : Str} {c : Char} (h : c ∈ trimRight l) : c ∈ l :=
  mem_rtrim h

theorem trimRight_spaces_append (l : Str) (n : Nat) :
    trimRight (l ++ spaces n) = trimRight l := by
  apply rtrim_append_all
  intro c hc
  rw [List.eq_of_mem_replicate hc]
  rfl

theorem mem_trimSpace {l : Str} {c : Char} (h : c ∈ trimSpace l) : c ∈ l :=
  mem_dropWhile (mem_rtrim h)

theorem head?_trimSpace_not_ws {l : Str} {c : Char}
    (h : (trimSpace l).head? = some c) : isWS c = false :=
  head?_dropWhile (head?_rtrim h)

theorem getLast?_trimSpace_not_ws {l : Str} {c : Char}
    (h : (trimSpace l).getLast? = some c) : isWS c = false :=
  getLast?_rtrim h

theorem trimSpace_idem (l : Str) : trimSpace (trimSpace l) = trimSpace l := by
  unfold trimSpace
  rw [dropWhile_eq_self_of_head? (fun c hc => head?_dropWhile (head?_rtrim hc)),
    rtrim_idem]

theorem trimSpace_append_ws {l s : Str} (h : ∀ c ∈ s, isWS c = true) :
    trimSpace (l ++ s) = trimSpace l := by
  unfold trimSpace
  rw [List.dropWhile_append]
  by_cases he : (l.dropWhile isWS).isEmpty
  · rw [if_pos he, dropWhile_eq_nil_of_all h, rtrim_nil]
    rcases List.isEmpty_iff.mp he with h2
    rw [h2, rtrim_nil]
  · rw [if_neg he, rtrim_append_all h]

theorem trimSpace_ws_append {s l : Str} (h : ∀ c ∈ s, isWS c = true) :
    trimSpace (s ++ l) = trimSpace l := by
  unfold trimSpace
  rw [dropWhile_append_of_all h]

theorem trimSpace_trimRight (l : Str) : trimSpace (trimRight l) = trimSpace l := by
  obtain ⟨s, hs, hall⟩ := rtrim_decomp isSpTab l
  conv_rhs => rw [hs]
  rw [trimSpace_append_ws (fun c hc => isWS_of_isSpTab (hall c hc))]
  rfl

theorem trimSpace_spaces_append (l : Str) (n : Nat) :
    trimSpace (l ++ spaces n) = trimSpace l := by
  apply trimSpace_append_ws
  intro c hc
  rw [List.eq_of_mem_replicate hc]
  rfl

/-! ## `splitAtFirst` facts -/

theorem splitAtFirst_eq_none {c : Char} : ∀ {l : Str}, splitAtFirst c l = none ↔ c ∉ l := by
  intro l
  induction l with
  | nil => simp [splitAtFirst]
  | cons x xs ih =>
    by_cases hx : x = c
    · subst hx
      simp [splitAtFirst]
    · simp only [splitAtFirst, if_neg hx, List.mem_cons]
      constructor
      · intro h hmem
        cases hs : splitAtFirst c xs with
        | none =>
          rcases hmem with h2 | h2
          · exact hx h2.symm
          · exact (ih.mp hs) h2
        | some p =>
          rw [hs] at h
          simp [Option.map] at h
      · intro h
        have hxs : c ∉ xs := fun hm => h (Or.inr hm)
        rw [ih.mpr hxs]
        rfl

theorem splitAtFirst_eq_some {c : Char} : ∀ {l b a : Str},
    splitAtFirst c l = some (b, a) → l = b ++ c :: a ∧ c ∉ b := by
  intro l
  induction l with
  | nil => intro b a h; simp [splitAtFirst] at h
  | cons x xs ih =>
    intro b a h
    by_cases hx : x = c
    · subst hx
      simp only [splitAtFirst, if_pos rfl, Option.some.injEq, Prod.mk.injEq] at h
      obtain ⟨rfl, rfl⟩ := h
      simp
    · simp only [splitAtFirst, if_neg hx] at h
      cases hs : splitAtFirst c xs with
      | none =>
        rw [hs] at h
        simp [Option.map] at h
      | some p =>
        rw [hs] at h
        obtain ⟨w, z⟩ := p
        simp only [Option.map, Option.some.injEq, Prod.mk.injEq] at h
        obtain ⟨h1, h2⟩ := h
        obtain ⟨hp1, hp2⟩ := ih hs
        subst h2
        rw [← h1]
        constructor
        · rw [List.cons_append, ← hp1]
        · intro hmem
          rcases List.mem_cons.mp hmem with h2 | h2
          · exact hx h2.symm
          · exact hp2 h2

theorem splitAtFirst_append {c : Char} {b : Str} (a : Str) (hb : c ∉ b) :
    splitAtFirst c (b ++ c :: a) = some (b, a) := by
  induction b with
  | nil => simp [splitAtFirst]
  | cons x xs ih =>
    have hx : ¬(x = c) := fun h => hb (h ▸ List.mem_cons_self x xs)
    have hxs : c ∉ xs := fun h => hb (List.mem_cons_of_mem x h)
    rw [List.cons_append]
    simp only [splitAtFirst, if_neg hx, ih hxs, Option.map]

theorem splitAtFirst_trimRight {ch : Char} {l b a : Str} (hch : isSpTab ch = false)
    (h : splitAtFirst ch l = some (b, a)) :
    splitAtFirst ch (trimRight l) = some (b, trimRight a) := by
  obtain ⟨hl, hb⟩ := splitAtFirst_eq_some h
  subst hl
  have hsplit : trimRight (b ++ ch :: a) = b ++ ch :: trimRight a := by
    rw [show b ++ ch :: a = (b ++ [ch]) ++ a from by simp]
    unfold trimRight
    rw [rtrim_append]
    by_cases ha : rtrim isSpTab a = []
    · rw [if_pos ha, ha, rtrim_snoc, if_neg (by simp [hch])]
    · rw [if_neg ha]
      simp
  rw [hsplit]
  exact splitAtFirst_append _ hb

theorem splitAtFirst_trimRight_none {ch : Char} {l : Str}
    (h : splitAtFirst ch l = none) : splitAtFirst ch (trimRight l) = none := by
  rw [splitAtFirst_eq_none] at h ⊢
  exact fun hm => h (mem_trimRight hm)

/-! ## `fields` and `joinWords` facts -/

theorem takeWhile_append_eq {α : Type} [DecidableEq α] (p : α → Bool) (u v : List α) :
    (u ++ v).takeWhile p =
      if u.takeWhile p = u then u ++ v.takeWhile p else u.takeWhile p := by
  induction u with
  | nil => simp
  | cons a u ih =>
    by_cases h : p a
    · simp only [List.cons_append, List.takeWhile_cons, if_pos h, ih]
      by_cases h2 : u.takeWhile p = u
      · rw [if_pos h2, if_pos (by rw [h2])]
      · rw [if_neg h2, if_neg (by intro h3; exact h2 (List.cons.inj h3).2)]
    · simp only [List.cons_append, List.takeWhile_cons, if_neg h]
      rw [if_neg]
      intro h3
      have := congrArg List.length h3
      simp at this

theorem takeWhile_eq_self_of_all {α : Type} {p : α → Bool} {l : List α}
    (h : ∀ c ∈ l, p c = true) : l.takeWhile p = l :=
  List.takeWhile_eq_self_iff.mpr h

theorem fields_nil : fields [] = [] := rfl

theorem fields_ws_cons {c : Char} (l : Str) (h : isWS c = true) :
    fields (c :: l) = fields l := by
  show (if isWS c then fieldsGo l l.length
      else (c :: l.takeWhile (fun d => !isWS d)) ::
        fieldsGo (l.dropWhile (fun d => !isWS d)) l.length) = fields l
  rw [if_pos h]
  rfl

theorem fields_nonws_cons {c : Char} (l : Str) (h : isWS c = false) :
    fields (c :: l) =
      (c :: l.takeWhile (fun d => !isWS d)) :: fields (l.dropWhile (fun d => !isWS d)) := by
  show (if isWS c then fieldsGo l l.length
      else (c :: l.takeWhile (fun d => !isWS d)) ::
        fieldsGo (l.dropWhile (fun d => !isWS d)) l.length) = _
  rw [if_neg (by simp [h]),
    fieldsGo_fuel l.length (l.dropWhile (fun d => !isWS d)).length
      (l.dropWhile (fun d => !isWS d)) (dropWhile_length_le _ _) (Nat.le_refl _)]
  rfl

theorem fields_all_ws {l : Str} (h : ∀ c ∈ l, isWS c = true) : fields l = [] := by
  induction l with
  | nil => exact fields_nil
  | cons c l ih =>
    rw [fields_ws_cons l (h c (List.mem_cons_self c l))]
    exact ih (fun d hd => h d (List.mem_cons_of_mem c hd))

theorem fields_all {l : Str} : ∀ w ∈ fields l, w ≠ [] ∧ ∀ c ∈ w, isWS c = false := by
  induction l using fields_ind with
  | case1 => intro w hw; simp [fields_nil] at hw
  | case2 c l h ih =>
    rw [fields_ws_cons l h]
    exact ih
  | case3 c l h ih =>
    have hc : isWS c = false := by
      cases h2 : isWS c
      · rfl
      · simp [h2] at h
    rw [fields_nonws_cons l hc]
    intro w hw
    rcases List.mem_cons.mp hw with rfl | hw2
    · refine ⟨by simp, ?_⟩
      intro d hd
      rcases List.mem_cons.mp hd with rfl | hd2
      · exact hc
      · have := mem_takeWhile hd2
        simpa using this
    · exact ih w hw2

theorem fields_word {w : Str} (hw : w ≠ []) (hnw : ∀ c ∈ w, isWS c = false) :
    fields w = [w] := by
  cases w with
  | nil => exact absurd rfl hw
  | cons c l =>
    rw [fields_nonws_cons l (hnw c (List.mem_cons_self c l))]
    rw [takeWhile_eq_self_of_all
      (fun d hd => by simp [hnw d (List.mem_cons_of_mem c hd)]),
      dropWhile_eq_nil_of_all
      (fun d hd => by simp [hnw d (List.mem_cons_of_mem c hd)]),
      fields_nil]

theorem fields_word_append {w t : Str} {s : Char} (hw : w ≠ [])
    (hnw : ∀ c ∈ w, isWS c = false) (hs : isWS s = true) :
    fields (w ++ s :: t) = w :: fields t := by
  cases w with
  | nil => exact absurd rfl hw
  | cons c l =>
    rw [List.cons_append, fields_nonws_cons _ (hnw c (List.mem_cons_self c l))]
    have hl : ∀ d ∈ l, (fun d => !isWS d) d = true :=
      fun d hd => by simp [hnw d (List.mem_cons_of_mem c hd)]
    have ht : (l ++ s :: t).takeWhile (fun d => !isWS d) = l := by
      rw [takeWhile_append_eq, if_pos (takeWhile_eq_self_of_all hl),
        List.takeWhile_cons, if_neg (by simp [hs])]
      simp
    have hd : (l ++ s :: t).dropWhile (fun d => !isWS d) = s :: t := by
      rw [List.dropWhile_append,
        if_pos (by rw [dropWhile_eq_nil_of_all hl]; rfl),
        List.dropWhile_cons, if_neg (by simp [hs])]
    rw [ht, hd, fields_ws_cons t hs]

theorem joinWords_ne_nil {w : Str} (ws : List Str) (hw : w ≠ []) :
    joinWords (w :: ws) ≠ [] := by
  cases ws with
  | nil => simpa [joinWords] using hw
  | cons w2 ws2 =>
    rw [joinWords]
    cases w with
    | nil => exact absurd rfl hw
    | cons c l => simp

theorem fields_joinWords {W : List Str}
    (hW : ∀ w ∈ W, w ≠ [] ∧ ∀ c ∈ w, isWS c = false) :
    fields (joinWords W) = W := by
  induction W with
  | nil => exact fields_nil
  | cons w ws ih =>
    cases ws with
    | nil =>
      rw [joinWords]
      exact fields_word (hW w (List.mem_cons_self w [])).1 (hW w (List.mem_cons_self w [])).2
    | cons w2 ws2 =>
      rw [joinWords, fields_word_append (hW w (List.mem_cons_self w _)).1
        (hW w (List.mem_cons_self w _)).2 (by rfl)]
      rw [ih (fun v hv => hW v (List.mem_cons_of_mem w hv))]

theorem fields_joinFields (a : Str) : fields (joinFields a) = fields a :=
  fields_joinWords fields_all

theorem joinFields_idem (a : Str) : joinFields (joinFields a) = joinFields a := by
  conv_lhs => rw [joinFields, fields_joinFields]
  rfl

theorem joinFields_ws_cons {c : Char} (a : Str) (h : isWS c = true) :
    joinFields (c :: a) = joinFields a := by
  unfold joinFields
  rw [fields_ws_cons a h]

theorem joinFields_sp_joinFields (a : Str) :
    joinFields (' ' :: joinFields a) = joinFields a := by
  rw [joinFields_ws_cons _ (by rfl)]
  exact joinFields_idem a

theorem mem_of_getLast? {α : Type} {l : List α} {a : α}
    (h : l.getLast? = some a) : a ∈ l := by
  induction l with
  | nil => simp at h
  | cons x l ih =>
    cases l with
    | nil =>
      simp only [List.getLast?_singleton, Option.some.injEq] at h
      simp [h]
    | cons y l2 =>
      rw [List.getLast?_cons_cons] at h
      exact List.mem_cons_of_mem x (ih h)

theorem getLast?_joinWords {W : List Str}
    (hW : ∀ w ∈ W, w ≠ [] ∧ ∀ c ∈ w, isWS c = false) {c : Char}
    (h : (joinWords W).getLast? = some c) : isWS c = false := by
  induction W with
  | nil => simp [joinWords] at h
  | cons w ws ih =>
    cases ws with
    | nil =>
      rw [joinWords] at h
      exact (hW w (List.mem_cons_self w [])).2 c (mem_of_getLast? h)
    | cons w2 ws2 =>
      rw [joinWords] at h
      have hne := joinWords_ne_nil ws2 (hW w2 (by simp)).1
      obtain ⟨j, js, hj⟩ : ∃ j js, joinWords (w2 :: ws2) = j :: js := by
        cases hjw : joinWords (w2 :: ws2) with
        | nil => exact absurd hjw hne
        | cons j js => exact ⟨j, js, rfl⟩
      obtain ⟨z, hz⟩ : ∃ z, (joinWords (w2 :: ws2)).getLast? = some z := by
        rw [hj]
        clear hj hne h
        induction js generalizing j with
        | nil => exact ⟨j, rfl⟩
        | cons j2 js2 ih2 =>
          obtain ⟨z, hz⟩ := ih2 j2
          exact ⟨z, by rw [List.getLast?_cons_cons]; exact hz⟩
      have hlast : (w ++ ' ' :: joinWords (w2 :: ws2)).getLast? =
          (joinWords (w2 :: ws2)).getLast? := by
        rw [List.getLast?_append, hj, List.getLast?_cons_cons, ← hj, hz]
        rfl
      rw [hlast] at h
      exact ih (fun v hv => hW v (List.mem_cons_of_mem w hv)) h

theorem getLast?_joinFields {a : Str} {c : Char}
    (h : (joinFields a).getLast? = some c) : isWS c = false :=
  getLast?_joinWords fields_all h

theorem mem_of_mem_takeWhile {α : Type} {p : α → Bool} {l : List α} {x : α}
    (h : x ∈ l.takeWhile p) : x ∈ l := by
  rw [← List.takeWhile_append_dropWhile p l]
  exact List.mem_append_left _ h

theorem mem_fields_mem {l : Str} : ∀ {w : Str}, w ∈ fields l → ∀ {c : Char}, c ∈ w → c ∈ l := by
  induction l using fields_ind with
  | case1 => intro w hw; simp [fields_nil] at hw
  | case2 c l h ih =>
    intro w hw d hd
    rw [fields_ws_cons l h] at hw
    exact List.mem_cons_of_mem c (ih hw hd)
  | case3 c l h ih =>
    have hc : isWS c = false := by
      cases h2 : isWS c
      · rfl
      · simp [h2] at h
    intro w hw d hd
    rw [fields_nonws_cons l hc] at hw
    rcases List.mem_cons.mp hw with rfl | hw2
    · rcases List.mem_cons.mp hd with rfl | hd2
      · exact List.mem_cons_self d l
      · exact List.mem_cons_of_mem c (mem_of_mem_takeWhile hd2)
    · exact List.mem_cons_of_mem c (mem_dropWhile (ih hw2 hd))

theorem mem_joinWords {W : List Str} {c : Char} (h : c ∈ joinWords W) :
    c = ' ' ∨ ∃ w ∈ W, c ∈ w := by
  induction W with
  | nil => simp [joinWords] at h
  | cons w ws ih =>
    cases ws with
    | nil =>
      rw [joinWords] at h
      exact Or.inr ⟨w, List.mem_cons_self w [], h⟩
    | cons w2 ws2 =>
      rw [joinWords] at h
      rcases List.mem_append.mp h with h2 | h2
      · exact Or.inr ⟨w, List.mem_cons_self w _, h2⟩
      · rcases List.mem_cons.mp h2 with rfl | h3
        · exact Or.inl rfl
        · rcases ih h3 with h4 | ⟨v, hv, hcv⟩
          · exact Or.inl h4
          · exact Or.inr ⟨v, List.mem_cons_of_mem w hv, hcv⟩

theorem mem_joinFields {a : Str} {c : Char} (h : c ∈ joinFields a) :
    c = ' ' ∨ c ∈ a := by
  rcases mem_joinWords h with h2 | ⟨w, hw, hcw⟩
  · exact Or.inl h2
  · exact Or.inr (mem_fields_mem hw hcw)

theorem mem_fields_complete {l : Str} {c : Char} (hns : isWS c = false) :
    c ∈ l → ∃ w ∈ fields l, c ∈ w := by
  induction l using fields_ind with
  | case1 => intro h; simp at h
  | case2 x l h ih =>
    intro hm
    rcases List.mem_cons.mp hm with rfl | hm2
    · rw [h] at hns; simp at hns
    · rw [fields_ws_cons l h]
      exact ih hm2
  | case3 x l h ih =>
    have hx : isWS x = false := by
      cases h2 : isWS x
      · rfl
      · simp [h2] at h
    intro hm
    rw [fields_nonws_cons l hx]
    rcases List.mem_cons.mp hm with rfl | hm2
    · exact ⟨c :: l.takeWhile (fun d => !isWS d), List.mem_cons_self _ _,
        List.mem_cons_self c _⟩
    · rw [← List.takeWhile_append_dropWhile (fun d => !isWS d) l] at hm2
      rcases List.mem_append.mp hm2 with h3 | h3
      · exact ⟨x :: l.takeWhile (fun d => !isWS d), List.mem_cons_self _ _,
          List.mem_cons_of_mem x h3⟩
      · obtain ⟨w, hw, hcw⟩ := ih h3
        exact ⟨w, List.mem_cons_of_mem _ hw, hcw⟩

theorem mem_joinWords_of_mem {W : List Str} {w : Str} {c : Char}
    (hw : w ∈ W) (hc : c ∈ w) : c ∈ joinWords W := by
  induction W with
  | nil => simp at hw
  | cons v ws ih =>
    cases ws with
    | nil =>
      rw [joinWords]
      rcases List.mem_cons.mp hw with rfl | h2
      · exact hc
      · simp at h2
    | cons w2 ws2 =>
      rw [joinWords]
      rcases List.mem_cons.mp hw with rfl | h2
      · exact List.mem_append_left _ hc
      · exact List.mem_append_right _ (List.mem_cons_of_mem ' ' (ih h2))

theorem mem_joinFields_of_mem {a : Str} {c : Char} (hns : isWS c = false)
    (hm : c ∈ a) : c ∈ joinFields a := by
  obtain ⟨w, hw, hcw⟩ := mem_fields_complete hns hm
  exact mem_joinWords_of_mem hw hcw

/-! ## Shapes of rewritten key/value lines -/

theorem exists_getLast? {α : Type} {l : List α} (h : l ≠ []) :
    ∃ c, l.getLast? = some c := by
  induction l with
  | nil => exact absurd rfl h
  | cons x l ih =>
    cases l with
    | nil => exact ⟨x, rfl⟩
    | cons y l2 =>
      obtain ⟨c, hc⟩ := ih (by simp)
      exact ⟨c, by rw [List.getLast?_cons_cons]; exact hc⟩

theorem not_isSpTab_of_not_isWS {c : Char} (h : isWS c = false) : isSpTab c = false := by
  cases h2 : isSpTab c
  · rfl
  · rw [isWS_of_isSpTab h2] at h
    exact absurd h (by simp)

theorem shape_trimRight_pos {K P R : Str} {c : Char}
    (hR : R.getLast? = some c) (hc : isWS c = false) :
    trimRight (K ++ P ++ [' ', '=', ' '] ++ R) = K ++ P ++ [' ', '=', ' '] ++ R := by
  apply rtrim_eq_self_of_getLast?
  intro d hd
  have hRne : R ≠ [] := by
    intro h2
    rw [h2] at hR
    simp at hR
  rw [List.getLast?_append, hR] at hd
  simp only [Option.or_some, Option.some.injEq] at hd
  subst hd
  exact not_isSpTab_of_not_isWS hc

theorem shape_trimRight_nil (K P : Str) :
    trimRight (K ++ P ++ [' ', '=', ' ']) = K ++ P ++ [' ', '='] := by
  rw [show K ++ P ++ [' ', '=', ' '] = (K ++ P ++ [' ', '=']) ++ [' '] from by simp]
  unfold trimRight
  rw [rtrim_snoc, if_pos (by rfl)]
  rw [show K ++ P ++ [' ', '='] = (K ++ P ++ [' ']) ++ ['='] from by simp]
  rw [rtrim_snoc, if_neg (by simp [isSpTab])]

theorem shape_split {K P R : Str} (hK : '=' ∉ K) (hP : ∀ c ∈ P, c = ' ') :
    splitAtFirst '=' (K ++ P ++ [' ', '=', ' '] ++ R) = some (K ++ P ++ [' '], ' ' :: R) := by
  have hmem : '=' ∉ K ++ P ++ [' '] := by
    intro hm
    rcases List.mem_append.mp hm with hm2 | hm2
    · rcases List.mem_append.mp hm2 with hm3 | hm3
      · exact hK hm3
      · exact absurd (hP _ hm3) (by simp)
    · simp at hm2
  have : K ++ P ++ [' ', '=', ' '] ++ R = (K ++ P ++ [' ']) ++ '=' :: (' ' :: R) := by simp
  rw [this, splitAtFirst_append _ hmem]

theorem shape_split_nil {K P : Str} (hK : '=' ∉ K) (hP : ∀ c ∈ P, c = ' ') :
    splitAtFirst '=' (K ++ P ++ [' ', '=']) = some (K ++ P ++ [' '], []) := by
  have hmem : '=' ∉ K ++ P ++ [' '] := by
    intro hm
    rcases List.mem_append.mp hm with hm2 | hm2
    · rcases List.mem_append.mp hm2 with hm3 | hm3
      · exact hK hm3
      · exact absurd (hP _ hm3) (by simp)
    · simp at hm2
  have : K ++ P ++ [' ', '='] = (K ++ P ++ [' ']) ++ '=' :: ([] : Str) := by simp
  rw [this, splitAtFirst_append _ hmem]

theorem shape_key {b P : Str} (hP : ∀ c ∈ P, c = ' ') :
    trimSpace (trimSpace b ++ P ++ [' ']) = trimSpace b := by
  rw [show trimSpace b ++ P ++ [' '] = trimSpace b ++ (P ++ [' ']) from by simp]
  rw [trimSpace_append_ws, trimSpace_idem]
  intro d hd
  rcases List.mem_append.mp hd with hd2 | hd2
  · rw [hP d hd2]; rfl
  · simp only [List.mem_singleton] at hd2
    rw [hd2]; rfl

theorem not_mem_trimSpace {b : Str} {c : Char} (h : c ∉ b) : c ∉ trimSpace b :=
  fun hm => h (mem_trimSpace hm)

/-! ## `ssLine` and single-space idempotence -/

theorem ssLine_of_none {line : Str} (h : splitAtFirst '=' (trimRight line) = none) :
    ssLine line = trimRight line := by
  unfold ssLine
  rw [h]

theorem ssLine_of_some {line b a : Str}
    (h : splitAtFirst '=' (trimRight line) = some (b, a)) :
    ssLine line = trimSpace b ++ [' ', '=', ' '] ++ joinFields a := by
  unfold ssLine
  rw [h]

theorem ssLine_idem (line : Str) : ssLine (ssLine line) = ssLine line := by
  cases h : splitAtFirst '=' (trimRight line) with
  | none =>
    rw [ssLine_of_none h]
    have h2 : splitAtFirst '=' (trimRight (trimRight line)) = none := by
      rw [trimRight_idem]; exact h
    rw [ssLine_of_none h2, trimRight_idem]
  | some p =>
    obtain ⟨b, a⟩ := p
    obtain ⟨hdec, hbm⟩ := splitAtFirst_eq_some h
    have hK : '=' ∉ trimSpace b := not_mem_trimSpace hbm
    rw [ssLine_of_some h]
    by_cases hR : joinFields a = []
    · rw [hR]
      have ht : trimRight (trimSpace b ++ [' ', '=', ' '] ++ ([] : Str)) =
          trimSpace b ++ [' ', '='] := by
        rw [List.append_nil, show trimSpace b ++ [' ', '=', ' '] =
          trimSpace b ++ ([] : Str) ++ [' ', '=', ' '] from by simp, shape_trimRight_nil]
        simp
      have hsp : splitAtFirst '=' (trimSpace b ++ [' ', '=']) =
          some (trimSpace b ++ [' '], []) := by
        have := shape_split_nil (K := trimSpace b) (P := ([] : Str)) hK (by simp)
        simpa using this
      rw [ssLine_of_some (by rw [ht]; exact hsp)]
      have : trimSpace (trimSpace b ++ [' ']) = trimSpace b := by
        have := shape_key (b := b) (P := ([] : Str)) (by simp)
        simpa using this
      rw [this]
      simp [joinFields, fields_nil, joinWords]
    · obtain ⟨c, hc⟩ := exists_getLast? hR
      have hcw := getLast?_joinFields hc
      have ht : trimRight (trimSpace b ++ [' ', '=', ' '] ++ joinFields a) =
          trimSpace b ++ [' ', '=', ' '] ++ joinFields a := by
        have := shape_trimRight_pos (K := trimSpace b) (P := ([] : Str)) hc hcw
        simpa using this
      have hsp : splitAtFirst '=' (trimSpace b ++ [' ', '=', ' '] ++ joinFields a) =
          some (trimSpace b ++ [' '], ' ' :: joinFields a) := by
        have := shape_split (K := trimSpace b) (P := ([] : Str)) (R := joinFields a)
          hK (by simp)
        simpa using this
      rw [ssLine_of_some (by rw [ht]; exact hsp)]
      have h1 : trimSpace (trimSpace b ++ [' ']) = trimSpace b := by
        have := shape_key (b := b) (P := ([] : Str)) (by simp)
        simpa using this
      rw [h1, joinFields_sp_joinFields]

theorem singleSpaceFormat_idem (lines : List Str) :
    singleSpaceFormat (singleSpaceFormat lines) = singleSpaceFormat lines := by
  unfold singleSpaceFormat
  rw [List.map_map]
  apply List.map_congr_left
  intro l _
  exact ssLine_idem l

/-! ## Case equations for `rewriteLine`, `lineKeyLen`, `prePass` -/

theorem rewriteLine_comment {m : Nat} {incl : Bool} {line : Str}
    (hcb : isCommentBlank (trimSpace (trimRight line)) = true) :
    rewriteLine m incl line =
      if incl then
        if (trimRight line).length < m + 3 then
          trimRight line ++ spaces (m + 3 - (trimRight line).length)
        else trimRight line
      else trimRight line := by
  unfold rewriteLine
  rw [if_pos hcb]

theorem rewriteLine_opaque {m : Nat} {incl : Bool} {line : Str}
    (hcb : isCommentBlank (trimSpace (trimRight line)) = false)
    (hsp : splitAtFirst '=' (trimRight line) = none) :
    rewriteLine m incl line = trimRight line := by
  unfold rewriteLine
  rw [if_neg (by simp [hcb]), hsp]

theorem rewriteLine_kv {m : Nat} {incl : Bool} {line b a : Str}
    (hcb : isCommentBlank (trimSpace (trimRight line)) = false)
    (hsp : splitAtFirst '=' (trimRight line) = some (b, a)) :
    rewriteLine m incl line =
      trimSpace b ++ spaces (m - (trimSpace b).length) ++ [' ', '=', ' '] ++
        joinFields a := by
  unfold rewriteLine
  rw [if_neg (by simp [hcb]), hsp]

theorem lineKeyLen_comment {incl : Bool} {line : Str}
    (hcb : isCommentBlank (trimSpace line) = true) (hincl : incl = false) :
    lineKeyLen incl line = none := by
  unfold lineKeyLen
  rw [if_pos (by simp [hcb, hincl])]

theorem lineKeyLen_none {incl : Bool} {line : Str}
    (hsp : splitAtFirst '=' line = none) : lineKeyLen incl line = none := by
  unfold lineKeyLen
  rw [hsp]
  simp

theorem lineKeyLen_some {incl : Bool} {line b a : Str}
    (hok : incl = true ∨ isCommentBlank (trimSpace line) = false)
    (hsp : splitAtFirst '=' line = some (b, a)) :
    lineKeyLen incl line = some (trimSpace b).length := by
  unfold lineKeyLen
  rw [if_neg, hsp]
  rcases hok with h | h <;> simp [h]

theorem prePass_non_hdr {line : Str} (h : isHdr line = false) :
    prePass line = trimRight line := by
  unfold isHdr at h
  unfold prePass
  rcases Bool.and_eq_false_iff.mp h with h2 | h2
  · rw [if_neg (by simp only [h2]; simp)]
  · by_cases hh : (trimSpace (trimRight line)).head? == some '['
    · rw [if_pos hh]
      cases hs : splitAtFirst ']' (trimSpace (trimRight line)) with
      | none => rfl
      | some p => rw [hs] at h2; simp at h2
    · rw [if_neg hh]

theorem prePass_trimRight (line : Str) : prePass (trimRight line) = prePass line := by
  unfold prePass
  rw [trimRight_idem]

theorem prePass_spaces (line : Str) (n : Nat) :
    prePass (line ++ spaces n) = prePass line := by
  unfold prePass
  rw [trimRight_spaces_append]

theorem rewriteLine_trimRight (m : Nat) (incl : Bool) (line : Str) :
    rewriteLine m incl (trimRight line) = rewriteLine m incl line := by
  unfold rewriteLine
  rw [trimRight_idem]

theorem lineKeyLen_trimRight (incl : Bool) (line : Str) :
    lineKeyLen incl (trimRight line) = lineKeyLen incl line := by
  unfold lineKeyLen
  rw [trimSpace_trimRight]
  cases hs : splitAtFirst '=' line with
  | none => rw [splitAtFirst_trimRight_none hs]
  | some p =>
    obtain ⟨b, a⟩ := p
    rw [splitAtFirst_trimRight (by rfl) hs]

theorem isHdr_trimRight (line : Str) : isHdr (trimRight line) = isHdr line := by
  unfold isHdr
  rw [trimRight_idem]

theorem isHdr_spaces (line : Str) (n : Nat) :
    isHdr (line ++ spaces n) = isHdr line := by
  unfold isHdr
  rw [trimRight_spaces_append]

theorem hdrOut_trimRight (line : Str) : hdrOut (trimRight line) = hdrOut line := by
  unfold hdrOut
  rw [trimRight_idem]

/-! ## Structure of whitespace-collapsed text -/

theorem fields_append_ws_cons {s : Char} (hs : isWS s = true) :
    ∀ (u v : Str), fields (u ++ s :: v) = fields u ++ fields v := by
  intro u
  induction u using fields_ind with
  | case1 =>
    intro v
    rw [List.nil_append, fields_ws_cons v hs, fields_nil, List.nil_append]
  | case2 c u h ih =>
    intro v
    rw [List.cons_append, fields_ws_cons _ h, fields_ws_cons _ h, ih]
  | case3 c u h ih =>
    have hc : isWS c = false := by
      cases h2 : isWS c
      · rfl
      · simp [h2] at h
    intro v
    rw [List.cons_append, fields_nonws_cons _ hc, fields_nonws_cons _ hc]
    by_cases hall : ∀ d ∈ u, (fun d => !isWS d) d = true
    · have ht : u.takeWhile (fun d => !isWS d) = u := takeWhile_eq_self_of_all hall
      have hd : u.dropWhile (fun d => !isWS d) = [] := dropWhile_eq_nil_of_all hall
      rw [takeWhile_append_eq, if_pos ht, List.takeWhile_cons, if_neg (by simp [hs]),
        List.dropWhile_append, if_pos (by rw [hd]; rfl), List.dropWhile_cons,
        if_neg (by simp [hs]), ht, hd, fields_nil, fields_ws_cons _ hs]
      simp
    · have ht : ¬(u.takeWhile (fun d => !isWS d) = u) := by
        intro h2
        exact hall (List.takeWhile_eq_self_iff.mp h2)
      have hd : ¬((u.dropWhile (fun d => !isWS d)).isEmpty = true) := by
        intro h2
        exact hall (List.dropWhile_eq_nil_iff.mp (List.isEmpty_iff.mp h2))
      rw [takeWhile_append_eq, if_neg ht, List.dropWhile_append, if_neg hd, ih]
      simp

theorem joinWords_append : ∀ {A B : List Str}, A ≠ [] → B ≠ [] →
    joinWords (A ++ B) = joinWords A ++ ' ' :: joinWords B := by
  intro A
  induction A with
  | nil => intro B h _; exact absurd rfl h
  | cons w A' ih =>
    intro B _ hB
    cases A' with
    | nil =>
      cases B with
      | nil => exact absurd rfl hB
      | cons b B' =>
        rw [List.cons_append, List.nil_append, joinWords]
        rfl
    | cons w2 A2 =>
      show joinWords (w :: w2 :: (A2 ++ B)) = joinWords (w :: w2 :: A2) ++ ' ' :: joinWords B
      rw [show joinWords (w :: w2 :: (A2 ++ B)) = w ++ ' ' :: joinWords (w2 :: (A2 ++ B))
        from rfl]
      rw [show (w2 :: (A2 ++ B) : List Str) = (w2 :: A2) ++ B from rfl, ih (by simp) hB]
      rw [show joinWords (w :: w2 :: A2) = w ++ ' ' :: joinWords (w2 :: A2) from rfl]
      simp

theorem trimSpace_of_trimmed {l : Str}
    (hh : ∀ c, l.head? = some c → isWS c = false)
    (hl : ∀ c, l.getLast? = some c → isWS c = false) :
    trimSpace l = l := by
  unfold trimSpace
  rw [dropWhile_eq_self_of_head? hh]
  exact rtrim_eq_self_of_getLast? hl

theorem head?_rtrim_cons {p : Char → Bool} {d : Char} (u : Str) (hd : p d = false) :
    (rtrim p (d :: u)).head? = some d := by
  rw [rtrim_cons]
  by_cases h : rtrim p u = []
  · rw [if_pos h, rtrim_singleton, if_neg (by simp [hd])]
    rfl
  · rw [if_neg h]
    rfl

theorem head?_trimSpace_append {b : Str} (z : Str) (hb : trimSpace b ≠ []) :
    (trimSpace (b ++ z)).head? = (trimSpace b).head? := by
  have hd : b.dropWhile isWS ≠ [] := by
    intro h
    apply hb
    unfold trimSpace
    rw [h, rtrim_nil]
  obtain ⟨d0, d', hdd⟩ : ∃ d0 d', b.dropWhile isWS = d0 :: d' := by
    cases hdw : b.dropWhile isWS with
    | nil => exact absurd hdw hd
    | cons d0 d' => exact ⟨d0, d', rfl⟩
  have hd0 : isWS d0 = false := head?_dropWhile (by rw [hdd]; rfl)
  have happ : (b ++ z).dropWhile isWS = d0 :: (d' ++ z) := by
    rw [List.dropWhile_append, if_neg (by rw [hdd]; simp), hdd]
    rfl
  unfold trimSpace
  rw [happ, hdd, head?_rtrim_cons _ hd0, head?_rtrim_cons _ hd0]

theorem mem_trimSpace_of_nonws {l : Str} {c : Char} (hc : isWS c = false)
    (hm : c ∈ l) : c ∈ trimSpace l := by
  have h1 : c ∈ l.dropWhile isWS := by
    rw [← List.takeWhile_append_dropWhile isWS l] at hm
    rcases List.mem_append.mp hm with h2 | h2
    · rw [mem_takeWhile h2] at hc
      exact absurd hc (by simp)
    · exact h2
  obtain ⟨s, hs, hall⟩ := rtrim_decomp isWS (l.dropWhile isWS)
  rw [hs] at h1
  rcases List.mem_append.mp h1 with h2 | h2
  · exact h2
  · rw [hall c h2] at hc
    exact absurd hc (by simp)

theorem shape_key2 {K P : Str} (hK : trimSpace K = K) (hP : ∀ c ∈ P, c = ' ') :
    trimSpace (K ++ P ++ [' ']) = K := by
  rw [show K ++ P ++ [' '] = K ++ (P ++ [' ']) from by simp]
  rw [trimSpace_append_ws, hK]
  intro d hd
  rcases List.mem_append.mp hd with hd2 | hd2
  · rw [hP d hd2]; rfl
  · simp only [List.mem_singleton] at hd2
    rw [hd2]; rfl

theorem trimSpace_canonical {K Q V : Str} (hK : trimSpace K = K) (hKne : K ≠ [])
    (hV : ∀ c, V.getLast? = some c → isWS c = false) :
    trimSpace (K ++ Q ++ [' ', '='] ++ V) = K ++ Q ++ [' ', '='] ++ V := by
  apply trimSpace_of_trimmed
  · intro c hc
    obtain ⟨k0, K', hk⟩ : ∃ k0 K', K = k0 :: K' := by
      cases hkk : K with
      | nil => exact absurd hkk hKne
      | cons k0 K' => exact ⟨k0, K', rfl⟩
    rw [hk] at hc
    simp only [List.cons_append, List.head?_cons, Option.some.injEq] at hc
    subst hc
    apply head?_trimSpace_not_ws (l := K)
    rw [hK, hk]
    rfl
  · intro c hc
    rw [List.getLast?_append] at hc
    cases hV2 : V.getLast? with
    | some v =>
      rw [hV2] at hc
      simp only [Option.or_some, Option.some.injEq] at hc
      subst hc
      exact hV v hV2
    | none =>
      rw [hV2] at hc
      have hVnil : V = [] := by
        cases V with
        | nil => rfl
        | cons v0 V' =>
          obtain ⟨cz, hcz⟩ := exists_getLast? (l := v0 :: V') (by simp)
          rw [hcz] at hV2
          exact absurd hV2 (by simp)
      simp only [Option.none_or] at hc
      rw [show K ++ Q ++ [' ', '='] = (K ++ Q ++ [' ']) ++ ['='] from by simp,
        List.getLast?_concat] at hc
      simp only [Option.some.injEq] at hc
      subst hc
      rfl

/-! ## The canonical key/value rebuild -/

theorem kv_core {z K Q V R : Str} (incl : Bool) (m : Nat)
    (htr : trimRight z = K ++ Q ++ [' ', '='] ++ V)
    (hK : trimSpace K = K) (hKeq : '=' ∉ K)
    (hQ : ∀ c ∈ Q, c = ' ')
    (hV : (V = [] ∧ R = []) ∨ V = ' ' :: R)
    (hR : joinFields R = R)
    (hcls : isCommentBlank (trimSpace z) = false) :
    rewriteLine m incl z = K ++ spaces (m - K.length) ++ [' ', '=', ' '] ++ R ∧
      lineKeyLen incl z = some K.length := by
  have hmem : '=' ∉ K ++ Q ++ [' '] := by
    intro hm
    rcases List.mem_append.mp hm with hm2 | hm2
    · rcases List.mem_append.mp hm2 with hm3 | hm3
      · exact hKeq hm3
      · exact absurd (hQ _ hm3) (by simp)
    · simp at hm2
  have hshape : K ++ Q ++ [' ', '='] ++ V = (K ++ Q ++ [' ']) ++ '=' :: V := by simp
  have hsp : splitAtFirst '=' (trimRight z) = some (K ++ Q ++ [' '], V) := by
    rw [htr, hshape]
    exact splitAtFirst_append _ hmem
  have hkey : trimSpace (K ++ Q ++ [' ']) = K := shape_key2 hK hQ
  have hjv : joinFields V = R := by
    rcases hV with ⟨hV1, hV2⟩ | hV1
    · rw [hV1, hV2]
      unfold joinFields
      rw [fields_nil]
      rfl
    · rw [hV1, joinFields_ws_cons _ (by rfl), hR]
  have hcb : isCommentBlank (trimSpace (trimRight z)) = false := by
    rw [trimSpace_trimRight]
    exact hcls
  constructor
  · rw [rewriteLine_kv hcb hsp, hkey, hjv]
  · obtain ⟨s, hsz, hall⟩ := rtrim_decomp isSpTab z
    have hsz2 : z = trimRight z ++ s := hsz
    have hz : z = (K ++ Q ++ [' ']) ++ '=' :: (V ++ s) := by
      rw [hsz2, htr, hshape]
      simp
    have hspz : splitAtFirst '=' z = some (K ++ Q ++ [' '], V ++ s) := by
      rw [hz]
      exact splitAtFirst_append _ hmem
    rw [lineKeyLen_some (Or.inr hcls) hspz, hkey]

/-! ## Canonical header forms -/

theorem prePass_hdr_nil {line b a : Str}
    (hh : (trimSpace (trimRight line)).head? = some '[')
    (hs : splitAtFirst ']' (trimSpace (trimRight line)) = some (b, a))
    (ha : trimSpace a = []) : prePass line = b ++ [']'] := by
  unfold prePass
  rw [if_pos (by rw [hh]; rfl), hs]
  show (match trimSpace a with
        | [] => b ++ [']']
        | m :: rest => b ++ [']'] ++ [' ', m, ' '] ++ trimSpace rest) = b ++ [']']
  rw [ha]

theorem prePass_hdr_cons {line b a : Str} {m2 : Char} {rest : Str}
    (hh : (trimSpace (trimRight line)).head? = some '[')
    (hs : splitAtFirst ']' (trimSpace (trimRight line)) = some (b, a))
    (ha : trimSpace a = m2 :: rest) :
    prePass line = b ++ [']'] ++ [' ', m2, ' '] ++ trimSpace rest := by
  unfold prePass
  rw [if_pos (by rw [hh]; rfl), hs]
  show (match trimSpace a with
        | [] => b ++ [']']
        | m :: rest => b ++ [']'] ++ [' ', m, ' '] ++ trimSpace rest) =
    b ++ [']'] ++ [' ', m2, ' '] ++ trimSpace rest
  rw [ha]

theorem hdrOut_hdr {line b a : Str}
    (hs : splitAtFirst ']' (trimSpace (trimRight line)) = some (b, a)) :
    hdrOut line =
      (match trimSpace a with
       | [] => b ++ [']']
       | comment => b ++ [']'] ++ [' '] ++ comment) := by
  unfold hdrOut
  rw [hs]

theorem isHdr_true {line b a : Str}
    (hh : (trimSpace (trimRight line)).head? = some '[')
    (hs : splitAtFirst ']' (trimSpace (trimRight line)) = some (b, a)) :
    isHdr line = true := by
  unfold isHdr
  rw [hh, hs]
  rfl

theorem isHdr_parts {line : Str} (h : isHdr line = true) :
    (trimSpace (trimRight line)).head? = some '[' ∧
      ∃ b a, splitAtFirst ']' (trimSpace (trimRight line)) = some (b, a) := by
  unfold isHdr at h
  rcases Bool.and_eq_true_iff.mp h with ⟨h1, h2⟩
  refine ⟨by simpa using h1, ?_⟩
  cases hs : splitAtFirst ']' (trimSpace (trimRight line)) with
  | none => rw [hs] at h2; simp at h2
  | some p =>
    obtain ⟨b, a⟩ := p
    exact ⟨b, a, rfl⟩

theorem hdr_b_head {T b a : Str} (hh : T.head? = some '[')
    (heq : T = b ++ ']' :: a) : b.head? = some '[' ∧ b ≠ [] := by
  cases b with
  | nil =>
    rw [heq] at hh
    simp at hh
  | cons b0 b' =>
    rw [heq] at hh
    simp only [List.cons_append, List.head?_cons, Option.some.injEq] at hh
    subst hh
    exact ⟨rfl, by simp⟩

theorem hdrA {b : Str} (hb1 : b.head? = some '[') (hb2 : ']' ∉ b) :
    trimRight (b ++ [']']) = b ++ [']'] ∧
      trimSpace (b ++ [']']) = b ++ [']'] ∧
      splitAtFirst ']' (b ++ [']']) = some (b, []) ∧
      isHdr (b ++ [']']) = true ∧
      prePass (b ++ [']']) = b ++ [']'] ∧
      hdrOut (b ++ [']']) = b ++ [']'] := by
  have htr : trimRight (b ++ [']']) = b ++ [']'] := by
    apply rtrim_eq_self_of_getLast?
    intro c hc
    rw [List.getLast?_concat] at hc
    simp only [Option.some.injEq] at hc
    subst hc
    rfl
  have hts : trimSpace (b ++ [']']) = b ++ [']'] := by
    apply trimSpace_of_trimmed
    · intro c hc
      obtain ⟨b0, b', hb⟩ : ∃ b0 b', b = b0 :: b' := by
        cases hbb : b with
        | nil => rw [hbb] at hb1; simp at hb1
        | cons b0 b' => exact ⟨b0, b', rfl⟩
      rw [hb] at hc hb1
      simp only [List.cons_append, List.head?_cons, Option.some.injEq] at hc hb1
      rw [← hc, hb1]
      rfl
    · intro c hc
      rw [List.getLast?_concat] at hc
      simp only [Option.some.injEq] at hc
      subst hc
      rfl
  have hsp : splitAtFirst ']' (b ++ [']']) = some (b, []) :=
    splitAtFirst_append [] hb2
  have hT : trimSpace (trimRight (b ++ [']'])) = b ++ [']'] := by rw [htr, hts]
  have hhd : (trimSpace (trimRight (b ++ [']']))).head? = some '[' := by
    rw [hT]
    obtain ⟨b0, b', hb⟩ : ∃ b0 b', b = b0 :: b' := by
      cases hbb : b with
      | nil => rw [hbb] at hb1; simp at hb1
      | cons b0 b' => exact ⟨b0, b', rfl⟩
    rw [hb] at hb1 ⊢
    simpa using hb1
  have hspT : splitAtFirst ']' (trimSpace (trimRight (b ++ [']']))) = some (b, []) := by
    rw [hT]
    exact hsp
  refine ⟨htr, hts, hsp, isHdr_true hhd hspT, ?_, ?_⟩
  · rw [prePass_hdr_nil hhd hspT rfl]
  · rw [hdrOut_hdr hspT]
    rfl

theorem hdrB {b t : Str} {mk : Char} (hb1 : b.head? = some '[') (hb2 : ']' ∉ b)
    (hmk : isWS mk = false) (ht : trimSpace t = t) (htne : t ≠ []) :
    trimRight (b ++ [']'] ++ [' ', mk, ' '] ++ t) = b ++ [']'] ++ [' ', mk, ' '] ++ t ∧
      trimSpace (b ++ [']'] ++ [' ', mk, ' '] ++ t) = b ++ [']'] ++ [' ', mk, ' '] ++ t ∧
      splitAtFirst ']' (b ++ [']'] ++ [' ', mk, ' '] ++ t) =
        some (b, ' ' :: mk :: ' ' :: t) ∧
      isHdr (b ++ [']'] ++ [' ', mk, ' '] ++ t) = true ∧
      prePass (b ++ [']'] ++ [' ', mk, ' '] ++ t) = b ++ [']'] ++ [' ', mk, ' '] ++ t ∧
      hdrOut (b ++ [']'] ++ [' ', mk, ' '] ++ t) = b ++ [']'] ++ [' ', mk, ' '] ++ t := by
  obtain ⟨tl, htl⟩ := exists_getLast? htne
  have htlw : isWS tl = false := by
    apply getLast?_trimSpace_not_ws (l := t)
    rw [ht]
    exact htl
  have hglast : (b ++ [']'] ++ [' ', mk, ' '] ++ t).getLast? = some tl := by
    rw [List.getLast?_append, htl]
    rfl
  have htr : trimRight (b ++ [']'] ++ [' ', mk, ' '] ++ t) =
      b ++ [']'] ++ [' ', mk, ' '] ++ t := by
    apply rtrim_eq_self_of_getLast?
    intro c hc
    rw [hglast] at hc
    simp only [Option.some.injEq] at hc
    subst hc
    exact not_isSpTab_of_not_isWS htlw
  obtain ⟨b0, b', hb⟩ : ∃ b0 b', b = b0 :: b' := by
    cases hbb : b with
    | nil => rw [hbb] at hb1; simp at hb1
    | cons b0 b' => exact ⟨b0, b', rfl⟩
  have hb0 : b0 = '[' := by
    rw [hb] at hb1
    simpa using hb1
  have hts : trimSpace (b ++ [']'] ++ [' ', mk, ' '] ++ t) =
      b ++ [']'] ++ [' ', mk, ' '] ++ t := by
    apply trimSpace_of_trimmed
    · intro c hc
      rw [hb] at hc
      simp only [List.cons_append, List.head?_cons, Option.some.injEq] at hc
      rw [← hc, hb0]
      rfl
    · intro c hc
      rw [hglast] at hc
      simp only [Option.some.injEq] at hc
      subst hc
      exact htlw
  have hsp : splitAtFirst ']' (b ++ [']'] ++ [' ', mk, ' '] ++ t) =
      some (b, ' ' :: mk :: ' ' :: t) := by
    rw [show b ++ [']'] ++ [' ', mk, ' '] ++ t = b ++ ']' :: (' ' :: mk :: ' ' :: t)
      from by simp]
    exact splitAtFirst_append _ hb2
  have hT : trimSpace (trimRight (b ++ [']'] ++ [' ', mk, ' '] ++ t)) =
      b ++ [']'] ++ [' ', mk, ' '] ++ t := by rw [htr, hts]
  have hhd : (trimSpace (trimRight (b ++ [']'] ++ [' ', mk, ' '] ++ t))).head? =
      some '[' := by
    rw [hT, hb, hb0]
    rfl
  have hspT : splitAtFirst ']'
      (trimSpace (trimRight (b ++ [']'] ++ [' ', mk, ' '] ++ t))) =
      some (b, ' ' :: mk :: ' ' :: t) := by
    rw [hT]
    exact hsp
  have hta : trimSpace (' ' :: mk :: ' ' :: t) = mk :: ' ' :: t := by
    rw [show (' ' :: mk :: ' ' :: t : Str) = [' '] ++ (mk :: ' ' :: t) from rfl,
      trimSpace_ws_append (by intro c hc; simp only [List.mem_singleton] at hc; rw [hc]; rfl)]
    apply trimSpace_of_trimmed
    · intro c hc
      simp only [List.head?_cons, Option.some.injEq] at hc
      rw [← hc]
      exact hmk
    · intro c hc
      rw [show (mk :: ' ' :: t : Str) = (mk :: [' ']) ++ t from rfl,
        List.getLast?_append, htl] at hc
      simp only [Option.or_some, Option.some.injEq] at hc
      subst hc
      exact htlw
  have htss : trimSpace (' ' :: t) = t := by
    rw [show (' ' :: t : Str) = [' '] ++ t from rfl,
      trimSpace_ws_append (by intro c hc; simp only [List.mem_singleton] at hc; rw [hc]; rfl),
      ht]
  refine ⟨htr, hts, hsp, isHdr_true hhd hspT, ?_, ?_⟩
  · rw [prePass_hdr_cons hhd hspT hta, htss]
  · rw [hdrOut_hdr hspT, hta]
    simp

theorem hdrC {b : Str} {mk : Char} (hb1 : b.head? = some '[') (hb2 : ']' ∉ b)
    (hmk : isWS mk = false) :
    trimRight (b ++ [']'] ++ [' ', mk, ' ']) = b ++ [']'] ++ [' ', mk] ∧
      trimSpace (b ++ [']'] ++ [' ', mk]) = b ++ [']'] ++ [' ', mk] ∧
      splitAtFirst ']' (b ++ [']'] ++ [' ', mk]) = some (b, [' ', mk]) ∧
      isHdr (b ++ [']'] ++ [' ', mk, ' ']) = true ∧
      prePass (b ++ [']'] ++ [' ', mk, ' ']) = b ++ [']'] ++ [' ', mk, ' '] ∧
      hdrOut (b ++ [']'] ++ [' ', mk, ' ']) = b ++ [']'] ++ [' ', mk] := by
  have htr : trimRight (b ++ [']'] ++ [' ', mk, ' ']) = b ++ [']'] ++ [' ', mk] := by
    rw [show b ++ [']'] ++ [' ', mk, ' '] = (b ++ [']'] ++ [' ', mk]) ++ [' ']
      from by simp]
    unfold trimRight
    rw [rtrim_snoc, if_pos (by rfl)]
    rw [show b ++ [']'] ++ [' ', mk] = (b ++ [']'] ++ [' ']) ++ [mk] from by simp]
    rw [rtrim_snoc, if_neg (by simp [not_isSpTab_of_not_isWS hmk])]
  obtain ⟨b0, b', hb⟩ : ∃ b0 b', b = b0 :: b' := by
    cases hbb : b with
    | nil => rw [hbb] at hb1; simp at hb1
    | cons b0 b' => exact ⟨b0, b', rfl⟩
  have hb0 : b0 = '[' := by
    rw [hb] at hb1
    simpa using hb1
  have hts : trimSpace (b ++ [']'] ++ [' ', mk]) = b ++ [']'] ++ [' ', mk] := by
    apply trimSpace_of_trimmed
    · intro c hc
      rw [hb] at hc
      simp only [List.cons_append, List.head?_cons, Option.some.injEq] at hc
      rw [← hc, hb0]
      rfl
    · intro c hc
      rw [show b ++ [']'] ++ [' ', mk] = (b ++ [']'] ++ [' ']) ++ [mk] from by simp,
        List.getLast?_concat] at hc
      simp only [Option.some.injEq] at hc
      subst hc
      exact hmk
  have hsp : splitAtFirst ']' (b ++ [']'] ++ [' ', mk]) = some (b, [' ', mk]) := by
    rw [show b ++ [']'] ++ [' ', mk] = b ++ ']' :: [' ', mk] from by simp]
    exact splitAtFirst_append _ hb2
  have hT : trimSpace (trimRight (b ++ [']'] ++ [' ', mk, ' '])) =
      b ++ [']'] ++ [' ', mk] := by rw [htr, hts]
  have hhd : (trimSpace (trimRight (b ++ [']'] ++ [' ', mk, ' ']))).head? =
      some '[' := by
    rw [hT, hb, hb0]
    rfl
  have hspT : splitAtFirst ']' (trimSpace (trimRight (b ++ [']'] ++ [' ', mk, ' ']))) =
      some (b, [' ', mk]) := by
    rw [hT]
    exact hsp
  have hta : trimSpace ([' ', mk] : Str) = [mk] := by
    rw [show ([' ', mk] : Str) = [' '] ++ [mk] from rfl,
      trimSpace_ws_append (by intro c hc; simp only [List.mem_singleton] at hc; rw [hc]; rfl)]
    apply trimSpace_of_trimmed
    · intro c hc
      simp only [List.head?_cons, Option.some.injEq] at hc
      rw [← hc]
      exact hmk
    · intro c hc
      simp only [List.getLast?_singleton, Option.some.injEq] at hc
      rw [← hc]
      exact hmk
  refine ⟨htr, hts, hsp, isHdr_true hhd hspT, ?_, ?_⟩
  · rw [prePass_hdr_cons hhd hspT hta,
      show trimSpace ([] : Str) = [] from rfl, List.append_nil]
  · rw [hdrOut_hdr hspT, hta]
    simp

theorem hdrD {b : Str} {mk : Char} (hb1 : b.head? = some '[') (hb2 : ']' ∉ b)
    (hmk : isWS mk = false) :
    isHdr (b ++ [']'] ++ [' ', mk]) = true ∧
      prePass (b ++ [']'] ++ [' ', mk]) = b ++ [']'] ++ [' ', mk, ' '] ∧
      hdrOut (b ++ [']'] ++ [' ', mk]) = b ++ [']'] ++ [' ', mk] := by
  obtain ⟨htrC, htsC, hspC, hisC, hppC, hoC⟩ := hdrC hb1 hb2 hmk
  have htr : trimRight (b ++ [']'] ++ [' ', mk]) = b ++ [']'] ++ [' ', mk] := by
    apply rtrim_eq_self_of_getLast?
    intro c hc
    rw [show b ++ [']'] ++ [' ', mk] = (b ++ [']'] ++ [' ']) ++ [mk] from by simp,
      List.getLast?_concat] at hc
    simp only [Option.some.injEq] at hc
    subst hc
    exact not_isSpTab_of_not_isWS hmk
  have hT : trimSpace (trimRight (b ++ [']'] ++ [' ', mk])) = b ++ [']'] ++ [' ', mk] := by
    rw [htr, htsC]
  obtain ⟨b0, b', hb⟩ : ∃ b0 b', b = b0 :: b' := by
    cases hbb : b with
    | nil => rw [hbb] at hb1; simp at hb1
    | cons b0 b' => exact ⟨b0, b', rfl⟩
  have hb0 : b0 = '[' := by
    rw [hb] at hb1
    simpa using hb1
  have hhd : (trimSpace (trimRight (b ++ [']'] ++ [' ', mk]))).head? = some '[' := by
    rw [hT, hb, hb0]
    rfl
  have hspT : splitAtFirst ']' (trimSpace (trimRight (b ++ [']'] ++ [' ', mk]))) =
      some (b, [' ', mk]) := by
    rw [hT]
    exact hspC
  have hta : trimSpace ([' ', mk] : Str) = [mk] := by
    rw [show ([' ', mk] : Str) = [' '] ++ [mk] from rfl,
      trimSpace_ws_append (by intro c hc; simp only [List.mem_singleton] at hc; rw [hc]; rfl)]
    apply trimSpace_of_trimmed
    · intro c hc
      simp only [List.head?_cons, Option.some.injEq] at hc
      rw [← hc]
      exact hmk
    · intro c hc
      simp only [List.getLast?_singleton, Option.some.injEq] at hc
      rw [← hc]
      exact hmk
  refine ⟨isHdr_true hhd hspT, ?_, ?_⟩
  · rw [prePass_hdr_cons hhd hspT hta,
      show trimSpace ([] : Str) = [] from rfl, List.append_nil]
  · rw [hdrOut_hdr hspT, hta]
    simp

theorem hdr_structure {x : Str} (hfix : prePass x = x) (hhdr : isHdr x = true) :
    ∃ b, b.head? = some '[' ∧ ']' ∉ b ∧
      (x = b ++ [']'] ∨
        ∃ mk t, isWS mk = false ∧ trimSpace t = t ∧
          x = b ++ [']'] ++ [' ', mk, ' '] ++ t) := by
  obtain ⟨hh, b, a, hs⟩ := isHdr_parts hhdr
  obtain ⟨heq, hnb⟩ := splitAtFirst_eq_some hs
  obtain ⟨hb1, hbne⟩ := hdr_b_head hh heq
  refine ⟨b, hb1, hnb, ?_⟩
  cases hta : trimSpace a with
  | nil =>
    left
    rw [← hfix, prePass_hdr_nil hh hs hta]
  | cons m2 rest =>
    right
    refine ⟨m2, trimSpace rest, ?_, trimSpace_idem rest, ?_⟩
    · apply head?_trimSpace_not_ws (l := a)
      rw [hta]
      rfl
    · rw [← hfix, prePass_hdr_cons hh hs hta]

theorem prePass_idem (x : Str) : prePass (prePass x) = prePass x := by
  by_cases hhdr : isHdr x = true
  · obtain ⟨hh, b, a, hs⟩ := isHdr_parts hhdr
    obtain ⟨heq, hnb⟩ := splitAtFirst_eq_some hs
    obtain ⟨hb1, hbne⟩ := hdr_b_head hh heq
    cases hta : trimSpace a with
    | nil =>
      rw [prePass_hdr_nil hh hs hta]
      obtain ⟨-, -, -, -, hpp, -⟩ := hdrA hb1 hnb
      exact hpp
    | cons m2 rest =>
      have hm2 : isWS m2 = false := by
        apply head?_trimSpace_not_ws (l := a)
        rw [hta]
        rfl
      rw [prePass_hdr_cons hh hs hta]
      cases htsr : trimSpace rest with
      | nil =>
        rw [List.append_nil]
        obtain ⟨-, -, -, -, hpp, -⟩ := hdrC hb1 hnb hm2
        exact hpp
      | cons t0 t' =>
        have ht : trimSpace (t0 :: t') = t0 :: t' := by
          rw [← htsr, trimSpace_idem]
        obtain ⟨-, -, -, -, hpp, -⟩ := hdrB hb1 hnb hm2 ht (List.cons_ne_nil t0 t')
        exact hpp
  · have hx : isHdr x = false := by
      cases h2 : isHdr x
      · rfl
      · exact absurd h2 hhdr
    rw [prePass_non_hdr hx, prePass_trimRight]
    exact prePass_non_hdr hx

theorem hdr_round {x : Str} (hfix : prePass x = x) (hhdr : isHdr x = true) :
    isHdr (prePass (hdrOut x)) = true ∧ hdrOut (prePass (hdrOut x)) = hdrOut x := by
  obtain ⟨b, hb1, hb2, hcase⟩ := hdr_structure hfix hhdr
  rcases hcase with hx | ⟨mk, t, hmk, ht, hx⟩
  · subst hx
    obtain ⟨_, _, _, his, hpp, ho⟩ := hdrA hb1 hb2
    rw [ho, hpp, ho, his]
    exact ⟨rfl, rfl⟩
  · subst hx
    cases t with
    | nil =>
      obtain ⟨_, _, _, his, hpp, ho⟩ := hdrC hb1 hb2 hmk
      obtain ⟨hisD, hppD, hoD⟩ := hdrD hb1 hb2 hmk
      rw [show b ++ [']'] ++ [' ', mk, ' '] ++ ([] : Str) = b ++ [']'] ++ [' ', mk, ' ']
        from by simp]
      rw [ho, hppD]
      exact ⟨his, by rw [ho]⟩
    | cons t0 t' =>
      obtain ⟨_, _, _, his, hpp, ho⟩ := hdrB hb1 hb2 hmk ht (List.cons_ne_nil t0 t')
      rw [ho, hpp, ho, his]
      exact ⟨rfl, rfl⟩

/-! ## More auxiliary facts -/

theorem splitAtFirst_append_left {c : Char} {u ub ua : Str} (v : Str)
    (h : splitAtFirst c u = some (ub, ua)) :
    splitAtFirst c (u ++ v) = some (ub, ua ++ v) := by
  obtain ⟨hu, hnb⟩ := splitAtFirst_eq_some h
  rw [hu, show (ub ++ c :: ua) ++ v = ub ++ c :: (ua ++ v) from by simp]
  exact splitAtFirst_append _ hnb

theorem rtrim_eq_nil_mem {p : Char → Bool} {l : Str} (h : rtrim p l = [])
    {c : Char} (hc : c ∈ l) : p c = true := by
  obtain ⟨s, hs, hall⟩ := rtrim_decomp p l
  rw [h, List.nil_append] at hs
  exact hall c (hs ▸ hc)

theorem head?_joinWords {W : List Str}
    (hW : ∀ w ∈ W, w ≠ [] ∧ ∀ c ∈ w, isWS c = false) {c : Char}
    (h : (joinWords W).head? = some c) : isWS c = false := by
  cases W with
  | nil => simp [joinWords] at h
  | cons w ws =>
    obtain ⟨hne, hnw⟩ := hW w (List.mem_cons_self w ws)
    obtain ⟨w0, w', hw⟩ : ∃ w0 w', w = w0 :: w' := by
      cases hww : w with
      | nil => exact absurd hww hne
      | cons w0 w' => exact ⟨w0, w', rfl⟩
    have hh : (joinWords (w :: ws)).head? = some w0 := by
      cases ws with
      | nil => rw [joinWords, hw]; rfl
      | cons w2 ws2 =>
        rw [show joinWords (w :: w2 :: ws2) = w ++ ' ' :: joinWords (w2 :: ws2) from rfl,
          hw]
        rfl
    rw [hh] at h
    simp only [Option.some.injEq] at h
    subst h
    exact hnw w0 (hw ▸ List.mem_cons_self w0 w')

theorem head?_joinFields {a : Str} {c : Char}
    (h : (joinFields a).head? = some c) : isWS c = false :=
  head?_joinWords fields_all h

theorem trimSpace_joinFields (a : Str) : trimSpace (joinFields a) = joinFields a := by
  apply trimSpace_of_trimmed
  · intro c hc
    exact head?_joinFields hc
  · intro c hc
    exact getLast?_joinFields hc

theorem fields_ws_append {s v : Str} (h : ∀ c ∈ s, isWS c = true) :
    fields (s ++ v) = fields v := by
  induction s with
  | nil => rfl
  | cons c s ih =>
    rw [List.cons_append, fields_ws_cons _ (h c (List.mem_cons_self c s))]
    exact ih (fun d hd => h d (List.mem_cons_of_mem c hd))

theorem isCommentBlank_head {t : Str} {h0 : Char} (ht : t.head? = some h0) :
    isCommentBlank t = (h0 == ';' || h0 == '#') := by
  unfold isCommentBlank
  rw [ht]
  cases t with
  | nil => simp at ht
  | cons c t' => simp

theorem isHdr_false_of_head {line : Str}
    (h : ¬((trimSpace (trimRight line)).head? = some '[')) : isHdr line = false := by
  unfold isHdr
  rw [Bool.and_eq_false_iff]
  left
  simpa using h

theorem isHdr_false_of_none {line : Str}
    (h : splitAtFirst ']' (trimSpace (trimRight line)) = none) : isHdr line = false := by
  unfold isHdr
  rw [Bool.and_eq_false_iff]
  right
  rw [h]
  rfl

theorem head?_trimSpace_cons {c : Char} (z : Str) (hc : isWS c = false) :
    (trimSpace (c :: z)).head? = some c := by
  unfold trimSpace
  rw [List.dropWhile_cons, if_neg (by simp [hc])]
  exact head?_rtrim_cons z hc

/-! ## Extending the last word of a whitespace-collapsed list -/

theorem fields_snoc_ext {c : Char} (hc : isWS c = false) :
    ∀ {u : Str}, u ≠ [] → rtrim isWS u = u →
      ∃ W w, fields u = W ++ [w] ∧ fields (u ++ [c]) = W ++ [w ++ [c]] := by
  intro u
  induction u using fields_ind with
  | case1 => intro h _; exact absurd rfl h
  | case2 c0 u' h ih =>
    intro _ hrt
    have hu' : u' ≠ [] := by
      intro h2
      subst h2
      rw [rtrim_singleton, if_pos h] at hrt
      exact absurd hrt.symm (by simp)
    have hrt' : rtrim isWS u' = u' := by
      rw [rtrim_cons] at hrt
      by_cases h2 : rtrim isWS u' = []
      · rw [if_pos h2, rtrim_singleton, if_pos h] at hrt
        exact absurd hrt.symm (by simp)
      · rw [if_neg h2] at hrt
        exact (List.cons.inj hrt).2
    obtain ⟨W, w, h1, h2⟩ := ih hu' hrt'
    refine ⟨W, w, ?_, ?_⟩
    · rw [fields_ws_cons _ h, h1]
    · rw [List.cons_append, fields_ws_cons _ h, h2]
  | case3 c0 u' h ih =>
    intro _ hrt
    have hc0 : isWS c0 = false := by
      cases h2 : isWS c0
      · rfl
      · simp [h2] at h
    by_cases hall : ∀ d ∈ u', (fun d => !isWS d) d = true
    · refine ⟨[], c0 :: u', ?_, ?_⟩
      · rw [fields_word (by simp) (fun d hd => by
          rcases List.mem_cons.mp hd with rfl | hd2
          · exact hc0
          · simpa using hall d hd2)]
        rfl
      · rw [show (c0 :: u') ++ [c] = c0 :: (u' ++ [c]) from rfl]
        rw [fields_word (by simp) (fun d hd => by
          rcases List.mem_cons.mp hd with rfl | hd2
          · exact hc0
          · rcases List.mem_append.mp hd2 with hd3 | hd3
            · simpa using hall d hd3
            · simp only [List.mem_singleton] at hd3
              rw [hd3]
              exact hc)]
        simp
    · have ht : ¬(u'.takeWhile (fun d => !isWS d) = u') := by
        intro h2
        exact hall (List.takeWhile_eq_self_iff.mp h2)
      have hd : u'.dropWhile (fun d => !isWS d) ≠ [] := by
        intro h2
        exact hall (List.dropWhile_eq_nil_iff.mp h2)
      have hu'ne : u' ≠ [] := by
        intro h2
        subst h2
        exact hd rfl
      obtain ⟨z, hz⟩ := exists_getLast? hd
      have hzu' : u'.getLast? = some z := by
        rw [← List.takeWhile_append_dropWhile (fun d => !isWS d) u',
          List.getLast?_append, hz]
        rfl
      have hzu : (c0 :: u').getLast? = some z := by
        obtain ⟨v0, v', hv⟩ : ∃ v0 v', u' = v0 :: v' := by
          cases hvv : u' with
          | nil => exact absurd hvv hu'ne
          | cons v0 v' => exact ⟨v0, v', rfl⟩
        rw [hv, List.getLast?_cons_cons, ← hv]
        exact hzu'
      have hznw : isWS z = false := by
        apply getLast?_rtrim (p := isWS) (l := c0 :: u')
        rw [hrt]
        exact hzu
      have hlast : rtrim isWS (u'.dropWhile (fun d => !isWS d)) =
          u'.dropWhile (fun d => !isWS d) := by
        apply rtrim_eq_self_of_getLast?
        intro d hdl
        rw [hz] at hdl
        simp only [Option.some.injEq] at hdl
        subst hdl
        exact hznw
      obtain ⟨W, w, h1, h2⟩ := ih hd hlast
      refine ⟨(c0 :: u'.takeWhile (fun d => !isWS d)) :: W, w, ?_, ?_⟩
      · rw [fields_nonws_cons _ hc0, h1]
        rfl
      · rw [show (c0 :: u') ++ [c] = c0 :: (u' ++ [c]) from rfl,
          fields_nonws_cons _ hc0, takeWhile_append_eq, if_neg ht,
          List.dropWhile_append,
          if_neg (by rw [List.isEmpty_iff]; exact hd), h2]
        rfl

theorem joinFields_snoc {u : Str} (hu : ']' ∉ u) :
    ∃ S, joinFields (u ++ [']']) = S ++ [']'] ∧ ']' ∉ S := by
  have hbr : isWS ']' = false := rfl
  obtain ⟨s, hdecomp, hall⟩ := rtrim_decomp isWS u
  by_cases hs : s = []
  · rw [hs, List.append_nil] at hdecomp
    by_cases hune : u = []
    · subst hune
      refine ⟨[], ?_, by simp⟩
      rw [List.nil_append, joinFields,
        fields_word (by simp) (fun d hd => by
          simp only [List.mem_singleton] at hd
          rw [hd]
          rfl)]
      rfl
    · obtain ⟨W, w, h1, h2⟩ := fields_snoc_ext hbr hune hdecomp.symm
      have hwmem : ∀ d ∈ w, d ∈ u := by
        intro d hd
        exact mem_fields_mem (l := u) (by rw [h1]; exact List.mem_append_right _ (by simp)) hd
      cases W with
      | nil =>
        refine ⟨w, ?_, fun hm => hu (hwmem _ hm)⟩
        rw [joinFields, h2]
        rfl
      | cons W0 W' =>
        refine ⟨joinWords (W0 :: W') ++ ' ' :: w, ?_, ?_⟩
        · rw [joinFields, h2, joinWords_append (by simp) (by simp)]
          simp [joinWords]
        · intro hm
          rcases List.mem_append.mp hm with hm2 | hm2
          · rcases mem_joinWords hm2 with h3 | ⟨v, hv, hcv⟩
            · exact absurd h3 (by simp)
            · have : ']' ∈ u := mem_fields_mem (l := u)
                (by rw [h1]; exact List.mem_append_left _ hv) hcv
              exact hu this
          · rcases List.mem_cons.mp hm2 with h3 | h3
            · exact absurd h3 (by simp)
            · exact hu (hwmem _ h3)
  · obtain ⟨s0, s', hs0⟩ : ∃ s0 s', s = s0 :: s' := by
      cases hss : s with
      | nil => exact absurd hss hs
      | cons s0 s' => exact ⟨s0, s', rfl⟩
    have hf1 : fields ([']'] : Str) = [[']']] := by
      rw [fields_word (w := [']']) (by simp) (fun d hd => by
        simp only [List.mem_singleton] at hd
        rw [hd]
        rfl)]
    have hkey : u ++ [']'] = rtrim isWS u ++ s0 :: (s' ++ [']']) := by
      conv_lhs => rw [hdecomp, hs0]
      simp
    have hfs : fields (u ++ [']']) = fields (rtrim isWS u) ++ [[']']] := by
      rw [hkey,
        fields_append_ws_cons (hall s0 (by rw [hs0]; exact List.mem_cons_self s0 s')),
        fields_ws_append (fun d hd => hall d (by rw [hs0]; exact List.mem_cons_of_mem s0 hd)),
        hf1]
    cases hfr : fields (rtrim isWS u) with
    | nil =>
      refine ⟨[], ?_, by simp⟩
      rw [joinFields, hfs, hfr]
      rfl
    | cons F0 F' =>
      refine ⟨joinWords (F0 :: F') ++ [' '], ?_, ?_⟩
      · rw [joinFields, hfs, hfr, joinWords_append (by simp) (by simp)]
        simp [joinWords]
      · intro hm
        rcases List.mem_append.mp hm with hm2 | hm2
        · rcases mem_joinWords hm2 with h3 | ⟨v, hv, hcv⟩
          · exact absurd h3 (by simp)
          · have : ']' ∈ rtrim isWS u := mem_fields_mem (l := rtrim isWS u)
              (by rw [hfr]; exact hv) hcv
            exact hu (mem_rtrim this)
        · simp at hm2

/-! ## Support for the rewrite/pre-pass round trip -/

theorem lineKeyLen_of_kv {x b a : Str} {incl : Bool}
    (hcb : isCommentBlank (trimSpace (trimRight x)) = false)
    (hsp : splitAtFirst '=' (trimRight x) = some (b, a)) :
    lineKeyLen incl x = some (trimSpace b).length := by
  obtain ⟨hdec, hnb⟩ := splitAtFirst_eq_some hsp
  obtain ⟨s, hsz, hall⟩ := rtrim_decomp isSpTab x
  have hsz2 : x = trimRight x ++ s := hsz
  have hx : x = b ++ '=' :: (a ++ s) := by
    rw [hsz2, hdec]
    simp
  have hspx : splitAtFirst '=' x = some (b, a ++ s) := by
    rw [hx]
    exact splitAtFirst_append _ hnb
  have hcls : isCommentBlank (trimSpace x) = false := by
    rw [← trimSpace_trimRight]
    exact hcb
  exact lineKeyLen_some (Or.inr hcls) hspx

theorem trimRight_canonical_kv (K P R : Str)
    (hRl : ∀ c, R.getLast? = some c → isWS c = false) :
    ∃ V, ((V = [] ∧ R = []) ∨ (V = ' ' :: R ∧ R ≠ [])) ∧
      trimRight (K ++ P ++ [' ', '=', ' '] ++ R) = K ++ P ++ [' ', '='] ++ V := by
  cases R with
  | nil =>
    refine ⟨[], Or.inl ⟨rfl, rfl⟩, ?_⟩
    rw [List.append_nil, List.append_nil]
    exact shape_trimRight_nil K P
  | cons r0 R' =>
    obtain ⟨c, hc⟩ := exists_getLast? (l := r0 :: R') (by simp)
    refine ⟨' ' :: (r0 :: R'), Or.inr ⟨rfl, by simp⟩, ?_⟩
    rw [shape_trimRight_pos hc (hRl c hc)]
    simp

theorem getLast?_canonical {X V R : Str}
    (hV : (V = [] ∧ R = []) ∨ (V = ' ' :: R ∧ R ≠ []))
    (hRl : ∀ c, R.getLast? = some c → isWS c = false) :
    ∀ c, (X ++ [' ', '='] ++ V).getLast? = some c → isWS c = false := by
  intro c hc
  rcases hV with ⟨hV1, _⟩ | ⟨hV1, hRne⟩
  · rw [hV1, List.append_nil, show X ++ [' ', '='] = (X ++ [' ']) ++ ['='] from by simp,
      List.getLast?_concat] at hc
    simp only [Option.some.injEq] at hc
    subst hc
    rfl
  · obtain ⟨r0, R2, hR0⟩ : ∃ r0 R2, R = r0 :: R2 := by
      cases hRR : R with
      | nil => exact absurd hRR hRne
      | cons r0 R2 => exact ⟨r0, R2, rfl⟩
    obtain ⟨z, hz⟩ := exists_getLast? (l := R) (by rw [hR0]; simp)
    have : (X ++ [' ', '='] ++ V).getLast? = some z := by
      rw [hV1, hR0, List.getLast?_append, List.getLast?_cons_cons, ← hR0, hz]
      rfl
    rw [this] at hc
    simp only [Option.some.injEq] at hc
    subst hc
    exact hRl z hz

theorem class_transfer {x b a : Str}
    (hcb : isCommentBlank (trimSpace (trimRight x)) = false)
    (hdec : trimRight x = b ++ '=' :: a) (hKne : trimSpace b ≠ []) :
    ∃ k0, (trimSpace b).head? = some k0 ∧ (k0 == ';' || k0 == '#') = false ∧
      isWS k0 = false := by
  obtain ⟨k0, K', hK⟩ : ∃ k0 K', trimSpace b = k0 :: K' := by
    cases hKK : trimSpace b with
    | nil => exact absurd hKK hKne
    | cons k0 K' => exact ⟨k0, K', rfl⟩
  have hhead : (trimSpace (trimRight x)).head? = some k0 := by
    rw [hdec, head?_trimSpace_append _ hKne, hK]
    rfl
  refine ⟨k0, by rw [hK]; rfl, ?_, head?_trimSpace_not_ws (by rw [hK]; rfl)⟩
  rw [isCommentBlank_head hhead] at hcb
  exact hcb

theorem trimSpace_key_head {b : Str} (hKne : trimSpace b ≠ []) :
    ∃ k0 K', trimSpace b = k0 :: K' ∧ isWS k0 = false := by
  obtain ⟨k0, K', hK⟩ : ∃ k0 K', trimSpace b = k0 :: K' := by
    cases hKK : trimSpace b with
    | nil => exact absurd hKK hKne
    | cons k0 K' => exact ⟨k0, K', rfl⟩
  exact ⟨k0, K', hK, head?_trimSpace_not_ws (by rw [hK]; rfl)⟩

theorem getLast?_V {V R : Str}
    (hV : (V = [] ∧ R = []) ∨ (V = ' ' :: R ∧ R ≠ []))
    (hRl : ∀ c, R.getLast? = some c → isWS c = false) :
    ∀ c, V.getLast? = some c → isWS c = false := by
  intro c hc
  rcases hV with ⟨hV1, _⟩ | ⟨hV1, hRne⟩
  · rw [hV1] at hc
    simp at hc
  · obtain ⟨r0, R2, hR0⟩ : ∃ r0 R2, R = r0 :: R2 := by
      cases hRR : R with
      | nil => exact absurd hRR hRne
      | cons r0 R2 => exact ⟨r0, R2, rfl⟩
    rw [hV1, hR0, List.getLast?_cons_cons, ← hR0] at hc
    exact hRl c hc

theorem cls_of_head_br {z : Str} (hz : (trimSpace z).head? = some '[') :
    isCommentBlank (trimSpace z) = false := by
  rw [isCommentBlank_head hz]
  rfl

theorem roundtrip_hdr_core {x b a Q V2 : Str} {m : Nat} {incl : Bool}
    (hcb : isCommentBlank (trimSpace (trimRight x)) = false)
    (hsp : splitAtFirst '=' (trimRight x) = some (b, a))
    (hQ : ∀ c ∈ Q, c = ' ')
    (hV2 : (V2 = [] ∧ joinFields a = []) ∨
      (V2 = ' ' :: joinFields a ∧ joinFields a ≠ []))
    (htr2 : trimRight (prePass (rewriteLine m incl x)) =
      trimSpace b ++ Q ++ [' ', '='] ++ V2)
    (hcls2 : isCommentBlank (trimSpace (prePass (rewriteLine m incl x))) = false) :
    rewriteLine m incl (prePass (rewriteLine m incl x)) = rewriteLine m incl x ∧
      lineKeyLen incl (prePass (rewriteLine m incl x)) =
        some (trimSpace b).length := by
  have hKeq : '=' ∉ trimSpace b := not_mem_trimSpace (splitAtFirst_eq_some hsp).2
  have hV' : (V2 = [] ∧ joinFields a = []) ∨ V2 = ' ' :: joinFields a := by
    rcases hV2 with ⟨h1, h2⟩ | ⟨h1, _⟩
    · exact Or.inl ⟨h1, h2⟩
    · exact Or.inr h1
  obtain ⟨h1, h2⟩ := kv_core incl m htr2 (trimSpace_idem b) hKeq hQ hV'
    (joinFields_idem a) hcls2
  refine ⟨?_, h2⟩
  rw [h1, rewriteLine_kv hcb hsp]

theorem roundtrip_hdr_F1 {bh b' abh : Str} (m : Nat) (incl : Bool)
    (hb1 : bh.head? = some '[') (hb2 : ']' ∉ bh)
    (hbh : bh = b' ++ '=' :: abh) (hnb : '=' ∉ b')
    (hcb : isCommentBlank (trimSpace (trimRight (bh ++ [']']))) = false) :
    rewriteLine m incl (prePass (rewriteLine m incl (bh ++ [']']))) =
      rewriteLine m incl (bh ++ [']']) ∧
    lineKeyLen incl (prePass (rewriteLine m incl (bh ++ [']']))) =
      some (trimSpace b').length := by
  obtain ⟨htrH, htsH, hspH, hisH, hppH, hoH⟩ := hdrA hb1 hb2
  have hnbr : ']' ∉ b' := fun hm => hb2 (by rw [hbh]; exact List.mem_append_left _ hm)
  have hnabh : ']' ∉ abh := fun hm =>
    hb2 (by rw [hbh]; exact List.mem_append_right _ (List.mem_cons_of_mem _ hm))
  have hsp : splitAtFirst '=' (trimRight (bh ++ [']'])) = some (b', abh ++ [']']) := by
    rw [htrH, hbh,
      show (b' ++ '=' :: abh) ++ [']'] = b' ++ '=' :: (abh ++ [']']) from by simp]
    exact splitAtFirst_append _ hnb
  obtain ⟨b0, b'', hb'⟩ : ∃ b0 b'', b' = b0 :: b'' := by
    cases hbb : b' with
    | nil =>
      rw [hbb] at hbh
      rw [hbh] at hb1
      simp at hb1
    | cons b0 b'' => exact ⟨b0, b'', rfl⟩
  have hb0 : b0 = '[' := by
    rw [hbh, hb'] at hb1
    simpa using hb1
  have hb0w : isWS b0 = false := by rw [hb0]; rfl
  have hKhead : (trimSpace b').head? = some '[' := by
    rw [hb', head?_trimSpace_cons _ (by rw [hb0]; rfl), hb0]
  obtain ⟨k0, K', hKsh⟩ : ∃ k0 K', trimSpace b' = k0 :: K' := by
    cases hKK : trimSpace b' with
    | nil => rw [hKK] at hKhead; simp at hKhead
    | cons k0 K' => exact ⟨k0, K', rfl⟩
  have hk0 : k0 = '[' := by
    rw [hKsh] at hKhead
    simpa using hKhead
  have hKbr : ']' ∉ trimSpace b' := not_mem_trimSpace hnbr
  obtain ⟨S, hRS, hSbr⟩ := joinFields_snoc hnabh
  have hRne : joinFields (abh ++ [']']) ≠ [] := by rw [hRS]; simp
  have hRlast : (joinFields (abh ++ [']'])).getLast? = some ']' := by
    rw [hRS]
    exact List.getLast?_concat _
  have hy : rewriteLine m incl (bh ++ [']']) =
      trimSpace b' ++ spaces (m - (trimSpace b').length) ++ [' ', '=', ' '] ++
        joinFields (abh ++ [']']) := rewriteLine_kv hcb hsp
  have hPsp : ∀ c ∈ spaces (m - (trimSpace b').length), c = ' ' :=
    fun c hc => List.eq_of_mem_replicate hc
  have htry : trimRight (trimSpace b' ++ spaces (m - (trimSpace b').length) ++
      [' ', '=', ' '] ++ joinFields (abh ++ [']'])) =
      trimSpace b' ++ spaces (m - (trimSpace b').length) ++ [' ', '=', ' '] ++
        joinFields (abh ++ [']']) :=
    shape_trimRight_pos hRlast (by rfl)
  have htsy : trimSpace (trimSpace b' ++ spaces (m - (trimSpace b').length) ++
      [' ', '=', ' '] ++ joinFields (abh ++ [']'])) =
      trimSpace b' ++ spaces (m - (trimSpace b').length) ++ [' ', '=', ' '] ++
        joinFields (abh ++ [']']) := by
    apply trimSpace_of_trimmed
    · intro c hc
      rw [hKsh] at hc
      simp only [List.cons_append, List.head?_cons, Option.some.injEq] at hc
      subst hc
      rw [hk0]
      rfl
    · intro c hc
      rw [List.getLast?_append, hRlast] at hc
      simp only [Option.or_some, Option.some.injEq] at hc
      subst hc
      rfl
  have hsplity : splitAtFirst ']' (trimSpace b' ++ spaces (m - (trimSpace b').length) ++
      [' ', '=', ' '] ++ joinFields (abh ++ [']'])) =
      some (trimSpace b' ++ spaces (m - (trimSpace b').length) ++ [' ', '=', ' '] ++ S,
        []) := by
    rw [hRS, show trimSpace b' ++ spaces (m - (trimSpace b').length) ++ [' ', '=', ' '] ++
      (S ++ [']']) = (trimSpace b' ++ spaces (m - (trimSpace b').length) ++
        [' ', '=', ' '] ++ S) ++ ']' :: [] from by simp]
    apply splitAtFirst_append
    intro hm
    rcases List.mem_append.mp hm with hm2 | hm2
    · rcases List.mem_append.mp hm2 with hm3 | hm3
      · rcases List.mem_append.mp hm3 with hm4 | hm4
        · exact hKbr hm4
        · exact absurd (List.eq_of_mem_replicate hm4) (by simp)
      · simp at hm3
    · exact hSbr hm2
  have hppy : prePass (trimSpace b' ++ spaces (m - (trimSpace b').length) ++
      [' ', '=', ' '] ++ joinFields (abh ++ [']'])) =
      trimSpace b' ++ spaces (m - (trimSpace b').length) ++ [' ', '=', ' '] ++
        joinFields (abh ++ [']']) := by
    rw [prePass_hdr_nil (b := trimSpace b' ++ spaces (m - (trimSpace b').length) ++
        [' ', '=', ' '] ++ S) (a := [])
      (by rw [htry, htsy, hKsh]; rw [hk0]; rfl)
      (by rw [htry, htsy]; exact hsplity) rfl]
    rw [hRS]
    simp
  have htr2 : trimRight (prePass (rewriteLine m incl (bh ++ [']']))) =
      trimSpace b' ++ spaces (m - (trimSpace b').length) ++ [' ', '='] ++
        (' ' :: joinFields (abh ++ [']'])) := by
    rw [hy, hppy, htry]
    simp
  have hcls2 : isCommentBlank
      (trimSpace (prePass (rewriteLine m incl (bh ++ [']'])))) = false := by
    apply cls_of_head_br
    rw [hy, hppy, htsy, hKsh]
    rw [hk0]
    rfl
  exact roundtrip_hdr_core hcb hsp hPsp (Or.inr ⟨rfl, hRne⟩) htr2 hcls2

theorem roundtrip_hdr_F2a {x bh b' abh t t' : Str} {mk : Char} (m : Nat) (incl : Bool)
    (hb1 : bh.head? = some '[') (hb2 : ']' ∉ bh)
    (hbh : bh = b' ++ '=' :: abh) (hnb : '=' ∉ b')
    (hmk : isWS mk = false)
    (ht' : (t' = [] ∧ t = []) ∨ t' = ' ' :: t)
    (htrx : trimRight x = bh ++ [']'] ++ [' ', mk] ++ t')
    (hcb : isCommentBlank (trimSpace (trimRight x)) = false) :
    rewriteLine m incl (prePass (rewriteLine m incl x)) = rewriteLine m incl x ∧
      lineKeyLen incl (prePass (rewriteLine m incl x)) =
        some (trimSpace b').length ∧
      splitAtFirst '=' (trimRight x) =
        some (b', abh ++ [']'] ++ [' ', mk] ++ t') := by
  have hnbr : ']' ∉ b' := fun hm => hb2 (by rw [hbh]; exact List.mem_append_left _ hm)
  have hnabh : ']' ∉ abh := fun hm =>
    hb2 (by rw [hbh]; exact List.mem_append_right _ (List.mem_cons_of_mem _ hm))
  have hsp : splitAtFirst '=' (trimRight x) =
      some (b', abh ++ [']'] ++ [' ', mk] ++ t') := by
    rw [htrx, hbh, show (b' ++ '=' :: abh) ++ [']'] ++ [' ', mk] ++ t' =
      b' ++ '=' :: (abh ++ [']'] ++ [' ', mk] ++ t') from by simp]
    exact splitAtFirst_append _ hnb
  -- the key
  obtain ⟨b0, b'', hb'⟩ : ∃ b0 b'', b' = b0 :: b'' := by
    cases hbb : b' with
    | nil =>
      rw [hbb] at hbh
      rw [hbh] at hb1
      simp at hb1
    | cons b0 b'' => exact ⟨b0, b'', rfl⟩
  have hb0 : b0 = '[' := by
    rw [hbh, hb'] at hb1
    simpa using hb1
  have hKhead : (trimSpace b').head? = some '[' := by
    rw [hb', head?_trimSpace_cons _ (by rw [hb0]; rfl), hb0]
  obtain ⟨k0, K', hKsh⟩ : ∃ k0 K', trimSpace b' = k0 :: K' := by
    cases hKK : trimSpace b' with
    | nil => rw [hKK] at hKhead; simp at hKhead
    | cons k0 K' => exact ⟨k0, K', rfl⟩
  have hk0 : k0 = '[' := by
    rw [hKsh] at hKhead
    simpa using hKhead
  have hKbr : ']' ∉ trimSpace b' := not_mem_trimSpace hnbr
  -- the value structure
  have hfields : fields (abh ++ [']'] ++ [' ', mk] ++ t') =
      fields (abh ++ [']']) ++ ([mk] :: fields t) := by
    rw [show abh ++ [']'] ++ [' ', mk] ++ t' = (abh ++ [']']) ++ ' ' :: (mk :: t')
      from by simp, fields_append_ws_cons (by rfl)]
    congr 1
    rcases ht' with ⟨h1, h2⟩ | h1
    · subst h1
      subst h2
      rw [fields_nonws_cons _ hmk]
      rfl
    · subst h1
      rw [fields_nonws_cons _ hmk, List.takeWhile_cons, if_neg (by decide),
        List.dropWhile_cons, if_neg (by decide), fields_ws_cons _ (by decide)]
  have hFHne : fields (abh ++ [']']) ≠ [] := by
    intro h2
    obtain ⟨w, hw, _⟩ := mem_fields_complete (l := abh ++ [']']) (c := ']') (by rfl)
      (List.mem_append_right _ (by simp))
    rw [h2] at hw
    simp at hw
  have hWgood : ∀ w ∈ ([mk] :: fields t), w ≠ [] ∧ ∀ c ∈ w, isWS c = false := by
    intro w hw
    rcases List.mem_cons.mp hw with rfl | hw2
    · exact ⟨by simp, fun c hc => by
        simp only [List.mem_singleton] at hc
        rw [hc]
        exact hmk⟩
    · exact fields_all w hw2
  have hjw2ne : joinWords ([mk] :: fields t) ≠ [] := joinWords_ne_nil _ (by simp)
  have hR : joinFields (abh ++ [']'] ++ [' ', mk] ++ t') =
      joinFields (abh ++ [']']) ++ ' ' :: joinWords ([mk] :: fields t) := by
    rw [joinFields, hfields, joinWords_append hFHne (by simp)]
    rfl
  obtain ⟨S, hRS, hSbr⟩ := joinFields_snoc hnabh
  have hRfull : joinFields (abh ++ [']'] ++ [' ', mk] ++ t') =
      (S ++ [']']) ++ ' ' :: joinWords ([mk] :: fields t) := by rw [hR, hRS]
  set R := joinFields (abh ++ [']'] ++ [' ', mk] ++ t') with hRdef
  set JW := joinWords ([mk] :: fields t) with hJWdef
  have hRne : R ≠ [] := by
    rw [hRfull]
    simp
  have hRl : ∀ c, R.getLast? = some c → isWS c = false :=
    fun c hc => getLast?_joinFields hc
  obtain ⟨rl, hrl⟩ := exists_getLast? hRne
  have hrlw : isWS rl = false := hRl rl hrl
  have hy : rewriteLine m incl x =
      trimSpace b' ++ spaces (m - (trimSpace b').length) ++ [' ', '=', ' '] ++ R :=
    rewriteLine_kv hcb hsp
  set P := spaces (m - (trimSpace b').length) with hPdef
  have hPsp : ∀ c ∈ P, c = ' ' := fun c hc => List.eq_of_mem_replicate hc
  have htry : trimRight (trimSpace b' ++ P ++ [' ', '=', ' '] ++ R) =
      trimSpace b' ++ P ++ [' ', '=', ' '] ++ R := shape_trimRight_pos hrl hrlw
  have htsy : trimSpace (trimSpace b' ++ P ++ [' ', '=', ' '] ++ R) =
      trimSpace b' ++ P ++ [' ', '=', ' '] ++ R := by
    apply trimSpace_of_trimmed
    · intro c hc
      rw [hKsh] at hc
      simp only [List.cons_append, List.head?_cons, Option.some.injEq] at hc
      subst hc
      rw [hk0]
      rfl
    · intro c hc
      rw [List.getLast?_append, hrl] at hc
      simp only [Option.or_some, Option.some.injEq] at hc
      subst hc
      exact hrlw
  have hsplity : splitAtFirst ']' (trimSpace b' ++ P ++ [' ', '=', ' '] ++ R) =
      some (trimSpace b' ++ P ++ [' ', '=', ' '] ++ S, ' ' :: JW) := by
    rw [hRfull, show trimSpace b' ++ P ++ [' ', '=', ' '] ++ ((S ++ [']']) ++ ' ' :: JW) =
      (trimSpace b' ++ P ++ [' ', '=', ' '] ++ S) ++ ']' :: (' ' :: JW) from by simp]
    apply splitAtFirst_append
    intro hm
    rcases List.mem_append.mp hm with hm2 | hm2
    · rcases List.mem_append.mp hm2 with hm3 | hm3
      · rcases List.mem_append.mp hm3 with hm4 | hm4
        · exact hKbr hm4
        · exact absurd (List.eq_of_mem_replicate hm4) (by simp)
      · simp at hm3
    · exact hSbr hm2
  have hJWts : trimSpace (' ' :: JW) = JW := by
    rw [show (' ' :: JW : Str) = [' '] ++ JW from rfl,
      trimSpace_ws_append (by intro c hc; simp only [List.mem_singleton] at hc; rw [hc]; rfl)]
    apply trimSpace_of_trimmed
    · intro c hc
      exact head?_joinWords hWgood hc
    · intro c hc
      exact getLast?_joinWords hWgood hc
  -- prePass y depends on the shape of JW
  have hppy : prePass (trimSpace b' ++ P ++ [' ', '=', ' '] ++ R) =
      (trimSpace b' ++ P ++ [' ', '=', ' '] ++ S) ++ [']'] ++ [' ', mk, ' '] ++
        trimSpace (JW.tail) := by
    have hJWsh : ∃ jrest, JW = mk :: jrest := by
      rw [hJWdef]
      cases hft : fields t with
      | nil => exact ⟨[], rfl⟩
      | cons f0 f' => exact ⟨' ' :: joinWords (f0 :: f'), rfl⟩
    obtain ⟨jrest, hJW⟩ := hJWsh
    have hta : trimSpace (' ' :: JW) = mk :: jrest := by rw [hJWts, hJW]
    rw [prePass_hdr_cons (b := trimSpace b' ++ P ++ [' ', '=', ' '] ++ S)
      (a := ' ' :: JW)
      (by rw [htry, htsy, hKsh]; rw [hk0]; rfl)
      (by rw [htry, htsy]; exact hsplity) hta]
    rw [hJW]
    rfl
  -- compute trimSpace JW.tail and reassemble
  have hreass : trimRight ((trimSpace b' ++ P ++ [' ', '=', ' '] ++ S) ++ [']'] ++
      [' ', mk, ' '] ++ trimSpace (JW.tail)) =
      trimSpace b' ++ P ++ [' ', '=', ' '] ++ R := by
    rw [hJWdef]
    cases hft : fields t with
    | nil =>
      have h1 : (joinWords ([mk] :: ([] : List Str))).tail = [] := by rfl
      rw [h1, show trimSpace ([] : Str) = [] from rfl, List.append_nil]
      have h2 : trimRight ((trimSpace b' ++ P ++ [' ', '=', ' '] ++ S) ++ [']'] ++
          [' ', mk, ' ']) = (trimSpace b' ++ P ++ [' ', '=', ' '] ++ S) ++ [']'] ++
          [' ', mk] := by
        rw [show (trimSpace b' ++ P ++ [' ', '=', ' '] ++ S) ++ [']'] ++ [' ', mk, ' '] =
          ((trimSpace b' ++ P ++ [' ', '=', ' '] ++ S) ++ [']'] ++ [' ', mk]) ++ [' ']
          from by simp]
        unfold trimRight
        rw [rtrim_snoc, if_pos (by rfl)]
        rw [show (trimSpace b' ++ P ++ [' ', '=', ' '] ++ S) ++ [']'] ++ [' ', mk] =
          ((trimSpace b' ++ P ++ [' ', '=', ' '] ++ S) ++ [']'] ++ [' ']) ++ [mk]
          from by simp]
        rw [rtrim_snoc, if_neg (by simp [not_isSpTab_of_not_isWS hmk])]
      rw [h2, hRfull, hJWdef, hft]
      simp [joinWords]
    | cons f0 f' =>
      have h1 : (joinWords ([mk] :: (f0 :: f'))).tail =
          ' ' :: joinWords (f0 :: f') := by rfl
      have h2 : trimSpace ((joinWords ([mk] :: (f0 :: f'))).tail) =
          joinWords (f0 :: f') := by
        rw [h1, show (' ' :: joinWords (f0 :: f') : Str) = [' '] ++ joinWords (f0 :: f')
          from rfl, trimSpace_ws_append (by
            intro c hc
            simp only [List.mem_singleton] at hc
            rw [hc]
            rfl)]
        have hWgood2 : ∀ w ∈ (f0 :: f'), w ≠ [] ∧ ∀ c ∈ w, isWS c = false := by
          intro w hw
          apply hWgood
          rw [hft]
          exact List.mem_cons_of_mem [mk] hw
        apply trimSpace_of_trimmed
        · intro c hc
          exact head?_joinWords hWgood2 hc
        · intro c hc
          exact getLast?_joinWords hWgood2 hc
      rw [h2]
      have h3 : (trimSpace b' ++ P ++ [' ', '=', ' '] ++ S) ++ [']'] ++
          [' ', mk, ' '] ++ joinWords (f0 :: f') =
          trimSpace b' ++ P ++ [' ', '=', ' '] ++ R := by
        rw [hRfull, hJWdef, hft]
        show _ = trimSpace b' ++ P ++ [' ', '=', ' '] ++
          ((S ++ [']']) ++ ' ' :: joinWords ([mk] :: (f0 :: f')))
        rw [show joinWords ([mk] :: (f0 :: f')) = mk :: ' ' :: joinWords (f0 :: f')
          from rfl]
        simp
      rw [h3]
      exact htry
  have htr2 : trimRight (prePass (rewriteLine m incl x)) =
      trimSpace b' ++ P ++ [' ', '='] ++ (' ' :: R) := by
    rw [hy, hppy, hreass]
    simp
  have hcls2 : isCommentBlank (trimSpace (prePass (rewriteLine m incl x))) = false := by
    apply cls_of_head_br
    rw [hy, hppy, ← trimSpace_trimRight, hreass, htsy, hKsh]
    rw [hk0]
    rfl
  obtain ⟨hc1, hc2⟩ := roundtrip_hdr_core hcb hsp hPsp (Or.inr ⟨rfl, hRne⟩) htr2 hcls2
  exact ⟨hc1, hc2, hsp⟩

theorem trimRight_shape_eq {X V R : Str}
    (hV : (V = [] ∧ R = []) ∨ (V = ' ' :: R ∧ R ≠ []))
    (hRl : ∀ c, R.getLast? = some c → isWS c = false) :
    trimRight (X ++ [' ', '='] ++ V) = X ++ [' ', '='] ++ V :=
  rtrim_eq_self_of_getLast?
    (fun c hc => not_isSpTab_of_not_isWS (getLast?_canonical hV hRl c hc))

theorem trimSpace_shape_cons (c0 : Char) (Z : Str) {V R : Str} (hc0 : isWS c0 = false)
    (hV : (V = [] ∧ R = []) ∨ (V = ' ' :: R ∧ R ≠ []))
    (hRl : ∀ c, R.getLast? = some c → isWS c = false) :
    trimSpace ((c0 :: Z) ++ [' ', '='] ++ V) = (c0 :: Z) ++ [' ', '='] ++ V := by
  apply trimSpace_of_trimmed
  · intro c hc
    simp only [List.cons_append, List.head?_cons, Option.some.injEq] at hc
    subst hc
    exact hc0
  · exact getLast?_canonical hV hRl

theorem trimSpace_eqV {V R : Str}
    (hV : (V = [] ∧ R = []) ∨ (V = ' ' :: R ∧ R ≠ []))
    (hRl : ∀ c, R.getLast? = some c → isWS c = false) :
    trimSpace ('=' :: V) = '=' :: V := by
  apply trimSpace_of_trimmed
  · intro c hc
    simp only [List.head?_cons, Option.some.injEq] at hc
    subst hc
    rfl
  · intro c hc
    have : ('=' :: V : Str) = ['='] ++ V := rfl
    rw [this, List.getLast?_append] at hc
    rcases hV with ⟨hV1, _⟩ | ⟨hV1, hRne⟩
    · rw [hV1] at hc
      simp only [List.getLast?_nil, Option.none_or, List.getLast?_singleton,
        Option.some.injEq] at hc
      subst hc
      rfl
    · obtain ⟨r0, R2, hR0⟩ : ∃ r0 R2, R = r0 :: R2 := by
        cases hRR : R with
        | nil => exact absurd hRR hRne
        | cons r0 R2 => exact ⟨r0, R2, rfl⟩
      obtain ⟨z, hz⟩ := exists_getLast? (l := R) (by rw [hR0]; simp)
      rw [hV1, hR0, List.getLast?_cons_cons, ← hR0, hz] at hc
      simp only [Option.or_some, Option.some.injEq] at hc
      subst hc
      exact hRl z hz

theorem roundtrip_hdr_F2b {x bh t' : Str} (m : Nat) (incl : Bool)
    (hb1 : bh.head? = some '[') (hb2 : ']' ∉ bh) (hbeq : '=' ∉ bh)
    (htrx : trimRight x = bh ++ [']'] ++ [' ', '='] ++ t')
    (hcb : isCommentBlank (trimSpace (trimRight x)) = false) :
    rewriteLine m incl (prePass (rewriteLine m incl x)) = rewriteLine m incl x ∧
      lineKeyLen incl (prePass (rewriteLine m incl x)) =
        some (trimSpace (bh ++ [']'] ++ [' '])).length ∧
      splitAtFirst '=' (trimRight x) = some (bh ++ [']'] ++ [' '], t') := by
  obtain ⟨htrH, htsH, hspH, hisH, hppH, hoH⟩ := hdrA hb1 hb2
  have hws1 : ∀ c ∈ ([' '] : Str), isWS c = true := by
    intro c hc
    simp only [List.mem_singleton] at hc
    subst hc
    decide
  have hnbK : '=' ∉ bh ++ [']'] ++ [' '] := by
    intro hm
    rcases List.mem_append.mp hm with hm2 | hm2
    · rcases List.mem_append.mp hm2 with hm3 | hm3
      · exact hbeq hm3
      · simp at hm3
    · simp at hm2
  have hsp : splitAtFirst '=' (trimRight x) = some (bh ++ [']'] ++ [' '], t') := by
    rw [htrx, show bh ++ [']'] ++ [' ', '='] ++ t' =
      (bh ++ [']'] ++ [' ']) ++ '=' :: t' from by simp]
    exact splitAtFirst_append _ hnbK
  have hKval : trimSpace (bh ++ [']'] ++ [' ']) = bh ++ [']'] := by
    rw [show bh ++ [']'] ++ [' '] = (bh ++ [']']) ++ [' '] from by simp]
    rw [trimSpace_append_ws hws1, htsH]
  have hRl : ∀ c, (joinFields t').getLast? = some c → isWS c = false :=
    fun c hc => getLast?_joinFields hc
  obtain ⟨V, hV, hTY⟩ := trimRight_canonical_kv (bh ++ [']'])
    (spaces (m - (trimSpace (bh ++ [']'] ++ [' '])).length)) (joinFields t') hRl
  set P := spaces (m - (trimSpace (bh ++ [']'] ++ [' '])).length) with hPdef
  have hy2 : rewriteLine m incl x =
      (bh ++ [']']) ++ P ++ [' ', '=', ' '] ++ joinFields t' := by
    rw [rewriteLine_kv hcb hsp, hPdef, hKval]
  obtain ⟨c0, bh', hbh0⟩ : ∃ c0 bh', bh = c0 :: bh' := by
    cases hbb : bh with
    | nil => rw [hbb] at hb1; simp at hb1
    | cons c0 bh' => exact ⟨c0, bh', rfl⟩
  have hc0 : c0 = '[' := by
    rw [hbh0] at hb1
    simpa using hb1
  have htsT : trimSpace ((bh ++ [']']) ++ P ++ [' ', '='] ++ V) =
      (bh ++ [']']) ++ P ++ [' ', '='] ++ V := by
    rw [hbh0, hc0]
    have h5 := trimSpace_shape_cons '[' (bh' ++ [']'] ++ P) (by decide) hV hRl
    rw [show ('[' :: (bh' ++ [']'] ++ P)) ++ [' ', '='] ++ V =
      ('[' :: bh' ++ [']']) ++ P ++ [' ', '='] ++ V from by simp] at h5
    exact h5
  have hsplitT : splitAtFirst ']' ((bh ++ [']']) ++ P ++ [' ', '='] ++ V) =
      some (bh, P ++ [' ', '='] ++ V) := by
    rw [show (bh ++ [']']) ++ P ++ [' ', '='] ++ V =
      bh ++ ']' :: (P ++ [' ', '='] ++ V) from by simp]
    exact splitAtFirst_append _ hb2
  have hwsP : ∀ c ∈ P ++ [' '], isWS c = true := by
    intro c hc
    rcases List.mem_append.mp hc with hc2 | hc2
    · rw [List.eq_of_mem_replicate hc2]
      decide
    · simp only [List.mem_singleton] at hc2
      subst hc2
      decide
  have htsa : trimSpace (P ++ [' ', '='] ++ V) = '=' :: V := by
    rw [show P ++ [' ', '='] ++ V = (P ++ [' ']) ++ ('=' :: V) from by simp]
    rw [trimSpace_ws_append hwsP]
    exact trimSpace_eqV hV hRl
  have htsV : trimSpace V = joinFields t' := by
    rcases hV with ⟨hV1, hV2⟩ | ⟨hV1, _⟩
    · rw [hV1, hV2]
      rfl
    · rw [hV1, show (' ' :: joinFields t' : Str) = [' '] ++ joinFields t' from rfl]
      rw [trimSpace_ws_append hws1]
      exact trimSpace_joinFields t'
  have hhY : (trimSpace (trimRight ((bh ++ [']']) ++ P ++ [' ', '=', ' '] ++
      joinFields t'))).head? = some '[' := by
    rw [hTY, htsT, hbh0, hc0]
    rfl
  have hsY : splitAtFirst ']' (trimSpace (trimRight ((bh ++ [']']) ++ P ++
      [' ', '=', ' '] ++ joinFields t'))) = some (bh, P ++ [' ', '='] ++ V) := by
    rw [hTY, htsT]
    exact hsplitT
  have hppy : prePass ((bh ++ [']']) ++ P ++ [' ', '=', ' '] ++ joinFields t') =
      bh ++ [']'] ++ [' ', '=', ' '] ++ joinFields t' := by
    rw [prePass_hdr_cons hhY hsY htsa, htsV]
  have htr2 : trimRight (prePass (rewriteLine m incl x)) =
      trimSpace (bh ++ [']'] ++ [' ']) ++ [] ++ [' ', '='] ++ V := by
    rw [hy2, hppy, hKval]
    rcases hV with ⟨hV1, hV2⟩ | ⟨hV1, hRne⟩
    · rw [hV1, hV2]
      simp only [List.append_nil]
      exact shape_trimRight_nil bh [']']
    · obtain ⟨c, hc⟩ := exists_getLast? (l := joinFields t') hRne
      rw [hV1]
      have h7 := shape_trimRight_pos (K := bh ++ [']']) (P := ([] : Str))
        hc (hRl c hc)
      simp only [List.append_nil] at h7
      rw [show bh ++ [']'] ++ [' ', '=', ' '] ++ joinFields t' =
        (bh ++ [']']) ++ [' ', '=', ' '] ++ joinFields t' from by simp] at h7 ⊢
      rw [h7]
      simp
  have hcls2 : isCommentBlank (trimSpace (prePass (rewriteLine m incl x))) = false := by
    apply cls_of_head_br
    rw [← trimSpace_trimRight, htr2, hKval]
    have h11 : trimSpace ((bh ++ [']']) ++ [] ++ [' ', '='] ++ V) =
        (bh ++ [']']) ++ [] ++ [' ', '='] ++ V := by
      rw [hbh0, hc0]
      have h12 := trimSpace_shape_cons '[' (bh' ++ [']']) (by decide) hV hRl
      rw [show ('[' :: (bh' ++ [']'])) ++ [' ', '='] ++ V =
        ('[' :: bh' ++ [']']) ++ [] ++ [' ', '='] ++ V from by simp] at h12
      exact h12
    rw [h11, hbh0, hc0]
    rfl
  have hV' : (V = [] ∧ joinFields t' = []) ∨
      (V = ' ' :: joinFields t' ∧ joinFields t' ≠ []) := hV
  obtain ⟨hc1, hc2⟩ := roundtrip_hdr_core hcb hsp (Q := [])
    (by intro c hc; simp at hc) hV' htr2 hcls2
  exact ⟨hc1, hc2, hsp⟩

theorem roundtrip_hdr_F2c1 {x b tb ta : Str} {mk : Char} (m : Nat) (incl : Bool)
    (hb1 : b.head? = some '[') (hb2 : ']' ∉ b) (hbeq : '=' ∉ b)
    (hmk : isWS mk = false) (hmkeq : mk ≠ '=') (htb : '=' ∉ tb)
    (htball : ∀ c ∈ tb, isWS c = true)
    (htrx : trimRight x = b ++ [']'] ++ [' ', mk, ' '] ++ (tb ++ '=' :: ta))
    (hcb : isCommentBlank (trimSpace (trimRight x)) = false) :
    rewriteLine m incl (prePass (rewriteLine m incl x)) = rewriteLine m incl x ∧
      lineKeyLen incl (prePass (rewriteLine m incl x)) =
        some (trimSpace (b ++ [']'] ++ [' ', mk, ' '] ++ tb)).length ∧
      splitAtFirst '=' (trimRight x) =
        some (b ++ [']'] ++ [' ', mk, ' '] ++ tb, ta) := by
  have hws1 : ∀ c ∈ ([' '] : Str), isWS c = true := by
    intro c hc
    simp only [List.mem_singleton] at hc
    subst hc
    decide
  have hnbK : '=' ∉ b ++ [']'] ++ [' ', mk, ' '] ++ tb := by
    intro hm
    rcases List.mem_append.mp hm with hm2 | hm2
    · rcases List.mem_append.mp hm2 with hm3 | hm3
      · rcases List.mem_append.mp hm3 with hm4 | hm4
        · exact hbeq hm4
        · simp at hm4
      · rcases List.mem_cons.mp hm3 with h4 | h4
        · exact absurd h4 (by decide)
        · rcases List.mem_cons.mp h4 with h5 | h5
          · exact hmkeq h5.symm
          · simp only [List.mem_singleton] at h5
            exact absurd h5 (by decide)
    · exact htb hm2
  have hsp : splitAtFirst '=' (trimRight x) =
      some (b ++ [']'] ++ [' ', mk, ' '] ++ tb, ta) := by
    rw [htrx, show b ++ [']'] ++ [' ', mk, ' '] ++ (tb ++ '=' :: ta) =
      (b ++ [']'] ++ [' ', mk, ' '] ++ tb) ++ '=' :: ta from by simp]
    exact splitAtFirst_append _ hnbK
  have hwstb : ∀ c ∈ (' ' :: tb : Str), isWS c = true := by
    intro c hc
    rcases List.mem_cons.mp hc with h4 | h4
    · subst h4
      decide
    · exact htball c h4
  have hK : trimSpace (b ++ [']'] ++ [' ', mk, ' '] ++ tb) =
      b ++ [']'] ++ [' ', mk] := by
    rw [show b ++ [']'] ++ [' ', mk, ' '] ++ tb =
      (b ++ [']'] ++ [' ', mk]) ++ (' ' :: tb) from by simp,
      trimSpace_append_ws hwstb]
    exact (hdrC hb1 hb2 hmk).2.1
  have hRl : ∀ c, (joinFields ta).getLast? = some c → isWS c = false :=
    fun c hc => getLast?_joinFields hc
  obtain ⟨V, hV, hTY⟩ := trimRight_canonical_kv (b ++ [']'] ++ [' ', mk])
    (spaces (m - (trimSpace (b ++ [']'] ++ [' ', mk, ' '] ++ tb)).length))
    (joinFields ta) hRl
  set P := spaces (m - (trimSpace (b ++ [']'] ++ [' ', mk, ' '] ++ tb)).length)
    with hPdef
  have hy2 : rewriteLine m incl x =
      (b ++ [']'] ++ [' ', mk]) ++ P ++ [' ', '=', ' '] ++ joinFields ta := by
    rw [rewriteLine_kv hcb hsp, hPdef, hK]
  obtain ⟨c0, b2, hb0d⟩ : ∃ c0 b2, b = c0 :: b2 := by
    cases hbb : b with
    | nil => rw [hbb] at hb1; simp at hb1
    | cons c0 b2 => exact ⟨c0, b2, rfl⟩
  have hc0 : c0 = '[' := by
    rw [hb0d] at hb1
    simpa using hb1
  have htsT : trimSpace ((b ++ [']'] ++ [' ', mk]) ++ P ++ [' ', '='] ++ V) =
      (b ++ [']'] ++ [' ', mk]) ++ P ++ [' ', '='] ++ V := by
    rw [hb0d, hc0]
    have h5 := trimSpace_shape_cons '[' (b2 ++ [']'] ++ [' ', mk] ++ P) (by decide) hV hRl
    rw [show ('[' :: (b2 ++ [']'] ++ [' ', mk] ++ P)) ++ [' ', '='] ++ V =
      ('[' :: b2 ++ [']'] ++ [' ', mk]) ++ P ++ [' ', '='] ++ V from by simp] at h5
    exact h5
  have hsplitT : splitAtFirst ']' ((b ++ [']'] ++ [' ', mk]) ++ P ++ [' ', '='] ++ V) =
      some (b, [' ', mk] ++ P ++ [' ', '='] ++ V) := by
    rw [show (b ++ [']'] ++ [' ', mk]) ++ P ++ [' ', '='] ++ V =
      b ++ ']' :: ([' ', mk] ++ P ++ [' ', '='] ++ V) from by simp]
    exact splitAtFirst_append _ hb2
  have hwsP : ∀ c ∈ P ++ [' '], isWS c = true := by
    intro c hc
    rcases List.mem_append.mp hc with hc2 | hc2
    · rw [List.eq_of_mem_replicate hc2]
      decide
    · simp only [List.mem_singleton] at hc2
      subst hc2
      decide
  have htsa : trimSpace ([' ', mk] ++ P ++ [' ', '='] ++ V) =
      mk :: (P ++ [' ', '='] ++ V) := by
    rw [show [' ', mk] ++ P ++ [' ', '='] ++ V =
      [' '] ++ ((mk :: P) ++ [' ', '='] ++ V) from by simp,
      trimSpace_ws_append hws1, trimSpace_shape_cons mk P hmk hV hRl]
    simp
  have hts2 : trimSpace (P ++ [' ', '='] ++ V) = '=' :: V := by
    rw [show P ++ [' ', '='] ++ V = (P ++ [' ']) ++ ('=' :: V) from by simp,
      trimSpace_ws_append hwsP]
    exact trimSpace_eqV hV hRl
  have hhY : (trimSpace (trimRight ((b ++ [']'] ++ [' ', mk]) ++ P ++
      [' ', '=', ' '] ++ joinFields ta))).head? = some '[' := by
    rw [hTY, htsT, hb0d, hc0]
    rfl
  have hsY : splitAtFirst ']' (trimSpace (trimRight ((b ++ [']'] ++ [' ', mk]) ++ P ++
      [' ', '=', ' '] ++ joinFields ta))) =
      some (b, [' ', mk] ++ P ++ [' ', '='] ++ V) := by
    rw [hTY, htsT]
    exact hsplitT
  have hppy : prePass ((b ++ [']'] ++ [' ', mk]) ++ P ++ [' ', '=', ' '] ++
      joinFields ta) = b ++ [']'] ++ [' ', mk, ' '] ++ ('=' :: V) := by
    rw [prePass_hdr_cons hhY hsY htsa, hts2]
  have htr2 : trimRight (prePass (rewriteLine m incl x)) =
      trimSpace (b ++ [']'] ++ [' ', mk, ' '] ++ tb) ++ [] ++ [' ', '='] ++ V := by
    rw [hy2, hppy, hK]
    have h7 := trimRight_shape_eq (X := (b ++ [']'] ++ [' ', mk]) ++ []) hV hRl
    rw [show ((b ++ [']'] ++ [' ', mk]) ++ []) ++ [' ', '='] ++ V =
      b ++ [']'] ++ [' ', mk, ' '] ++ ('=' :: V) from by simp] at h7
    rw [h7]
    simp
  have hcls2 : isCommentBlank (trimSpace (prePass (rewriteLine m incl x))) = false := by
    apply cls_of_head_br
    rw [← trimSpace_trimRight, htr2, hK]
    have h11 : trimSpace ((b ++ [']'] ++ [' ', mk]) ++ [] ++ [' ', '='] ++ V) =
        (b ++ [']'] ++ [' ', mk]) ++ [] ++ [' ', '='] ++ V := by
      rw [hb0d, hc0]
      have h12 := trimSpace_shape_cons '[' (b2 ++ [']'] ++ [' ', mk]) (by decide) hV hRl
      rw [show ('[' :: (b2 ++ [']'] ++ [' ', mk])) ++ [' ', '='] ++ V =
        ('[' :: b2 ++ [']'] ++ [' ', mk]) ++ [] ++ [' ', '='] ++ V from by simp] at h12
      exact h12
    rw [h11, hb0d, hc0]
    rfl
  obtain ⟨hc1, hc2⟩ := roundtrip_hdr_core hcb hsp (Q := [])
    (by intro c hc; simp at hc) hV htr2 hcls2
  exact ⟨hc1, hc2, hsp⟩

theorem roundtrip_hdr_F2c2 {x b tb ta B s : Str} {mk b0 : Char} (m : Nat) (incl : Bool)
    (hb1 : b.head? = some '[') (hb2 : ']' ∉ b) (hbeq : '=' ∉ b)
    (hmk : isWS mk = false) (hmkeq : mk ≠ '=') (htb : '=' ∉ tb)
    (htbd : tb = B ++ s) (hsall : ∀ c ∈ s, isWS c = true)
    (hB0 : B.head? = some b0) (hb0 : isWS b0 = false)
    (hBl : ∀ c, B.getLast? = some c → isWS c = false)
    (htrx : trimRight x = b ++ [']'] ++ [' ', mk, ' '] ++ (tb ++ '=' :: ta))
    (hcb : isCommentBlank (trimSpace (trimRight x)) = false) :
    rewriteLine m incl (prePass (rewriteLine m incl x)) = rewriteLine m incl x ∧
      lineKeyLen incl (prePass (rewriteLine m incl x)) =
        some (trimSpace (b ++ [']'] ++ [' ', mk, ' '] ++ tb)).length ∧
      splitAtFirst '=' (trimRight x) =
        some (b ++ [']'] ++ [' ', mk, ' '] ++ tb, ta) := by
  have hws1 : ∀ c ∈ ([' '] : Str), isWS c = true := by
    intro c hc
    simp only [List.mem_singleton] at hc
    subst hc
    decide
  have hnbK : '=' ∉ b ++ [']'] ++ [' ', mk, ' '] ++ tb := by
    intro hm
    rcases List.mem_append.mp hm with hm2 | hm2
    · rcases List.mem_append.mp hm2 with hm3 | hm3
      · rcases List.mem_append.mp hm3 with hm4 | hm4
        · exact hbeq hm4
        · simp at hm4
      · rcases List.mem_cons.mp hm3 with h4 | h4
        · exact absurd h4 (by decide)
        · rcases List.mem_cons.mp h4 with h5 | h5
          · exact hmkeq h5.symm
          · simp only [List.mem_singleton] at h5
            exact absurd h5 (by decide)
    · exact htb hm2
  have hsp : splitAtFirst '=' (trimRight x) =
      some (b ++ [']'] ++ [' ', mk, ' '] ++ tb, ta) := by
    rw [htrx, show b ++ [']'] ++ [' ', mk, ' '] ++ (tb ++ '=' :: ta) =
      (b ++ [']'] ++ [' ', mk, ' '] ++ tb) ++ '=' :: ta from by simp]
    exact splitAtFirst_append _ hnbK
  have hBne : B ≠ [] := by
    intro h
    rw [h] at hB0
    simp at hB0
  obtain ⟨c0, b2, hb0d⟩ : ∃ c0 b2, b = c0 :: b2 := by
    cases hbb : b with
    | nil => rw [hbb] at hb1; simp at hb1
    | cons c0 b2 => exact ⟨c0, b2, rfl⟩
  have hc0 : c0 = '[' := by
    rw [hb0d] at hb1
    simpa using hb1
  obtain ⟨B', hBd⟩ : ∃ B', B = b0 :: B' := by
    cases hBB : B with
    | nil => exact absurd hBB hBne
    | cons q Q =>
      rw [hBB] at hB0
      simp only [List.head?_cons, Option.some.injEq] at hB0
      subst hB0
      exact ⟨Q, rfl⟩
  have hKinner : trimSpace (b ++ [']'] ++ [' ', mk, ' '] ++ B) =
      b ++ [']'] ++ [' ', mk, ' '] ++ B := by
    apply trimSpace_of_trimmed
    · intro c hc
      rw [hb0d, hc0] at hc
      simp only [List.cons_append, List.head?_cons, Option.some.injEq] at hc
      subst hc
      decide
    · intro c hc
      obtain ⟨z, hz⟩ := exists_getLast? hBne
      have h8 : (b ++ [']'] ++ [' ', mk, ' '] ++ B).getLast? = some z := by
        rw [List.getLast?_append, hz]
        rfl
      rw [h8] at hc
      simp only [Option.some.injEq] at hc
      subst hc
      exact hBl z hz
  have hK : trimSpace (b ++ [']'] ++ [' ', mk, ' '] ++ tb) =
      b ++ [']'] ++ [' ', mk, ' '] ++ B := by
    rw [htbd, show b ++ [']'] ++ [' ', mk, ' '] ++ (B ++ s) =
      (b ++ [']'] ++ [' ', mk, ' '] ++ B) ++ s from by simp,
      trimSpace_append_ws hsall]
    exact hKinner
  have hRl : ∀ c, (joinFields ta).getLast? = some c → isWS c = false :=
    fun c hc => getLast?_joinFields hc
  obtain ⟨V, hV, hTY⟩ := trimRight_canonical_kv (b ++ [']'] ++ [' ', mk, ' '] ++ B)
    (spaces (m - (trimSpace (b ++ [']'] ++ [' ', mk, ' '] ++ tb)).length))
    (joinFields ta) hRl
  set P := spaces (m - (trimSpace (b ++ [']'] ++ [' ', mk, ' '] ++ tb)).length)
    with hPdef
  have hy2 : rewriteLine m incl x =
      (b ++ [']'] ++ [' ', mk, ' '] ++ B) ++ P ++ [' ', '=', ' '] ++ joinFields ta := by
    rw [rewriteLine_kv hcb hsp, hPdef, hK]
  have htsT : trimSpace ((b ++ [']'] ++ [' ', mk, ' '] ++ B) ++ P ++ [' ', '='] ++ V) =
      (b ++ [']'] ++ [' ', mk, ' '] ++ B) ++ P ++ [' ', '='] ++ V := by
    rw [hb0d, hc0]
    have h5 := trimSpace_shape_cons '[' (b2 ++ [']'] ++ [' ', mk, ' '] ++ B ++ P)
      (by decide) hV hRl
    rw [show ('[' :: (b2 ++ [']'] ++ [' ', mk, ' '] ++ B ++ P)) ++ [' ', '='] ++ V =
      ('[' :: b2 ++ [']'] ++ [' ', mk, ' '] ++ B) ++ P ++ [' ', '='] ++ V
      from by simp] at h5
    exact h5
  have hsplitT : splitAtFirst ']'
      ((b ++ [']'] ++ [' ', mk, ' '] ++ B) ++ P ++ [' ', '='] ++ V) =
      some (b, [' ', mk, ' '] ++ B ++ P ++ [' ', '='] ++ V) := by
    rw [show (b ++ [']'] ++ [' ', mk, ' '] ++ B) ++ P ++ [' ', '='] ++ V =
      b ++ ']' :: ([' ', mk, ' '] ++ B ++ P ++ [' ', '='] ++ V) from by simp]
    exact splitAtFirst_append _ hb2
  have htsW : trimSpace ((mk :: ' ' :: B ++ P) ++ [' ', '='] ++ V) =
      (mk :: ' ' :: B ++ P) ++ [' ', '='] ++ V :=
    trimSpace_shape_cons mk (' ' :: B ++ P) hmk hV hRl
  have htsa : trimSpace ([' ', mk, ' '] ++ B ++ P ++ [' ', '='] ++ V) =
      mk :: (' ' :: B ++ P ++ [' ', '='] ++ V) := by
    rw [show [' ', mk, ' '] ++ B ++ P ++ [' ', '='] ++ V =
      [' '] ++ ((mk :: ' ' :: B ++ P) ++ [' ', '='] ++ V) from by simp,
      trimSpace_ws_append hws1, htsW]
    simp
  have hts2 : trimSpace (' ' :: B ++ P ++ [' ', '='] ++ V) =
      B ++ P ++ [' ', '='] ++ V := by
    rw [show (' ' :: B ++ P ++ [' ', '='] ++ V : Str) =
      [' '] ++ (B ++ P ++ [' ', '='] ++ V) from by simp,
      trimSpace_ws_append hws1, hBd]
    have h6 := trimSpace_shape_cons b0 (B' ++ P) hb0 hV hRl
    rw [show (b0 :: (B' ++ P)) ++ [' ', '='] ++ V =
      (b0 :: B') ++ P ++ [' ', '='] ++ V from by simp] at h6
    exact h6
  have hhY : (trimSpace (trimRight ((b ++ [']'] ++ [' ', mk, ' '] ++ B) ++ P ++
      [' ', '=', ' '] ++ joinFields ta))).head? = some '[' := by
    rw [hTY, htsT, hb0d, hc0]
    rfl
  have hsY : splitAtFirst ']' (trimSpace (trimRight ((b ++ [']'] ++ [' ', mk, ' '] ++ B)
      ++ P ++ [' ', '=', ' '] ++ joinFields ta))) =
      some (b, [' ', mk, ' '] ++ B ++ P ++ [' ', '='] ++ V) := by
    rw [hTY, htsT]
    exact hsplitT
  have hppy : prePass ((b ++ [']'] ++ [' ', mk, ' '] ++ B) ++ P ++ [' ', '=', ' '] ++
      joinFields ta) = b ++ [']'] ++ [' ', mk, ' '] ++ (B ++ P ++ [' ', '='] ++ V) := by
    rw [prePass_hdr_cons hhY hsY htsa, hts2]
  have htr2 : trimRight (prePass (rewriteLine m incl x)) =
      trimSpace (b ++ [']'] ++ [' ', mk, ' '] ++ tb) ++ P ++ [' ', '='] ++ V := by
    rw [hy2, hppy, hK]
    have h7 := trimRight_shape_eq (X := (b ++ [']'] ++ [' ', mk, ' '] ++ B) ++ P) hV hRl
    rw [show ((b ++ [']'] ++ [' ', mk, ' '] ++ B) ++ P) ++ [' ', '='] ++ V =
      b ++ [']'] ++ [' ', mk, ' '] ++ (B ++ P ++ [' ', '='] ++ V) from by simp] at h7
    rw [h7]
    simp
  have hcls2 : isCommentBlank (trimSpace (prePass (rewriteLine m incl x))) = false := by
    apply cls_of_head_br
    rw [← trimSpace_trimRight, htr2, hK, htsT, hb0d, hc0]
    rfl
  have hQP : ∀ c ∈ P, c = ' ' := fun c hc => List.eq_of_mem_replicate hc
  obtain ⟨hc1, hc2⟩ := roundtrip_hdr_core hcb hsp hQP hV htr2 hcls2
  exact ⟨hc1, hc2, hsp⟩

theorem roundtrip_hdr {x : Str} {m : Nat} {incl : Bool}
    (hfix : prePass x = x) (hhdr : isHdr x = true) :
    rewriteLine m incl (prePass (rewriteLine m incl x)) = rewriteLine m incl x ∧
      lineKeyLen incl (prePass (rewriteLine m incl x)) = lineKeyLen incl x := by
  obtain ⟨hh, -⟩ := isHdr_parts hhdr
  have hcb : isCommentBlank (trimSpace (trimRight x)) = false := cls_of_head_br hh
  have hfin : ∀ (bK tK : Str),
      lineKeyLen incl (prePass (rewriteLine m incl x)) = some (trimSpace bK).length →
      splitAtFirst '=' (trimRight x) = some (bK, tK) →
      lineKeyLen incl (prePass (rewriteLine m incl x)) = lineKeyLen incl x := by
    intro bK tK h2 h3
    rw [h2, ← lineKeyLen_trimRight, lineKeyLen_some (Or.inr hcb) h3]
  have hopaque : splitAtFirst '=' (trimRight x) = none →
      rewriteLine m incl (prePass (rewriteLine m incl x)) = rewriteLine m incl x ∧
      lineKeyLen incl (prePass (rewriteLine m incl x)) = lineKeyLen incl x := by
    intro hsp
    have hrw : rewriteLine m incl x = trimRight x := rewriteLine_opaque hcb hsp
    rw [hrw, prePass_trimRight, hfix]
    exact ⟨hrw, rfl⟩
  obtain ⟨b, hb1, hb2, hcase⟩ := hdr_structure hfix hhdr
  rcases hcase with hx | ⟨mk, t, hmk, ht, hx⟩
  · subst hx
    have htr := (hdrA hb1 hb2).1
    cases hsb : splitAtFirst '=' b with
    | none =>
      apply hopaque
      rw [htr, splitAtFirst_eq_none]
      intro hm
      rcases List.mem_append.mp hm with h4 | h4
      · exact splitAtFirst_eq_none.mp hsb h4
      · simp at h4
    | some p =>
      obtain ⟨b', abh⟩ := p
      obtain ⟨hbeq2, hnb⟩ := splitAtFirst_eq_some hsb
      obtain ⟨hc1, hc2⟩ := roundtrip_hdr_F1 m incl hb1 hb2 hbeq2 hnb hcb
      refine ⟨hc1, hfin b' (abh ++ [']']) hc2 ?_⟩
      rw [htr, hbeq2,
        show (b' ++ '=' :: abh) ++ [']'] = b' ++ '=' :: (abh ++ [']']) from by simp]
      exact splitAtFirst_append _ hnb
  · subst hx
    obtain ⟨t', ht', htrE⟩ : ∃ t', ((t' = [] ∧ t = []) ∨ t' = ' ' :: t) ∧
        trimRight (b ++ [']'] ++ [' ', mk, ' '] ++ t) =
          b ++ [']'] ++ [' ', mk] ++ t' := by
      cases t with
      | nil =>
        refine ⟨[], Or.inl ⟨rfl, rfl⟩, ?_⟩
        rw [List.append_nil, List.append_nil]
        exact (hdrC hb1 hb2 hmk).1
      | cons t0 t2 =>
        refine ⟨' ' :: (t0 :: t2), Or.inr rfl, ?_⟩
        rw [(hdrB hb1 hb2 hmk ht (by simp)).1]
        simp
    cases hsb : splitAtFirst '=' b with
    | some p =>
      obtain ⟨b', abh⟩ := p
      obtain ⟨hbeq2, hnb⟩ := splitAtFirst_eq_some hsb
      obtain ⟨hc1, hc2, hc3⟩ := roundtrip_hdr_F2a m incl
        hb1 hb2 hbeq2 hnb hmk ht' htrE hcb
      exact ⟨hc1, hfin b' (abh ++ [']'] ++ [' ', mk] ++ t') hc2 hc3⟩
    | none =>
      have hbeq : '=' ∉ b := splitAtFirst_eq_none.mp hsb
      by_cases hmkE : mk = '='
      · subst hmkE
        obtain ⟨hc1, hc2, hc3⟩ := roundtrip_hdr_F2b m incl
          hb1 hb2 hbeq htrE hcb
        exact ⟨hc1, hfin (b ++ [']'] ++ [' ']) t' hc2 hc3⟩
      · cases hst : splitAtFirst '=' t with
        | none =>
          apply hopaque
          rw [htrE, splitAtFirst_eq_none]
          intro hm
          rcases List.mem_append.mp hm with hm2 | hm2
          · rcases List.mem_append.mp hm2 with hm3 | hm3
            · rcases List.mem_append.mp hm3 with hm4 | hm4
              · exact hbeq hm4
              · simp at hm4
            · rcases List.mem_cons.mp hm3 with h4 | h4
              · exact absurd h4 (by decide)
              · rcases List.mem_cons.mp h4 with h5 | h5
                · exact hmkE h5.symm
                · simp at h5
          · rcases ht' with ⟨h1, h2⟩ | h1
            · rw [h1] at hm2
              simp at hm2
            · rw [h1] at hm2
              rcases List.mem_cons.mp hm2 with h6 | h6
              · exact absurd h6 (by decide)
              · exact splitAtFirst_eq_none.mp hst h6
        | some q =>
          obtain ⟨tb, ta⟩ := q
          obtain ⟨hteq, htb⟩ := splitAtFirst_eq_some hst
          have htne : t ≠ [] := by
            rw [hteq]
            simp
          have ht'2 : t' = ' ' :: t := by
            rcases ht' with ⟨h1, h2⟩ | h1
            · exact absurd h2 htne
            · exact h1
          have htrx : trimRight (b ++ [']'] ++ [' ', mk, ' '] ++ t) =
              b ++ [']'] ++ [' ', mk, ' '] ++ (tb ++ '=' :: ta) := by
            rw [htrE, ht'2, ← hteq]
            simp
          cases hB : rtrim isWS tb with
          | nil =>
            have htball : ∀ c ∈ tb, isWS c = true :=
              fun c hc => rtrim_eq_nil_mem hB hc
            obtain ⟨hc1, hc2, hc3⟩ := roundtrip_hdr_F2c1 m incl
              hb1 hb2 hbeq hmk hmkE htb htball htrx hcb
            exact ⟨hc1, hfin (b ++ [']'] ++ [' ', mk, ' '] ++ tb) ta hc2 hc3⟩
          | cons q0 Q0 =>
            obtain ⟨sfx, hsfx, hsall⟩ := rtrim_decomp isWS tb
            have hB0 : (rtrim isWS tb).head? = some q0 := by
              rw [hB]
              rfl
            have htb0 : tb.head? = some q0 := head?_rtrim hB0
            have hth : t.head? = some q0 := by
              rw [hteq]
              cases htbc : tb with
              | nil => rw [htbc] at htb0; simp at htb0
              | cons w ws =>
                rw [htbc] at htb0
                simp only [List.head?_cons, Option.some.injEq] at htb0
                subst htb0
                rfl
            have hq0 : isWS q0 = false := by
              apply head?_trimSpace_not_ws (l := t)
              rw [ht]
              exact hth
            have hBl : ∀ c, (rtrim isWS tb).getLast? = some c → isWS c = false :=
              fun c hc => getLast?_rtrim hc
            obtain ⟨hc1, hc2, hc3⟩ := roundtrip_hdr_F2c2 m incl
              hb1 hb2 hbeq hmk hmkE htb hsfx hsall hB0 hq0 hBl htrx hcb
            exact ⟨hc1, hfin (b ++ [']'] ++ [' ', mk, ' '] ++ tb) ta hc2 hc3⟩

theorem roundtrip_plain {x bq aq : Str} {m : Nat} {incl : Bool}
    (hhdr : isHdr x = false)
    (hcb : isCommentBlank (trimSpace (trimRight x)) = false)
    (hsp : splitAtFirst '=' (trimRight x) = some (bq, aq)) :
    rewriteLine m incl (prePass (rewriteLine m incl x)) = rewriteLine m incl x ∧
      lineKeyLen incl (prePass (rewriteLine m incl x)) = lineKeyLen incl x ∧
      isHdr (prePass (rewriteLine m incl x)) = false := by
  obtain ⟨hdec, hnb⟩ := splitAtFirst_eq_some hsp
  have hRl : ∀ c, (joinFields aq).getLast? = some c → isWS c = false :=
    fun c hc => getLast?_joinFields hc
  obtain ⟨V, hV, hTY⟩ := trimRight_canonical_kv (trimSpace bq)
    (spaces (m - (trimSpace bq).length)) (joinFields aq) hRl
  set P := spaces (m - (trimSpace bq).length) with hPdef
  have hy : rewriteLine m incl x =
      trimSpace bq ++ P ++ [' ', '=', ' '] ++ joinFields aq := by
    rw [rewriteLine_kv hcb hsp, hPdef]
  have hPsp : ∀ c ∈ P, c = ' ' := fun c hc => List.eq_of_mem_replicate hc
  have hwsP : ∀ c ∈ P ++ [' '], isWS c = true := by
    intro c hc
    rcases List.mem_append.mp hc with hc2 | hc2
    · rw [List.eq_of_mem_replicate hc2]
      decide
    · simp only [List.mem_singleton] at hc2
      subst hc2
      decide
  have hmain : prePass (rewriteLine m incl x) = trimRight (rewriteLine m incl x) ∧
      isCommentBlank (trimSpace (trimRight (rewriteLine m incl x))) = false ∧
      isHdr (rewriteLine m incl x) = false := by
    by_cases hKe : trimSpace bq = []
    · have hTS : trimSpace (trimRight (rewriteLine m incl x)) = '=' :: V := by
        rw [hy, hTY, hKe, List.nil_append,
          show P ++ [' ', '='] ++ V = (P ++ [' ']) ++ ('=' :: V) from by simp,
          trimSpace_ws_append hwsP]
        exact trimSpace_eqV hV hRl
      have hisH : isHdr (rewriteLine m incl x) = false := by
        apply isHdr_false_of_head
        rw [hTS]
        intro hcon
        rw [List.head?_cons] at hcon
        exact absurd (Option.some.inj hcon) (by decide)
      refine ⟨prePass_non_hdr hisH, ?_, hisH⟩
      rw [hTS, isCommentBlank_head (show (('=' : Char) :: V).head? = some '=' from rfl)]
      decide
    · obtain ⟨k0, K', hKsh, hk0w⟩ := trimSpace_key_head hKe
      obtain ⟨k1, hh1, hcls1, hw1⟩ := class_transfer hcb hdec hKe
      have hk1 : k1 = k0 := by
        rw [hKsh] at hh1
        simp only [List.head?_cons, Option.some.injEq] at hh1
        exact hh1.symm
      rw [hk1] at hcls1
      have hTS : trimSpace (trimRight (rewriteLine m incl x)) =
          trimSpace bq ++ P ++ [' ', '='] ++ V := by
        rw [hy, hTY, hKsh]
        have h5 := trimSpace_shape_cons k0 (K' ++ P) hk0w hV hRl
        rw [show (k0 :: (K' ++ P)) ++ [' ', '='] ++ V =
          (k0 :: K') ++ P ++ [' ', '='] ++ V from by simp] at h5
        exact h5
      have hheady : (trimSpace (trimRight (rewriteLine m incl x))).head? = some k0 := by
        rw [hTS, hKsh]
        rfl
      have hcls2 : isCommentBlank (trimSpace (trimRight (rewriteLine m incl x))) =
          false := by
        rw [isCommentBlank_head hheady]
        exact hcls1
      by_cases hk0br : k0 = '['
      · subst hk0br
        have hheadx : (trimSpace (trimRight x)).head? = some '[' := by
          rw [hdec, head?_trimSpace_append _ hKe, hKsh]
          rfl
        have hbrx : ']' ∉ trimSpace (trimRight x) := by
          unfold isHdr at hhdr
          rcases Bool.and_eq_false_iff.mp hhdr with h2 | h2
          · rw [hheadx] at h2
            simp at h2
          · have h3 : splitAtFirst ']' (trimSpace (trimRight x)) = none := by
              cases hq : splitAtFirst ']' (trimSpace (trimRight x)) with
              | none => rfl
              | some v =>
                rw [hq] at h2
                simp at h2
            exact splitAtFirst_eq_none.mp h3
        have hbq : ']' ∉ trimSpace bq := by
          intro h4
          apply hbrx
          apply mem_trimSpace_of_nonws (by decide)
          rw [hdec]
          exact List.mem_append_left _ (mem_trimSpace h4)
        have haq : ']' ∉ joinFields aq := by
          intro h4
          rcases mem_joinFields h4 with h5 | h5
          · exact absurd h5 (by decide)
          · apply hbrx
            apply mem_trimSpace_of_nonws (by decide)
            rw [hdec]
            exact List.mem_append_right _ (List.mem_cons_of_mem _ h5)
        have hbry : ']' ∉ trimSpace (trimRight (rewriteLine m incl x)) := by
          rw [hTS]
          intro hm
          rcases List.mem_append.mp hm with h5 | h5
          · rcases List.mem_append.mp h5 with h6 | h6
            · rcases List.mem_append.mp h6 with h7 | h7
              · exact hbq h7
              · exact absurd (hPsp _ h7) (by decide)
            · rcases List.mem_cons.mp h6 with h7 | h7
              · exact absurd h7 (by decide)
              · simp only [List.mem_singleton] at h7
                exact absurd h7 (by decide)
          · rcases hV with ⟨hV1, _⟩ | ⟨hV1, _⟩
            · rw [hV1] at h5
              simp at h5
            · rw [hV1] at h5
              rcases List.mem_cons.mp h5 with h7 | h7
              · exact absurd h7 (by decide)
              · exact haq h7
        have hisH : isHdr (rewriteLine m incl x) = false :=
          isHdr_false_of_none (splitAtFirst_eq_none.mpr hbry)
        exact ⟨prePass_non_hdr hisH, hcls2, hisH⟩
      · have hisH : isHdr (rewriteLine m incl x) = false := by
          apply isHdr_false_of_head
          intro hcon
          rw [hheady] at hcon
          exact hk0br (Option.some.inj hcon)
        exact ⟨prePass_non_hdr hisH, hcls2, hisH⟩
  obtain ⟨hppY, hcls2, hisHY⟩ := hmain
  have htrz : trimRight (prePass (rewriteLine m incl x)) =
      trimSpace bq ++ P ++ [' ', '='] ++ V := by
    rw [hppY, trimRight_idem, hy, hTY]
  have hcls3 : isCommentBlank (trimSpace (prePass (rewriteLine m incl x))) = false := by
    rw [hppY, trimSpace_trimRight, ← trimSpace_trimRight]
    exact hcls2
  have hV' : (V = [] ∧ joinFields aq = []) ∨ V = ' ' :: joinFields aq := by
    rcases hV with ⟨h1, h2⟩ | ⟨h1, _⟩
    · exact Or.inl ⟨h1, h2⟩
    · exact Or.inr h1
  obtain ⟨h1, h2⟩ := kv_core incl m htrz (trimSpace_idem bq)
    (not_mem_trimSpace hnb) hPsp hV' (joinFields_idem aq) hcls3
  refine ⟨?_, ?_, ?_⟩
  · rw [h1, hy, hPdef]
  · rw [h2, lineKeyLen_of_kv hcb hsp]
  · rw [hppY, isHdr_trimRight]
    exact hisHY

theorem roundtrip_nonhdr {x : Str} (m : Nat) (incl : Bool)
    (hfix : prePass x = x) (hhdr : isHdr x = false) :
    rewriteLine m incl (prePass (rewriteLine m incl x)) = rewriteLine m incl x ∧
      lineKeyLen incl (prePass (rewriteLine m incl x)) = lineKeyLen incl x ∧
      isHdr (prePass (rewriteLine m incl x)) = false := by
  by_cases hcb : isCommentBlank (trimSpace (trimRight x)) = true
  · have hpp : prePass (rewriteLine m incl x) = x := by
      rw [rewriteLine_comment hcb]
      split
      · split
        · rw [prePass_spaces, prePass_trimRight, hfix]
        · rw [prePass_trimRight, hfix]
      · rw [prePass_trimRight, hfix]
    rw [hpp]
    exact ⟨rfl, rfl, hhdr⟩
  · have hcbF : isCommentBlank (trimSpace (trimRight x)) = false := by
      cases h2 : isCommentBlank (trimSpace (trimRight x)) with
      | true => exact absurd h2 hcb
      | false => rfl
    cases hsp : splitAtFirst '=' (trimRight x) with
    | none =>
      have hrw : rewriteLine m incl x = trimRight x := rewriteLine_opaque hcbF hsp
      rw [hrw, prePass_trimRight, hfix]
      exact ⟨hrw, rfl, hhdr⟩
    | some p =>
      obtain ⟨bq, aq⟩ := p
      exact roundtrip_plain hhdr hcbF hsp

theorem roundtrip {x : Str} (m : Nat) (incl : Bool) (hfix : prePass x = x) :
    rewriteLine m incl (prePass (rewriteLine m incl x)) = rewriteLine m incl x ∧
      lineKeyLen incl (prePass (rewriteLine m incl x)) = lineKeyLen incl x := by
  cases hhdr : isHdr x with
  | true => exact roundtrip_hdr hfix hhdr
  | false =>
    obtain ⟨h1, h2, -⟩ := roundtrip_nonhdr m incl hfix hhdr
    exact ⟨h1, h2⟩

theorem maxKeyLen_fold_congr {incl : Bool} : ∀ (L1 L2 : List Str) (acc : Nat),
    L1.map (lineKeyLen incl) = L2.map (lineKeyLen incl) →
    L1.foldl (fun acc line =>
      match lineKeyLen incl line with
      | none => acc
      | some k => max acc k) acc =
    L2.foldl (fun acc line =>
      match lineKeyLen incl line with
      | none => acc
      | some k => max acc k) acc := by
  intro L1
  induction L1 with
  | nil =>
    intro L2 acc h
    cases L2 with
    | nil => rfl
    | cons y ys => simp at h
  | cons x xs ih =>
    intro L2 acc h
    cases L2 with
    | nil => simp at h
    | cons y ys =>
      simp only [List.map_cons, List.cons.injEq] at h
      obtain ⟨h1, h2⟩ := h
      simp only [List.foldl_cons]
      rw [h1]
      exact ih ys _ h2

theorem maxKeyLen_congr {incl : Bool} {L1 L2 : List Str}
    (h : L1.map (lineKeyLen incl) = L2.map (lineKeyLen incl)) :
    maxKeyLen L1 incl = maxKeyLen L2 incl := by
  unfold maxKeyLen
  exact maxKeyLen_fold_congr L1 L2 0 h

theorem alignSection_keys {L : List Str} (incl : Bool)
    (hfix : ∀ x ∈ L, prePass x = x) :
    maxKeyLen ((alignSection L incl).map prePass) incl = maxKeyLen L incl := by
  apply maxKeyLen_congr
  unfold alignSection
  rw [List.map_map, List.map_map]
  apply List.map_congr_left
  intro x hx
  exact (roundtrip (maxKeyLen L incl) incl (hfix x hx)).2

theorem alignSection_def (lines : List Str) (incl : Bool) :
    alignSection lines incl = lines.map (rewriteLine (maxKeyLen lines incl) incl) := rfl

theorem alignSection_idem {L : List Str} {incl : Bool}
    (hfix : ∀ x ∈ L, prePass x = x) :
    alignSection ((alignSection L incl).map prePass) incl = alignSection L incl := by
  rw [alignSection_def ((alignSection L incl).map prePass) incl]
  rw [alignSection_keys incl hfix]
  rw [alignSection_def L incl]
  rw [List.map_map, List.map_map]
  apply List.map_congr_left
  intro x hx
  simp only [Function.comp]
  exact (roundtrip (maxKeyLen L incl) incl (hfix x hx)).1

theorem alignPS_nil (incl : Bool) (acc : List Str) :
    alignPS incl acc [] = alignSection acc incl := rfl

theorem alignPS_cons_hdr {line : Str} (incl : Bool) (acc rest : List Str)
    (h : isHdr line = true) :
    alignPS incl acc (line :: rest) =
      alignSection acc incl ++ hdrOut line :: alignPS incl [] rest := by
  rw [alignPS, if_pos h]

theorem alignPS_cons_nonhdr {line : Str} (incl : Bool) (acc rest : List Str)
    (h : isHdr line = false) :
    alignPS incl acc (line :: rest) = alignPS incl (acc ++ [line]) rest := by
  rw [alignPS, if_neg (by simp [h])]

theorem alignPS_prefix (incl : Bool) : ∀ (A acc rest : List Str),
    (∀ a ∈ A, isHdr a = false) →
    alignPS incl acc (A ++ rest) = alignPS incl (acc ++ A) rest := by
  intro A
  induction A with
  | nil =>
    intro acc rest h
    rw [List.nil_append, List.append_nil]
  | cons a A ih =>
    intro acc rest h
    rw [List.cons_append, alignPS_cons_nonhdr _ _ _ (h a (List.mem_cons_self a A)),
      ih _ _ (fun x hx => h x (List.mem_cons_of_mem _ hx)),
      show (acc ++ [a]) ++ A = acc ++ a :: A from by simp]

theorem alignPS_nonhdr_block {A : List Str} {incl : Bool}
    (hA : ∀ a ∈ A, isHdr a = false) :
    alignPS incl [] A = alignSection A incl := by
  have h := alignPS_prefix incl A [] [] hA
  rw [List.append_nil, List.nil_append] at h
  rw [h, alignPS_nil]

theorem alignSection_map_nonhdr {acc : List Str} {incl : Bool}
    (hacc : ∀ x ∈ acc, prePass x = x) (haccH : ∀ x ∈ acc, isHdr x = false) :
    ∀ z ∈ (alignSection acc incl).map prePass, isHdr z = false := by
  intro z hz
  rw [List.mem_map] at hz
  obtain ⟨w, hw, rfl⟩ := hz
  rw [alignSection_def, List.mem_map] at hw
  obtain ⟨x, hx, rfl⟩ := hw
  exact (roundtrip_nonhdr _ incl (hacc x hx) (haccH x hx)).2.2

theorem alignPS_idem {incl : Bool} : ∀ (rest acc : List Str),
    (∀ x ∈ rest, prePass x = x) → (∀ x ∈ acc, prePass x = x) →
    (∀ x ∈ acc, isHdr x = false) →
    alignPS incl [] ((alignPS incl acc rest).map prePass) = alignPS incl acc rest := by
  intro rest
  induction rest with
  | nil =>
    intro acc hrest hacc haccH
    rw [alignPS_nil,
      alignPS_nonhdr_block (alignSection_map_nonhdr hacc haccH),
      alignSection_idem hacc]
  | cons line rest ih =>
    intro acc hrest hacc haccH
    have hline := hrest line (List.mem_cons_self line rest)
    cases hH : isHdr line with
    | false =>
      rw [alignPS_cons_nonhdr _ _ _ hH]
      refine ih (acc ++ [line]) (fun x hx => hrest x (List.mem_cons_of_mem _ hx)) ?_ ?_
      · intro x hx
        rcases List.mem_append.mp hx with h4 | h4
        · exact hacc x h4
        · simp only [List.mem_singleton] at h4
          subst h4
          exact hline
      · intro x hx
        rcases List.mem_append.mp hx with h4 | h4
        · exact haccH x h4
        · simp only [List.mem_singleton] at h4
          subst h4
          exact hH
    | true =>
      obtain ⟨hh1, hh2⟩ := hdr_round hline hH
      rw [alignPS_cons_hdr _ _ _ hH, List.map_append, List.map_cons,
        alignPS_prefix incl _ [] _ (alignSection_map_nonhdr hacc haccH), List.nil_append,
        alignPS_cons_hdr _ _ _ hh1, hh2, alignSection_idem hacc,
        ih [] (fun x hx => hrest x (List.mem_cons_of_mem _ hx))
          (fun x hx => absurd hx (List.not_mem_nil x))
          (fun x hx => absurd hx (List.not_mem_nil x))]

theorem alignIni_false_def (lines : List Str) (incl : Bool) :
    alignIni lines false incl = alignSection (lines.map prePass) incl := rfl

theorem alignIni_true_def (lines : List Str) (incl : Bool) :
    alignIni lines true incl = alignPS incl [] (lines.map prePass) := rfl

theorem map_prePass_fixed (lines : List Str) :
    ∀ x ∈ lines.map prePass, prePass x = x := by
  intro x hx
  rw [List.mem_map] at hx
  obtain ⟨y, hy, rfl⟩ := hx
  exact prePass_idem y

theorem alignIni_idem (lines : List Str) (ps incl : Bool) :
    alignIni (alignIni lines ps incl) ps incl = alignIni lines ps incl := by
  cases ps with
  | false =>
    rw [alignIni_false_def, alignIni_false_def]
    exact alignSection_idem (map_prePass_fixed lines)
  | true =>
    rw [alignIni_true_def, alignIni_true_def]
    exact alignPS_idem (lines.map prePass) [] (map_prePass_fixed lines)
      (fun x hx => absurd hx (List.not_mem_nil x))
      (fun x hx => absurd hx (List.not_mem_nil x))

theorem alignSection_length (L : List Str) (incl : Bool) :
    (alignSection L incl).length = L.length := by
  rw [alignSection_def, List.length_map]

theorem alignPS_length {incl : Bool} : ∀ (rest acc : List Str),
    (alignPS incl acc rest).length = acc.length + rest.length := by
  intro rest
  induction rest with
  | nil =>
    intro acc
    rw [alignPS_nil, alignSection_length, List.length_nil]
    omega
  | cons line rest ih =>
    intro acc
    cases hH : isHdr line with
    | true =>
      rw [alignPS_cons_hdr _ _ _ hH, List.length_append, alignSection_length,
        List.length_cons, ih [], List.length_nil, List.length_cons]
      omega
    | false =>
      rw [alignPS_cons_nonhdr _ _ _ hH, ih, List.length_append, List.length_cons]
      simp
      omega

theorem alignIni_length (lines : List Str) (ps incl : Bool) :
    (alignIni lines ps incl).length = lines.length := by
  cases ps with
  | false => rw [alignIni_false_def, alignSection_length, List.length_map]
  | true =>
    rw [alignIni_true_def, alignPS_length, List.length_nil, List.length_map,
      Nat.zero_add]

theorem maxKeyLen_fold_le {incl : Bool} : ∀ (L : List Str) (acc : Nat),
    acc ≤ L.foldl (fun acc line =>
      match lineKeyLen incl line with
      | none => acc
      | some k => max acc k) acc := by
  intro L
  induction L with
  | nil => intro acc; exact Nat.le_refl acc
  | cons x xs ih =>
    intro acc
    rw [List.foldl_cons]
    refine Nat.le_trans ?_ (ih _)
    show acc ≤ match lineKeyLen incl x with
      | none => acc
      | some k => max acc k
    cases h : lineKeyLen incl x with
    | none => exact Nat.le_refl acc
    | some k => exact Nat.le_max_left acc k

theorem maxKeyLen_fold_mem {incl : Bool} {line : Str} {k : Nat}
    (hk : lineKeyLen incl line = some k) : ∀ (L : List Str), line ∈ L →
    ∀ acc, k ≤ L.foldl (fun acc line =>
      match lineKeyLen incl line with
      | none => acc
      | some k => max acc k) acc := by
  intro L
  induction L with
  | nil => intro hm; exact absurd hm (List.not_mem_nil line)
  | cons y ys ih =>
    intro hm acc
    rw [List.foldl_cons]
    rcases List.mem_cons.mp hm with rfl | hm2
    · refine Nat.le_trans ?_ (maxKeyLen_fold_le ys _)
      show k ≤ match lineKeyLen incl line with
        | none => acc
        | some k => max acc k
      rw [hk]
      exact Nat.le_max_right acc k
    · exact ih hm2 _

theorem maxKeyLen_ge {L : List Str} {incl : Bool} {line : Str} {k : Nat}
    (hm : line ∈ L) (hk : lineKeyLen incl line = some k) :
    k ≤ maxKeyLen L incl := by
  unfold maxKeyLen
  exact maxKeyLen_fold_mem hk L hm 0

theorem alignPS_drop (incl : Bool) : ∀ (X acc B : List Str) (h : Str),
    isHdr h = true →
    (alignPS incl acc (X ++ h :: B)).drop (acc.length + X.length) =
      hdrOut h :: alignPS incl [] B := by
  intro X
  induction X with
  | nil =>
    intro acc B h hh
    rw [List.nil_append, alignPS_cons_hdr _ _ _ hh, List.length_nil, Nat.add_zero,
      ← alignSection_length acc incl, List.drop_left]
  | cons x X ih =>
    intro acc B h hh
    rw [List.cons_append]
    cases hx : isHdr x with
    | true =>
      rw [alignPS_cons_hdr _ _ _ hx,
        show alignSection acc incl ++ hdrOut x :: alignPS incl [] (X ++ h :: B) =
          (alignSection acc incl ++ [hdrOut x]) ++ alignPS incl [] (X ++ h :: B)
          from by simp,
        show acc.length + (x :: X).length =
          (alignSection acc incl ++ [hdrOut x]).length + X.length from by
            simp [alignSection_length]
            omega,
        List.drop_append]
      have h9 := ih [] B h hh
      rw [List.length_nil, Nat.zero_add] at h9
      exact h9
    | false =>
      rw [alignPS_cons_nonhdr _ _ _ hx]
      have h9 := ih (acc ++ [x]) B h hh
      rw [show (acc ++ [x]).length + X.length = acc.length + (x :: X).length from by
        simp
        omega] at h9
      exact h9

theorem joinFields_ne_nil {a : Str} (h : fields a ≠ []) : joinFields a ≠ [] := by
  unfold joinFields
  cases hf : fields a with
  | nil => exact absurd hf h
  | cons w ws =>
    obtain ⟨hwne, -⟩ := fields_all w (hf ▸ List.mem_cons_self w ws)
    cases ws with
    | nil =>
      rw [show joinWords [w] = w from rfl]
      exact hwne
    | cons w2 ws2 =>
      rw [show joinWords (w :: w2 :: ws2) = w ++ ' ' :: joinWords (w2 :: ws2) from rfl]
      simp

theorem isPrefixOf_cons_cons (a b : Char) (as bs : Str) :
    (a :: as).isPrefixOf (b :: bs) = (a == b && as.isPrefixOf bs) := rfl

theorem countSub_nil_pat (c : Char) (p : Str) : countSub (c :: p) [] = 0 := by
  unfold countSub
  rw [List.length_nil]
  simp [List.range_succ, List.isPrefixOf]

theorem countSub_cons (pat : Str) (c : Char) (l : Str) :
    countSub pat (c :: l) =
      (if pat.isPrefixOf (c :: l) then 1 else 0) + countSub pat l := by
  unfold countSub
  rw [List.length_cons, List.range_succ_eq_map, List.countP_cons, List.countP_map]
  have h0 : ((fun i => pat.isPrefixOf ((c :: l).drop i)) ∘ Nat.succ) =
      (fun i => pat.isPrefixOf (l.drop i)) := by
    funext i
    rfl
  rw [h0, Nat.add_comm, List.drop_zero]

theorem countSub_not_mem {d c : Char} {p : Str} (hd : d ∈ c :: p) :
    ∀ (l : Str), d ∉ l → countSub (c :: p) l = 0 := by
  intro l
  induction l with
  | nil => intro _; exact countSub_nil_pat c p
  | cons x l ih =>
    intro hn
    rw [countSub_cons, if_neg ?_, ih (fun hm => hn (List.mem_cons_of_mem x hm))]
    intro hpre
    apply hn
    have hsub : (c :: p) <+: (x :: l) := List.isPrefixOf_iff_prefix.mp hpre
    exact hsub.sublist.subset hd

theorem countSub_single : ∀ (K : Str), (R : Str) → '=' ∉ K → '=' ∉ R →
    countSub [' ', '=', ' '] (K ++ [' ', '=', ' '] ++ R) = 1 := by
  intro K
  induction K with
  | nil =>
    intro R hK hR
    show countSub [' ', '=', ' '] (' ' :: '=' :: ' ' :: R) = 1
    rw [countSub_cons, if_pos (by simp [List.isPrefixOf])]
    rw [countSub_cons, if_neg (by
      rw [isPrefixOf_cons_cons, show (' ' == '=') = false from by decide]
      simp)]
    have h3 : ([' ', '=', ' '] : Str).isPrefixOf (' ' :: R) = false := by
      rw [isPrefixOf_cons_cons]
      cases R with
      | nil => rfl
      | cons r R2 =>
        rw [show (['=', ' '] : Str).isPrefixOf (r :: R2) =
          ('=' == r && ([' '] : Str).isPrefixOf R2) from rfl]
        have hr : ('=' == r) = false := by
          cases hrr : ('=' == r) with
          | false => rfl
          | true =>
            rw [beq_iff_eq] at hrr
            exact absurd (hrr ▸ List.mem_cons_self r R2) hR
        rw [hr]
        simp
    rw [countSub_cons, if_neg (by rw [h3]; simp),
      countSub_not_mem (List.mem_cons_of_mem _ (List.mem_cons_self '=' [' '])) R hR]
  | cons k K' ih =>
    intro R hK hR
    have hk : '=' ≠ k := fun h => hK (h ▸ List.mem_cons_self k K')
    have hK' : '=' ∉ K' := fun h => hK (List.mem_cons_of_mem k h)
    rw [show ((k :: K') ++ [' ', '=', ' '] ++ R) =
      k :: (K' ++ [' ', '=', ' '] ++ R) from by simp]
    rw [countSub_cons]
    have htest : ([' ', '=', ' '] : Str).isPrefixOf
        (k :: (K' ++ [' ', '=', ' '] ++ R)) = false := by
      rw [isPrefixOf_cons_cons]
      cases hsp : (' ' == k) with
      | false => simp
      | true =>
        have h2 : (['=', ' '] : Str).isPrefixOf (K' ++ [' ', '=', ' '] ++ R) =
            false := by
          cases hKc : K' with
          | nil =>
            rw [show (([] : Str) ++ [' ', '=', ' '] ++ R) =
              ' ' :: '=' :: ' ' :: R from by simp]
            rw [isPrefixOf_cons_cons, show ('=' == ' ') = false from by decide]
            simp
          | cons k2 K2 =>
            rw [show ((k2 :: K2) ++ [' ', '=', ' '] ++ R) =
              k2 :: (K2 ++ [' ', '=', ' '] ++ R) from by simp]
            rw [isPrefixOf_cons_cons]
            have hk2 : ('=' == k2) = false := by
              cases hrr : ('=' == k2) with
              | false => rfl
              | true =>
                rw [beq_iff_eq] at hrr
                exact absurd (by rw [hKc]; exact hrr ▸ List.mem_cons_self k2 K2) hK'
            rw [hk2]
            simp
        rw [h2]
        simp
    rw [htest, if_neg (by simp), ih R hK' hR]

theorem rewriteLine_passthrough {line : Str} (m : Nat) (incl : Bool)
    (hne : splitAtFirst '=' (trimRight line) = none)
    (hcm : incl = true → isCommentBlank (trimSpace line) = false) :
    rewriteLine m incl line = trimRight line := by
  cases hcls : isCommentBlank (trimSpace (trimRight line)) with
  | false => exact rewriteLine_opaque hcls hne
  | true =>
    rw [trimSpace_trimRight] at hcls
    cases incl with
    | false =>
      rw [rewriteLine_comment (by rw [trimSpace_trimRight]; exact hcls),
        if_neg (by simp)]
    | true =>
      rw [hcm rfl] at hcls
      simp at hcls

theorem alignPS_derived (incl : Bool) : ∀ (rest acc : List Str),
    (∀ x ∈ acc, isHdr x = false) → ∀ (i : Nat),
    ∃ m, (alignPS incl acc rest)[i]? = ((acc ++ rest)[i]?).map
      (fun x => if isHdr x then hdrOut x else rewriteLine m incl x) := by
  intro rest
  induction rest with
  | nil =>
    intro acc hacc i
    refine ⟨maxKeyLen acc incl, ?_⟩
    rw [alignPS_nil, List.append_nil, alignSection_def, List.getElem?_map]
    cases h : acc[i]? with
    | none => rfl
    | some x =>
      simp only [Option.map_some']
      rw [if_neg (by rw [hacc x (List.getElem?_mem h)]; simp)]
  | cons line rest ih =>
    intro acc hacc i
    cases hH : isHdr line with
    | false =>
      have hacc2 : ∀ x ∈ acc ++ [line], isHdr x = false := by
        intro x hx
        rcases List.mem_append.mp hx with h4 | h4
        · exact hacc x h4
        · simp only [List.mem_singleton] at h4
          subst h4
          exact hH
      obtain ⟨m, hm⟩ := ih (acc ++ [line]) hacc2 i
      refine ⟨m, ?_⟩
      rw [alignPS_cons_nonhdr _ _ _ hH, hm,
        show (acc ++ [line]) ++ rest = acc ++ line :: rest from by simp]
    | true =>
      rcases Nat.lt_trichotomy i acc.length with hi | hi | hi
      · refine ⟨maxKeyLen acc incl, ?_⟩
        rw [alignPS_cons_hdr _ _ _ hH,
          List.getElem?_append_left (by rw [alignSection_length]; exact hi),
          List.getElem?_append_left hi, alignSection_def, List.getElem?_map]
        cases h : acc[i]? with
        | none => rfl
        | some x =>
          simp only [Option.map_some']
          rw [if_neg (by rw [hacc x (List.getElem?_mem h)]; simp)]
      · subst hi
        refine ⟨0, ?_⟩
        rw [alignPS_cons_hdr _ _ _ hH,
          List.getElem?_append_right (Nat.le_of_eq (alignSection_length acc incl)),
          alignSection_length, Nat.sub_self, List.getElem?_cons_zero,
          List.getElem?_append_right (Nat.le_refl acc.length), Nat.sub_self,
          List.getElem?_cons_zero]
        simp only [Option.map_some']
        rw [if_pos hH]
      · have h0 : ∀ x ∈ ([] : List Str), isHdr x = false :=
          fun x hx => absurd hx (List.not_mem_nil x)
        obtain ⟨j, hj⟩ : ∃ j, i - acc.length = j + 1 :=
          ⟨i - acc.length - 1, by omega⟩
        obtain ⟨m, hm⟩ := ih [] h0 j
        rw [List.nil_append] at hm
        refine ⟨m, ?_⟩
        have hL2 : (alignPS incl acc (line :: rest))[i]? =
            (alignPS incl [] rest)[j]? := by
          rw [alignPS_cons_hdr _ _ _ hH,
            List.getElem?_append_right (by rw [alignSection_length]; omega),
            alignSection_length, hj, List.getElem?_cons_succ]
        have hR2 : ((acc ++ line :: rest)[i]?) = rest[j]? := by
          rw [List.getElem?_append_right (by omega : acc.length ≤ i), hj,
            List.getElem?_cons_succ]
        rw [hL2, hR2, hm]

theorem alignPS_block (incl : Bool) (X B S : List Str) (h : Str)
    (hhd : isHdr h = true) (hB : ∀ x ∈ B, isHdr x = false)
    (hS : S = [] ∨ ∃ h2 S2, S = h2 :: S2 ∧ isHdr h2 = true) :
    ((alignPS incl [] (X ++ h :: (B ++ S))).drop (X.length + 1)).take B.length =
      alignSection B incl := by
  have h1 := alignPS_drop incl X [] (B ++ S) h hhd
  rw [List.length_nil, Nat.zero_add] at h1
  have h2 : (alignPS incl [] (X ++ h :: (B ++ S))).drop (X.length + 1) =
      alignPS incl [] (B ++ S) := by
    rw [← List.drop_drop, h1, List.drop_succ_cons, List.drop_zero]
  rw [h2, alignPS_prefix incl B [] S hB, List.nil_append]
  rcases hS with rfl | ⟨h3, S2, rfl, hh3⟩
  · rw [alignPS_nil, List.take_of_length_le (Nat.le_of_eq (alignSection_length B incl))]
  · rw [alignPS_cons_hdr _ _ _ hh3, List.take_left' (alignSection_length B incl)]

/-! ## The claims -/

theorem alignSection_getElem_kv {L : List Str} {incl : Bool} {i : Nat}
    {line b a : Str} (hL : L[i]? = some line)
    (hcb : isCommentBlank (trimSpace (trimRight line)) = false)
    (hsp : splitAtFirst '=' (trimRight line) = some (b, a)) :
    (alignSection L incl)[i]? =
      some (trimSpace b ++ spaces (maxKeyLen L incl - (trimSpace b).length) ++
        [' ', '=', ' '] ++ joinFields a) := by
  rw [alignSection_def, List.getElem?_map, hL, Option.map_some',
    rewriteLine_kv hcb hsp]

/-- C1: the claim says a key/value line is rewritten as
`key_text ++ pad (maxCol - pos) ++ "=" ++ value_text` with untrimmed key and
value around the first `=`.  The code instead trims the key, pads by trimmed
key length, and emits `" = "` with the value's whitespace runs collapsed:
on the line `"ab =c"` the spec formula reproduces the input while
`alignSection` yields `"ab = c"` (see the counterexample).  This theorem
states the rewrite the code actually performs. -/
theorem C1_kv_rewrite (L : List Str) (incl : Bool) (i : Nat) (line b a : Str)
    (hL : L[i]? = some line)
    (hcb : isCommentBlank (trimSpace (trimRight line)) = false)
    (hsp : splitAtFirst '=' (trimRight line) = some (b, a)) :
    (alignSection L incl)[i]? =
      some (trimSpace b ++ spaces (maxKeyLen L incl - (trimSpace b).length) ++
        [' ', '=', ' '] ++ joinFields a) :=
  alignSection_getElem_kv hL hcb hsp

theorem C1_kv_rewrite_witness :
    (alignSection ["ab =c".toList] false)[0]? =
      some (trimSpace "ab ".toList ++
        spaces (maxKeyLen ["ab =c".toList] false - (trimSpace "ab ".toList).length) ++
        [' ', '=', ' '] ++ joinFields "c".toList) :=
  C1_kv_rewrite ["ab =c".toList] false 0 "ab =c".toList "ab ".toList "c".toList
    (by decide) (by decide) (by decide)

theorem C1_counterexample :
    alignSection ["ab =c".toList] false = ["ab = c".toList] ∧
      ("ab = c".toList : Str) ≠ "ab =c".toList := by
  decide

/-- C2: the claim says the alignment column is the maximum raw character
offset of the first `=`, counted from the start of the untrimmed line.  The
code's first pass (`maxKeyLen`) instead takes the maximum trimmed key
length (leading whitespace does not count), and the rewritten delimiter
lands at offset `maxKeyLen + 1`, not at the spec's raw-offset column (see
the counterexample against the spec-modelled `specMaxCol`).  This theorem
states the column rule the code actually enforces: every rewritten
key/value line has its first `=` at offset `maxKeyLen L incl + 1`. -/
theorem C2_alignment_column (L : List Str) (incl : Bool) (i : Nat) (line b a : Str)
    (hL : L[i]? = some line)
    (hcb : isCommentBlank (trimSpace (trimRight line)) = false)
    (hsp : splitAtFirst '=' (trimRight line) = some (b, a)) :
    ∃ out, (alignSection L incl)[i]? = some out ∧
      eqOffset out = some (maxKeyLen L incl + 1) := by
  have hnb := (splitAtFirst_eq_some hsp).2
  refine ⟨_, alignSection_getElem_kv hL hcb hsp, ?_⟩
  unfold eqOffset
  rw [shape_split (P := spaces (maxKeyLen L incl - (trimSpace b).length))
    (R := joinFields a) (not_mem_trimSpace hnb)
    (fun c hc => List.eq_of_mem_replicate hc), Option.map_some']
  have hle : (trimSpace b).length ≤ maxKeyLen L incl :=
    maxKeyLen_ge (List.getElem?_mem hL) (lineKeyLen_of_kv hcb hsp)
  simp only [List.length_append, List.length_singleton, spaces,
    List.length_replicate]
  congr 1
  omega

theorem C2_alignment_column_witness :
    ∃ out, (alignSection ["  key=1".toList, "k=2".toList] false)[0]? = some out ∧
      eqOffset out = some (maxKeyLen ["  key=1".toList, "k=2".toList] false + 1) :=
  C2_alignment_column ["  key=1".toList, "k=2".toList] false 0 "  key=1".toList
    "  key".toList "1".toList (by decide) (by decide) (by decide)

theorem C2_counterexample :
    maxKeyLen ["  key=1".toList, "k=2".toList] false = 3 ∧
      specMaxCol ["  key=1".toList, "k=2".toList] false = 5 ∧ (3 : Nat) ≠ 5 := by
  decide

/-- C3: on the scenario input the code does not produce the spec's
raw-offset alignment `["key1     =val1","longerkey=val2","k        =v"]`
(see the counterexample); it pads to the maximal trimmed key length and
surrounds `=` with single spaces.  This theorem records the output
`alignIni` actually produces in global mode with comments excluded. -/
theorem C3_aligned_scenario :
    alignIni ["key1=val1".toList, "longerkey=val2".toList, "k=v".toList]
        false false =
      ["key1      = val1".toList, "longerkey = val2".toList,
        "k         = v".toList] := by
  decide

theorem C3_counterexample :
    alignIni ["key1=val1".toList, "longerkey=val2".toList, "k=v".toList]
        false false ≠
      ["key1     =val1".toList, "longerkey=val2".toList, "k        =v".toList] := by
  decide

/-- C4: the claim says every `singleSpaceFormat` output line containing `=`
contains `" = "` exactly once and has no trailing whitespace.  The code
violates both parts: `"key="` becomes `"key = "` (trailing space, empty
value), and `"a=b = c"` becomes `"a = b = c"` (the value keeps its own
`" = "`, so the substring occurs twice) — see the counterexample.  This
theorem states the property that actually holds: it is restricted to lines
whose value part contains no further `=` and at least one field. -/
theorem C4_single_space (L : List Str) (i : Nat) (line b a : Str)
    (hL : L[i]? = some line)
    (hsp : splitAtFirst '=' (trimRight line) = some (b, a))
    (hva : '=' ∉ a) (hfa : fields a ≠ []) :
    ∃ out, (singleSpaceFormat L)[i]? = some out ∧
      countSub [' ', '=', ' '] out = 1 ∧
      ∀ c, out.getLast? = some c → isWS c = false := by
  have hnb := (splitAtFirst_eq_some hsp).2
  have hout : (singleSpaceFormat L)[i]? = some (ssLine line) := by
    unfold singleSpaceFormat
    rw [List.getElem?_map, hL, Option.map_some']
  have hss : ssLine line = trimSpace b ++ [' ', '=', ' '] ++ joinFields a :=
    ssLine_of_some hsp
  refine ⟨ssLine line, hout, ?_, ?_⟩
  · rw [hss]
    refine countSub_single (trimSpace b) (joinFields a)
      (not_mem_trimSpace hnb) ?_
    intro hm
    rcases mem_joinFields hm with h5 | h5
    · exact absurd h5 (by decide)
    · exact hva h5
  · intro c hc
    rw [hss] at hc
    obtain ⟨z, hz⟩ := exists_getLast? (joinFields_ne_nil hfa)
    have h6 : (trimSpace b ++ [' ', '=', ' '] ++ joinFields a).getLast? = some z := by
      rw [List.getLast?_append, hz]
      rfl
    rw [h6] at hc
    simp only [Option.some.injEq] at hc
    subst hc
    exact getLast?_joinFields hz

theorem C4_single_space_witness :
    ∃ out, (singleSpaceFormat ["x=1".toList])[0]? = some out ∧
      countSub [' ', '=', ' '] out = 1 ∧
      ∀ c, out.getLast? = some c → isWS c = false :=
  C4_single_space ["x=1".toList] 0 "x=1".toList "x".toList "1".toList
    (by decide) (by decide) (by decide) (by decide)

theorem C4_counterexample :
    singleSpaceFormat ["key=".toList, "a=b = c".toList] =
        ["key = ".toList, "a = b = c".toList] ∧
      countSub [' ', '=', ' '] ("a = b = c".toList) = 2 ∧
      ("key = ".toList : Str).getLast? = some ' ' := by
  decide

/-- C5: `alignIni` (the `format_aligned` of the spec) is idempotent for
every input line sequence and every combination of the `perSection` and
`includeComments` flags. -/
theorem C5_idempotent (lines : List Str) (ps incl : Bool) :
    alignIni (alignIni lines ps incl) ps incl = alignIni lines ps incl :=
  alignIni_idem lines ps incl

/-- C6: both `alignIni` and `singleSpaceFormat` are total functions of the
materialized line list (they are plain Lean functions here; the only Go
failure path is the scanner's I/O error, outside the formatting core), they
preserve the number of lines, and output line `i` is derived from input
line `i` alone — position by position, no line is dropped, duplicated or
reordered: `singleSpaceFormat` emits `ssLine` of line `i`, and `alignIni`
emits the header output of line `i` for per-section headers and otherwise
the rewrite of line `i` at its block's column `m`. -/
theorem C6_total_positional (lines : List Str) (ps incl : Bool) :
    (alignIni lines ps incl).length = lines.length ∧
      (singleSpaceFormat lines).length = lines.length ∧
      (∀ i : Nat, (singleSpaceFormat lines)[i]? = (lines[i]?).map ssLine) ∧
      (∀ i : Nat, ∃ m : Nat, (alignIni lines ps incl)[i]? =
        (lines[i]?).map (fun x =>
          if ps && isHdr (prePass x) then hdrOut (prePass x)
          else rewriteLine m incl (prePass x))) := by
  refine ⟨alignIni_length lines ps incl, List.length_map lines ssLine, ?_, ?_⟩
  · intro i
    unfold singleSpaceFormat
    rw [List.getElem?_map]
  · intro i
    cases ps with
    | false =>
      refine ⟨maxKeyLen (lines.map prePass) incl, ?_⟩
      rw [alignIni_false_def, alignSection_def, List.getElem?_map,
        List.getElem?_map, Option.map_map]
      have hfun : (rewriteLine (maxKeyLen (lines.map prePass) incl) incl ∘
          prePass) = (fun x =>
            if false && isHdr (prePass x) then hdrOut (prePass x)
            else rewriteLine (maxKeyLen (lines.map prePass) incl) incl
              (prePass x)) := by
        funext x
        simp
      rw [hfun]
    | true =>
      obtain ⟨m, hm⟩ := alignPS_derived incl (lines.map prePass) []
        (fun x hx => absurd hx (List.not_mem_nil x)) i
      refine ⟨m, ?_⟩
      rw [alignIni_true_def, hm, List.nil_append, List.getElem?_map,
        Option.map_map]
      have hfun : ((fun x => if isHdr x then hdrOut x
          else rewriteLine m incl x) ∘ prePass) = (fun x =>
            if true && isHdr (prePass x) then hdrOut (prePass x)
            else rewriteLine m incl (prePass x)) := by
        funext x
        simp
      rw [hfun]

/-- C7: the claim says a header line is never rewritten under the key/value
rule in both modes.  In global mode it is false: `alignSection` has no
header case, so the pre-passed header `"[s] ; x=1"` is split at its `=` and
rewritten to `"[s] ; x = 1"` (see the counterexample).  In per-section mode
it holds for every header anywhere in the input: the line at any position
`L1.length` whose pre-passed text is a header is emitted by the partition
loop as `hdrOut` of that pre-passed form, outside any `alignSection`
block. -/
theorem C7_per_section_header (incl : Bool) (L1 L2 : List Str) (h : Str)
    (hhd : isHdr (prePass h) = true) :
    (alignIni (L1 ++ h :: L2) true incl)[L1.length]? =
      some (hdrOut (prePass h)) := by
  have h9 := alignPS_drop incl (L1.map prePass) [] (L2.map prePass) (prePass h) hhd
  rw [List.length_nil, Nat.zero_add, List.length_map] at h9
  rw [alignIni_true_def, List.map_append, List.map_cons,
    show (L1.length : Nat) = L1.length + 0 from (Nat.add_zero _).symm,
    ← List.getElem?_drop, h9, List.getElem?_cons_zero]

theorem C7_per_section_header_witness :
    (alignIni (["[a]".toList] ++ "[s] ; x=1".toList :: ([] : List Str))
        true false)[(["[a]".toList] : List Str).length]? =
      some (hdrOut (prePass "[s] ; x=1".toList)) :=
  C7_per_section_header false ["[a]".toList] [] "[s] ; x=1".toList (by decide)

theorem C7_counterexample :
    alignIni ["[s] ; x=1".toList] false false = ["[s] ; x = 1".toList] ∧
      ("[s] ; x = 1".toList : Str) ≠ "[s] ; x=1".toList := by
  decide

/-- C8: section isolation in per-section mode.  For a section delimited by
its header and the next header (or end of input), with a header-free body
`B`, the block of output lines `alignIni` emits for that section equals
`alignSection` of the section's own pre-passed body — a value that mentions
neither the preceding lines, the section's header, nor anything after the
section.  Hence two inputs with identical body lines for the section but
arbitrarily different other sections (different prefixes `X`/`Y`, headers
`g`/`h` and delimited suffixes `S`/`T`) produce identical output lines for
it, and no header line enters any block's alignment computation. -/
theorem C8_section_isolation (incl : Bool) (X Y B S T : List Str) (g h : Str)
    (hg : isHdr (prePass g) = true) (hh : isHdr (prePass h) = true)
    (hB : ∀ x ∈ B, isHdr (prePass x) = false)
    (hS : S = [] ∨ ∃ h2 S2, S = h2 :: S2 ∧ isHdr (prePass h2) = true)
    (hT : T = [] ∨ ∃ h2 T2, T = h2 :: T2 ∧ isHdr (prePass h2) = true) :
    ((alignIni (X ++ g :: (B ++ S)) true incl).drop (X.length + 1)).take B.length =
        alignSection (B.map prePass) incl ∧
      ((alignIni (X ++ g :: (B ++ S)) true incl).drop (X.length + 1)).take
          B.length =
        ((alignIni (Y ++ h :: (B ++ T)) true incl).drop (Y.length + 1)).take
          B.length := by
  have hBp : ∀ x ∈ B.map prePass, isHdr x = false := by
    intro x hx
    rw [List.mem_map] at hx
    obtain ⟨y, hy, rfl⟩ := hx
    exact hB y hy
  have key : ∀ (Z : List Str) (g2 : Str) (U : List Str),
      isHdr (prePass g2) = true →
      (U = [] ∨ ∃ h2 U2, U = h2 :: U2 ∧ isHdr (prePass h2) = true) →
      ((alignIni (Z ++ g2 :: (B ++ U)) true incl).drop (Z.length + 1)).take
          B.length =
        alignSection (B.map prePass) incl := by
    intro Z g2 U hg2 hU
    rw [alignIni_true_def, List.map_append, List.map_cons, List.map_append]
    have hUp : (U.map prePass) = [] ∨
        ∃ h2 S2, U.map prePass = h2 :: S2 ∧ isHdr h2 = true := by
      rcases hU with rfl | ⟨h2, U2, rfl, hh2⟩
      · exact Or.inl rfl
      · exact Or.inr ⟨prePass h2, U2.map prePass, by rw [List.map_cons], hh2⟩
    have h9 := alignPS_block incl (Z.map prePass) (B.map prePass) (U.map prePass)
      (prePass g2) hg2 hBp hUp
    rw [List.length_map, List.length_map] at h9
    exact h9
  exact ⟨key X g S hg hS, (key X g S hg hS).trans (key Y h T hh hT).symm⟩

theorem C8_section_isolation_witness :
    ((alignIni (["x=1".toList] ++ "[s]".toList ::
          (["aa=1".toList, "b=2".toList] ++ ([] : List Str))) true false).drop
        ((["x=1".toList] : List Str).length + 1)).take
        (["aa=1".toList, "b=2".toList] : List Str).length =
      alignSection ((["aa=1".toList, "b=2".toList] : List Str).map prePass)
        false ∧
    ((alignIni (["x=1".toList] ++ "[s]".toList ::
          (["aa=1".toList, "b=2".toList] ++ ([] : List Str))) true false).drop
        ((["x=1".toList] : List Str).length + 1)).take
        (["aa=1".toList, "b=2".toList] : List Str).length =
      ((alignIni (([] : List Str) ++ "[sec two]".toList ::
          (["aa=1".toList, "b=2".toList] ++ ["[t]".toList, "z=987".toList]))
          true false).drop ((([] : List Str)).length + 1)).take
        (["aa=1".toList, "b=2".toList] : List Str).length :=
  C8_section_isolation false ["x=1".toList] [] ["aa=1".toList, "b=2".toList]
    [] ["[t]".toList, "z=987".toList] "[s]".toList "[sec two]".toList
    (by decide) (by decide) (by decide) (Or.inl rfl)
    (Or.inr ⟨"[t]".toList, ["z=987".toList], rfl, by decide⟩)

/-- C9: the claim says every line without `=` passes through both modes
unchanged except for trailing-whitespace trimming.  For `singleSpaceFormat`
that is exactly true, but `alignIni` first normalizes section headers:
`"  [s]"` contains no `=` yet comes out as `"[s]"`, not as its
trailing-trimmed self (see the counterexample); and with comments included,
comment and blank lines are right-padded.  This theorem states the
passthrough that actually holds: unconditionally for `singleSpaceFormat`,
and for `alignIni` in both global and per-section mode, for any flags,
whenever the line is not a section header and, if comments are included in
alignment, not a comment/blank line. -/
theorem C9_passthrough (L : List Str) (ps incl : Bool) (i : Nat) (line : Str)
    (hL : L[i]? = some line) (hne : '=' ∉ line) :
    (singleSpaceFormat L)[i]? = some (trimRight line) ∧
      (isHdr line = false →
        (incl = true → isCommentBlank (trimSpace line) = false) →
        (alignIni L ps incl)[i]? = some (trimRight line)) := by
  have hsp : splitAtFirst '=' (trimRight line) = none :=
    splitAtFirst_eq_none.mpr (fun hm => hne (mem_trimRight hm))
  constructor
  · unfold singleSpaceFormat
    rw [List.getElem?_map, hL, Option.map_some', ssLine_of_none hsp]
  · intro hH hcm
    have hppl : prePass line = trimRight line := prePass_non_hdr hH
    have hcore : ∀ m, rewriteLine m incl (prePass line) = trimRight line := by
      intro m
      rw [hppl, rewriteLine_trimRight]
      exact rewriteLine_passthrough m incl hsp hcm
    cases ps with
    | false =>
      rw [alignIni_false_def, alignSection_def, List.getElem?_map,
        List.getElem?_map, hL]
      simp only [Option.map_some']
      rw [hcore]
    | true =>
      obtain ⟨m, hm⟩ := alignPS_derived incl (L.map prePass) []
        (fun x hx => absurd hx (List.not_mem_nil x)) i
      rw [alignIni_true_def, hm, List.nil_append, List.getElem?_map, hL]
      simp only [Option.map_some']
      have hHp : isHdr (prePass line) = false := by
        rw [hppl, isHdr_trimRight]
        exact hH
      rw [if_neg (by rw [hHp]; simp), hcore]

theorem C9_passthrough_witness :
    (singleSpaceFormat ["abc  ".toList])[0]? = some (trimRight "abc  ".toList) ∧
      (alignIni ["abc  ".toList] true true)[0]? =
        some (trimRight "abc  ".toList) := by
  have h9 := C9_passthrough ["abc  ".toList] true true 0 "abc  ".toList
    (by decide) (by decide)
  exact ⟨h9.1, h9.2 (by decide) (fun h2 => by decide)⟩

theorem C9_counterexample :
    alignIni ["  [s]".toList] false false = ["[s]".toList] ∧
      '=' ∉ "  [s]".toList ∧
      ("[s]".toList : Str) ≠ trimRight "  [s]".toList := by
  decide

/-- C10: `singleSpaceFormat` is idempotent on every input sequence, and in
particular `"key="` reaches the fixed point `"key = "` after one
application. -/
theorem C10_single_space_idempotent :
    (∀ lines : List Str, singleSpaceFormat (singleSpaceFormat lines) =
      singleSpaceFormat lines) ∧
    singleSpaceFormat ["key=".toList] = ["key = ".toList] ∧
    singleSpaceFormat ["key = ".toList] = ["key = ".toList] :=
  ⟨singleSpaceFormat_idem, by decide, by decide⟩

end Inifmt
